import Mathlib

/-!
CustomIndices: a verification development

Shallow embedding of `src/CustomIndices/CustomIndices.cpp`.

* `Value` objects live on a heap (`Memory.cells`); a `ValuePtr` (the C++
  `shared_ptr<Value>`) is the allocation index of the object it points to. Objects are never
  released: reference counts and destructors, which run when `main` leaves its try block,
  are not part of the embedding, and neither is the stack they use.
* The only closures the program ever stores in `Value::m_fn` are the two lambdas
  built by `ParseRule`; a closure is therefore represented by its captures
  (`Fn.plus`, `Fn.arg1`, `Fn.arg2`).
* `double` is the IEEE 754 binary64 format (`Dbl`): sums and differences are rounded to the
  nearest `double`, overflow to an infinity, and `Dbl.num q` is the `double` nearest to the
  rational `q`. Where IEEE 754 and C++ leave a choice to the target (the sign bit of a
  result that is not a number, the text of a `double`), the target is x86-64 with GCC and
  the GNU C library.
* `Memory.calls` is a ghost trace: the cells whose closure body was entered, in order.
* `std::stod` is a library function; it is a parameter of the functions that use it.
* In `arg1->GetValue() + arg2->GetValue()` the left operand is read first; C++ leaves the
  order open, and on the heaps the program builds the result does not depend on it.
* C++ exceptions are modelled by returning `Except Exception Unit` together with
  the state reached when the exception left the function.
* Facts about the run on a concrete input are checked by evaluation in the kernel
  (`decide!`).
-/

namespace CustomIndices

/-- The C++ `double` of the target, an IEEE 754 binary64 number: a finite number is its
sign bit, its biased exponent (11 bits, below 2047) and its fraction (52 bits); besides
there are the two infinities and the not-a-numbers, of which the sign bit is kept (the
library prints it) and the payload is not. -/
inductive Dbl where
  | nan (sign : Bool) : Dbl
  | inf (sign : Bool) : Dbl
  | fin (sign : Bool) (exponent : Fin 2047) (fraction : Fin 4503599627370496) : Dbl
deriving DecidableEq

/-- The macro `NAN` of `<cmath>` (line 48): a quiet not-a-number with the sign bit clear. -/
def NAN : Dbl := .nan false

/-- The magnitude of a finite `double` as a multiple of `2 ^ -1074`, the smallest positive
`double`: the fraction itself for exponent 0 (zero and the subnormal numbers), and the
fraction with its implicit leading bit, shifted by the exponent, otherwise. -/
def Dbl.units (exponent : Fin 2047) (fraction : Fin 4503599627370496) : Nat :=
  if exponent.val = 0 then fraction.val else (2 ^ 52 + fraction.val) * 2 ^ (exponent.val - 1)

/-- The value of a finite `double` as a multiple of `2 ^ -1074`, with its sign. -/
def Dbl.signed (sign : Bool) (exponent : Fin 2047) (fraction : Fin 4503599627370496) : Int :=
  if sign then -(Dbl.units exponent fraction : Int) else (Dbl.units exponent fraction : Int)

/-- The exact value of a finite `double`; `none` for the infinities and not-a-numbers. -/
def Dbl.toRat : Dbl → Option ℚ
  | .fin sign exponent fraction => some ((Dbl.signed sign exponent fraction : ℚ) / 2 ^ 1074)
  | _ => none

/-- The integer nearest to `a / b`, ties going to the even one (the rounding mode of the
program, which never changes the default). -/
def roundHalfEven (a b : Nat) : Nat :=
  if 2 * (a % b) < b then a / b
  else if b < 2 * (a % b) then a / b + 1
  else if a / b % 2 = 0 then a / b else a / b + 1

/-- The position of the leading bit of `n` below `2 ^ 2 ^ j`, by halving the range. -/
def ilog2Aux : Nat → Nat → Nat
  | 0, _ => 0
  | j + 1, n =>
    if n / 2 ^ 2 ^ j = 0 then ilog2Aux j n else 2 ^ j + ilog2Aux j (n / 2 ^ 2 ^ j)

/-- The position of the leading bit of `n`, for `n` below `2 ^ 4096`. -/
def ilog2 (n : Nat) : Nat := ilog2Aux 12 n

/-- The magnitude, in multiples of `2 ^ -1074`, of the `double` nearest to `a / b` of them
(ties to even): a number with at most 53 significant bits. A result of `2 ^ 2098` or more
(that is `2 ^ 1024`) means that the rounded number is beyond the largest `double`. -/
@[irreducible] def Dbl.roundUnits (a b : Nat) : Nat :=
  if 2 ^ 2098 ≤ a / b then 2 ^ 2098
  else roundHalfEven a (b * 2 ^ (ilog2 (a / b) - 52)) * 2 ^ (ilog2 (a / b) - 52)

/-- The `double` with the given sign and magnitude (in multiples of `2 ^ -1074`, with at
most 53 significant bits); the infinity when the magnitude is beyond the largest `double`.
For such a magnitude the exponent and the fraction are below the sizes of their fields, so
the reductions modulo these sizes change nothing. -/
@[irreducible] def Dbl.ofUnits (sign : Bool) (n : Nat) : Dbl :=
  if 2 ^ 2098 ≤ n then .inf sign
  else if n < 2 ^ 52 then .fin sign 0 ⟨n % 4503599627370496, Nat.mod_lt _ (by decide)⟩
  else .fin sign ⟨(ilog2 n - 51) % 2047, Nat.mod_lt _ (by decide)⟩
    ⟨(n / 2 ^ (ilog2 n - 52) - 2 ^ 52) % 4503599627370496, Nat.mod_lt _ (by decide)⟩

/-- The `double` nearest to the rational `q` (ties to even, an infinity beyond the range):
what a correctly rounded conversion of the decimal text of `q` gives. -/
def Dbl.num (q : ℚ) : Dbl :=
  Dbl.ofUnits (decide (q < 0)) (Dbl.roundUnits (q.num.natAbs * 2 ^ 1074) q.den)

/-- The C++ `operator+` on `double` (line 105), IEEE 754 addition in the default rounding
mode: the exact sum of two finite numbers rounded to the nearest `double`, ties to even, an
infinity when that is beyond the range; an exact sum of zero is `+0` unless both operands
are `-0`. IEEE 754 leaves the sign bit of a result that is not a number to the target; the
one taken here is GCC on x86-64: the sum of the two opposite infinities has the sign bit
set, and with an operand that is not a number the result is that operand, of two the right
one (the left operand is added to the right one, which was read last). -/
def Dbl.add : Dbl → Dbl → Dbl
  | _, .nan t => .nan t
  | .nan s, _ => .nan s
  | .inf s, .inf t => if s = t then .inf s else .nan true
  | .inf s, .fin _ _ _ => .inf s
  | .fin _ _ _, .inf t => .inf t
  | .fin s e f, .fin t g h =>
    if Dbl.signed s e f + Dbl.signed t g h = 0 then .fin (s && t) 0 0
    else Dbl.ofUnits (decide (Dbl.signed s e f + Dbl.signed t g h < 0))
      (Dbl.roundUnits (Dbl.signed s e f + Dbl.signed t g h).natAbs 1)

/-- The C++ `operator-` on `double` (line 106), IEEE 754 subtraction: for numbers the sum
with the negated right operand, so that the difference of two equal infinities is not a
number, with the sign bit set; with an operand that is not a number the result is that
operand, of two the left one (GCC on x86-64). -/
def Dbl.sub : Dbl → Dbl → Dbl
  | .nan s, _ => .nan s
  | _, .nan t => .nan t
  | .inf s, .inf t => if s = t then .nan true else .inf s
  | .fin _ _ _, .inf t => .inf (!t)
  | a, .fin t g h => a.add (.fin (!t) g h)

instance : Add Dbl := ⟨Dbl.add⟩
instance : Sub Dbl := ⟨Dbl.sub⟩

/-- A `shared_ptr<Value>`: the allocation index of the pointee. -/
abbrev ValuePtr := Nat

/-- The closures of `ParseRule` (lines 105-106): `plus` tells which of the two lambdas,
`arg1` and `arg2` are the captured pointers. -/
structure Fn where
  plus : Bool
  arg1 : ValuePtr
  arg2 : ValuePtr
deriving DecidableEq

/-- The class `Value` (lines 20-50). `m_fn = none` is the empty `std::function`. -/
structure Value where
  m_initialized : Bool := false
  m_value : Dbl := NAN
  m_fn : Option Fn
deriving DecidableEq

/-- The heap of `Value` objects, with the ghost trace of closure invocations. -/
structure Memory where
  cells : List Value
  calls : List ValuePtr
deriving DecidableEq

/-- The `make_shared<Value>(fn)` of line 112: a fresh object at the next index. -/
def make_shared (fn : Option Fn) (m : Memory) : ValuePtr × Memory :=
  (m.cells.length, { m with cells := m.cells ++ [{ m_fn := fn }] })

/-- The method `Value::SetValue` (lines 28-32) on the object at `p`. -/
def Value.SetValue (p : ValuePtr) (value : Dbl) (m : Memory) : Memory :=
  { m with cells := m.cells.modify (fun v => { v with m_value := value, m_initialized := true }) p }

/-- The method `Value::GetValue` (lines 34-45) on the object at `p`. The closure calls
`GetValue` on its captured pointers, left operand first; `fuel` bounds the depth of
that recursion, and `none` means the bound was hit (or `p` is not an object). -/
def Value.GetValue : Nat → Memory → ValuePtr → Option (Dbl × Memory)
  | 0, _, _ => none
  | fuel + 1, m, p =>
    match m.cells[p]? with
    | none => none
    | some v =>
      if v.m_initialized then some (v.m_value, m)
      else
        match v.m_fn with
        | some fn =>
          match Value.GetValue fuel { m with calls := m.calls ++ [p] } fn.arg1 with
          | none => none
          | some (a, m1) =>
            match Value.GetValue fuel m1 fn.arg2 with
            | none => none
            | some (b, m2) =>
              let r := if fn.plus then a + b else a - b
              some (r, Value.SetValue p r m2)
        | none =>
          some (v.m_value,
            { m with cells := m.cells.modify (fun c => { c with m_initialized := true }) p })

/-- The exceptions the program can raise: `std::invalid_argument` (line 110, `stod`)
and `std::out_of_range` (`vector::at`, `unordered_map::at`, `stod`). The texts of the
library's exceptions are implementation-defined; the origin stands for them. -/
inductive Exception where
  | invalid_argument (what : String) : Exception
  | out_of_range (what : String) : Exception
deriving DecidableEq

/-- The text `e.what()` printed by `main` (line 176). -/
def Exception.what : Exception → String
  | .invalid_argument w => w
  | .out_of_range w => w

/-- The type `Quote` (line 17): the fields of one input line. -/
abbrev Quote := List String

/-- The call `quote.at(i)`. -/
def Quote.at (quote : Quote) (i : Nat) : Except Exception String :=
  match quote[i]? with
  | some item => .ok item
  | none => .error (.out_of_range "vector::at")

/-- The call `emplace` of `std::map<string, ValuePtr>`: the entries are kept in
ascending key order, and nothing is inserted when the key is present. Keys are compared
with `<` on `String`, which on UTF-8 text is the byte-wise order of `std::string`. -/
def mapEmplace (id : String) (value : ValuePtr) :
    List (String × ValuePtr) → List (String × ValuePtr)
  | [] => [(id, value)]
  | (k, w) :: rest =>
    if id < k then (id, value) :: (k, w) :: rest
    else if k < id then (k, w) :: mapEmplace id value rest
    else (k, w) :: rest

/-- The struct `Database` (lines 53-57). `values` is the `unordered_map` (an association
list, read with `lookup`), `indices` the `std::map` (sorted by key), and
`indexDependencies` the `deque`. -/
structure Database where
  values : List (String × ValuePtr)
  indices : List (String × ValuePtr)
  indexDependencies : List ValuePtr
deriving DecidableEq

/-- The whole program state: the heap and the database. -/
structure State where
  mem : Memory
  db : Database
deriving DecidableEq

/-- The state of `main` at line 168: an empty database, no objects. -/
def State.empty : State := ⟨⟨[], []⟩, ⟨[], [], []⟩⟩

/-- The method `Database::GetValue` (lines 70-73): `values.at(id)`. -/
def Database.GetValue (db : Database) (id : String) : Except Exception ValuePtr :=
  match db.values.lookup id with
  | some p => .ok p
  | none => .error (.out_of_range "unordered_map::at")

/-- The method `Database::AddValue` (lines 75-78): `values.emplace(id, value)`, which inserts
nothing when `id` is present. -/
def Database.AddValue (id : String) (value : ValuePtr) (db : Database) : Database :=
  match db.values.lookup id with
  | some _ => db
  | none => { db with values := db.values ++ [(id, value)] }

/-- The method `Database::AddIndex` (lines 80-84). -/
def Database.AddIndex (id : String) (value : ValuePtr) (db : Database) : Database :=
  { db with indices := mapEmplace id value db.indices,
            indexDependencies := db.indexDependencies ++ [value] }

/-- The method `Database::SetValue` (lines 86-89). -/
def Database.SetValue (id : String) (value : Dbl) (s : State) : Except Exception Unit × State :=
  match s.db.GetValue id with
  | .error e => (.error e, s)
  | .ok p => (.ok (), { s with mem := Value.SetValue p value s.mem })

/-- The loop body of `CalcIndices` over the remaining entries of `indexDependencies`. -/
def CalcLoop (fuel : Nat) : List ValuePtr → Memory → Option Memory
  | [], m => some m
  | index :: rest, m =>
    match Value.GetValue fuel m index with
    | none => none
    | some (_, m1) => CalcLoop fuel rest m1

/-- The method `Database::CalcIndices` (lines 62-68). -/
def Database.CalcIndices (fuel : Nat) (s : State) : Option State :=
  match CalcLoop fuel s.db.indexDependencies s.mem with
  | none => none
  | some m => some { s with mem := m }

/-- Lines 100-111 of `ParseRule`: the closure `fn` of the rule, or the exception raised
while building it. Nothing is written before line 112. -/
def ParseRule.fn (quote : Quote) (operation : String) (db : Database) :
    Except Exception (Option Fn) :=
  if operation = "+" ∨ operation = "-" then
    match quote.at 3 with
    | .error e => .error e
    | .ok n1 =>
      match db.GetValue n1 with
      | .error e => .error e
      | .ok arg1 =>
        match quote.at 4 with
        | .error e => .error e
        | .ok n2 =>
          match db.GetValue n2 with
          | .error e => .error e
          | .ok arg2 => .ok (some ⟨operation = "+", arg1, arg2⟩)
  else if operation ≠ "S" then .error (.invalid_argument "Unknown operation")
  else .ok none

/-- The function `ParseRule` (lines 94-119). -/
def ParseRule (quote : Quote) (s : State) : Except Exception Unit × State :=
  match quote.at 1 with
  | .error e => (.error e, s)
  | .ok id =>
    match quote.at 2 with
    | .error e => (.error e, s)
    | .ok operation =>
      match ParseRule.fn quote operation s.db with
      | .error e => (.error e, s)
      | .ok fn =>
        let (value, mem) := make_shared fn s.mem
        let db := s.db.AddValue id value
        (.ok (), ⟨mem, if fn.isSome then db.AddIndex id value else db⟩)

/-- The function `ParseQuote` (lines 121-134). The arguments of `db.SetValue` are
evaluated before the call, so `stod` runs before `values.at`. -/
def ParseQuote (stod : String → Except Exception Dbl) (quote : Quote) (s : State) :
    Except Exception Unit × State :=
  match quote with
  | [] => (.ok (), s)
  | front :: _ =>
    if front = "R" then ParseRule quote s
    else if front = "Q" then
      match quote.at 1 with
      | .error e => (.error e, s)
      | .ok id =>
        match quote.at 2 with
        | .error e => (.error e, s)
        | .ok literal =>
          match stod literal with
          | .error e => (.error e, s)
          | .ok value => Database.SetValue id value s
    else (.ok (), s)

/-- One line of standard output: a report line `name: value` of `PrintIndices`, or the
text of an exception printed by `main`. -/
inductive OutLine where
  | report (name : String) (value : Dbl) : OutLine
  | error (what : String) : OutLine
deriving DecidableEq

/-- The loop of `PrintIndices` over the remaining entries of `indices`. -/
def PrintLoop (fuel : Nat) : List (String × ValuePtr) → Memory → Option (List OutLine × Memory)
  | [], m => some ([], m)
  | index :: rest, m =>
    match Value.GetValue fuel m index.2 with
    | none => none
    | some (v, m1) =>
      match PrintLoop fuel rest m1 with
      | none => none
      | some (out, m2) => some (OutLine.report index.1 v :: out, m2)

/-- The function `PrintIndices` (lines 136-143): the lines written to `out`. -/
def PrintIndices (fuel : Nat) (s : State) : Option (List OutLine × State) :=
  match PrintLoop fuel s.db.indices s.mem with
  | none => none
  | some (out, m) => some (out, { s with mem := m })

/-- The items that repeated `getline(stream, item, delim)` extracts from a stream: the
pieces between delimiters, without an empty piece after the last delimiter. -/
def getlines (delim : Char) : List Char → List (List Char)
  | [] => []
  | c :: cs =>
    if c = delim then [] :: getlines delim cs
    else
      match getlines delim cs with
      | [] => [[c]]
      | item :: items => (c :: item) :: items

/-- The records `ReadDatabase` hands to `ParseQuote`: the nonempty lines of the input,
each split at the character `|`. -/
def records (input : String) : List Quote :=
  ((getlines '\n' input.data).filter (fun line => !line.isEmpty)).map
    (fun line => (getlines '|' line).map String.mk)

/-- The loop of `ReadDatabase` over the remaining records; an exception ends it. -/
def ReadLoop (stod : String → Except Exception Dbl) : List Quote → State →
    Except Exception Unit × State
  | [], s => (.ok (), s)
  | quote :: rest, s =>
    match ParseQuote stod quote s with
    | (.error e, s1) => (.error e, s1)
    | (.ok (), s1) => ReadLoop stod rest s1

/-- The function `ReadDatabase` (lines 145-162). -/
def ReadDatabase (stod : String → Except Exception Dbl) (input : String) (s : State) :
    Except Exception Unit × State :=
  ReadLoop stod (records input) s

/-- The function `main` (lines 164-181): the exit status and the lines written to standard
output; `none` when the evaluation hit the recursion bound `fuel`. The release of `db` when
control leaves the try block (line 173, or the unwinding before line 174) is not part of the
embedding: it writes nothing, and whether its chain of destructor calls fits the stack of
the process is a matter of the target. -/
def main (stod : String → Except Exception Dbl) (fuel : Nat) (cin : String) :
    Option (Nat × List OutLine) :=
  match ReadDatabase stod cin State.empty with
  | (.error e, _) => some (1, [OutLine.error e.what])
  | (.ok (), s) =>
    match Database.CalcIndices fuel s with
    | none => none
    | some s1 =>
      match PrintIndices fuel s1 with
      | none => none
      | some (out, _) => some (0, out)

/-- A `stod` for plain unsigned decimal integers, used to run examples: the `double`
nearest to the integer, `out_of_range` when that is beyond the range of `double`. Any other
text is refused here, though `std::stod` reads some of it. -/
def stodNat (str : String) : Except Exception Dbl :=
  if str.data ≠ [] ∧ str.data.all Char.isDigit then
    match Dbl.num (str.data.foldl (fun n c => 10 * n + (c.toNat - 48)) 0 : Nat) with
    | .inf _ => .error (.out_of_range "stod")
    | value => .ok value
  else .error (.invalid_argument "stod")

/-- Reading a cell by name, `db.GetValue(id)->GetValue()`: the value and the state left;
`none` when the name is not registered or the recursion bound was hit. -/
def readName (fuel : Nat) (s : State) (id : String) : Option (Dbl × State) :=
  match s.db.values.lookup id with
  | none => none
  | some p =>
    match Value.GetValue fuel s.mem p with
    | none => none
    | some (x, m) => some (x, { s with mem := m })

/-- Several calls `db.SetValue(id, v)` in a row, for the literals `v` of a list. -/
def SetValues (id : String) : List Dbl → State → State
  | [], s => s
  | value :: rest, s => SetValues id rest (Database.SetValue id value s).2

/-- A state used to run examples: `R|A|S` then `R|X|+|A|A` loaded into the empty database. -/
def exampleState : State :=
  (ParseQuote stodNat ["R", "X", "+", "A", "A"]
    (ParseQuote stodNat ["R", "A", "S"] State.empty).2).2

/-- The input of the specification's example of sums and differences. -/
def exampleInput : String := "R|A|S\nR|B|S\nR|X|+|A|B\nR|Y|-|A|B\nQ|A|3\nQ|B|2\n"

/-- The state after loading `exampleInput` into the empty database. -/
def exampleLoaded : State := (ReadDatabase stodNat exampleInput State.empty).2

/-- An input in which a `Q` record names a formula. -/
def quotedFormulaInput : String := "R|A|S\nR|X|+|A|A\nQ|X|1\n"

/-- Equality of results is decidable. -/
instance instDecidableEqExcept {ε α : Type} [DecidableEq ε] [DecidableEq α] :
    DecidableEq (Except ε α)
  | .ok a, .ok b =>
    if h : a = b then isTrue (by rw [h]) else isFalse (fun h2 => by cases h2; exact h rfl)
  | .error a, .error b =>
    if h : a = b then isTrue (by rw [h]) else isFalse (fun h2 => by cases h2; exact h rfl)
  | .ok _, .error _ => isFalse (fun h => by cases h)
  | .error _, .ok _ => isFalse (fun h => by cases h)

/-! ## Predicates used in the statements -/

/-- A heap is well-formed when every closure captures only objects allocated before
the object that holds it. -/
def Memory.WF (m : Memory) : Prop :=
  ∀ (p : ValuePtr) (v : Value) (fn : Fn),
    m.cells[p]? = some v → v.m_fn = some fn → fn.arg1 < p ∧ fn.arg2 < p

/-- The number `x` is what the closure `fn` returns in `m`, where both operands are
initialized: the sum or the difference of their values. -/
def Computed (m : Memory) (fn : Fn) (x : Dbl) : Prop :=
  ∃ a b, m.cells[fn.arg1]? = some a ∧ a.m_initialized = true ∧
    m.cells[fn.arg2]? = some b ∧ b.m_initialized = true ∧
    x = if fn.plus then a.m_value + b.m_value else a.m_value - b.m_value

/-- How the object at `q` may differ between a heap `m` (where it is `v`) and a later heap
`m'` (where it is `v'`) when only reads happened in between: it is untouched, or it is a
source object that got marked initialized, or it is a formula object whose closure ran
once and whose value is the closure's result. -/
def CellStep (m m' : Memory) (q : ValuePtr) (v v' : Value) : Prop :=
  (v' = v ∧ m'.calls.count q = m.calls.count q) ∨
  (v.m_initialized = false ∧ v.m_fn = none ∧ v' = { v with m_initialized := true } ∧
    m'.calls.count q = m.calls.count q) ∨
  (v.m_initialized = false ∧ v'.m_initialized = true ∧ v'.m_fn = v.m_fn ∧
    m'.calls.count q = m.calls.count q + 1 ∧ ∃ fn, v.m_fn = some fn ∧ Computed m' fn v'.m_value)

/-- The heap `m'` is reached from `m` by reads only. -/
structure Evolves (m m' : Memory) : Prop where
  len : m'.cells.length = m.cells.length
  cell : ∀ (q : ValuePtr) (v : Value), m.cells[q]? = some v →
    ∃ v', m'.cells[q]? = some v' ∧ CellStep m m' q v v'

/-- Every initialized formula object holds the result of its closure. -/
def Memory.Consistent (m : Memory) : Prop :=
  ∀ (q : ValuePtr) (v : Value) (fn : Fn),
    m.cells[q]? = some v → v.m_initialized = true → v.m_fn = some fn →
    Computed m fn v.m_value

/-- The closure of a formula object has run once if the object is initialized, and not
at all otherwise. -/
def Memory.Counted (m : Memory) : Prop :=
  ∀ (q : ValuePtr) (v : Value) (fn : Fn), m.cells[q]? = some v → v.m_fn = some fn →
    m.calls.count q = if v.m_initialized then 1 else 0

/-- The record `quote` is accepted in state `s` and leaves state `s'`: the four ways in
which `ParseQuote` returns normally. -/
inductive Accepts (stod : String → Except Exception Dbl) : Quote → State → State → Prop
  | skip (quote : Quote) (s : State) :
      quote[0]? ≠ some "R" → quote[0]? ≠ some "Q" → Accepts stod quote s s
  | source (quote : Quote) (s : State) (id : String) :
      quote[0]? = some "R" → quote[1]? = some id → quote[2]? = some "S" →
      Accepts stod quote s
        ⟨(make_shared none s.mem).2, s.db.AddValue id s.mem.cells.length⟩
  | formula (quote : Quote) (s : State) (id operation n1 n2 : String) (arg1 arg2 : ValuePtr) :
      quote[0]? = some "R" → quote[1]? = some id → quote[2]? = some operation →
      (operation = "+" ∨ operation = "-") →
      quote[3]? = some n1 → quote[4]? = some n2 →
      s.db.values.lookup n1 = some arg1 → s.db.values.lookup n2 = some arg2 →
      Accepts stod quote s
        ⟨(make_shared (some ⟨operation = "+", arg1, arg2⟩) s.mem).2,
          (s.db.AddValue id s.mem.cells.length).AddIndex id s.mem.cells.length⟩
  | quote (quote : Quote) (s : State) (id literal : String) (value : Dbl) (p : ValuePtr) :
      quote[0]? = some "Q" → quote[1]? = some id → quote[2]? = some literal →
      stod literal = .ok value → s.db.values.lookup id = some p →
      Accepts stod quote s { s with mem := Value.SetValue p value s.mem }

/-- The object at `p` exists and holds a closure: it was made by a `+` or `-` rule. -/
def Memory.isFormula (m : Memory) (p : ValuePtr) : Bool :=
  match m.cells[p]? with
  | some v => v.m_fn.isSome
  | none => false

/-- The formula objects of a heap, in the order in which they were allocated. -/
def Memory.formulaCells (m : Memory) : List ValuePtr :=
  (List.range m.cells.length).filter m.isFormula

/-- The states reached from the empty database by calls of `ParseQuote`, whether they
return or raise. -/
inductive Reachable (stod : String → Except Exception Dbl) : State → Prop
  | empty : Reachable stod State.empty
  | step (quote : Quote) (s : State) :
      Reachable stod s → Reachable stod (ParseQuote stod quote s).2

/-- The object `p` reads the object `q`: the closure of `p` captures `q`. -/
def Memory.DependsOn (m : Memory) (p q : ValuePtr) : Prop :=
  ∃ v fn, m.cells[p]? = some v ∧ v.m_fn = some fn ∧ (fn.arg1 = q ∨ fn.arg2 = q)

/-- The object `a` is an uninitialized formula object whose closure captures `b`: a read
of `a` reads `b`. -/
def Memory.Reads (m : Memory) (a b : ValuePtr) : Prop :=
  ∃ v fn, m.cells[a]? = some v ∧ v.m_initialized = false ∧ v.m_fn = some fn ∧
    (fn.arg1 = b ∨ fn.arg2 = b)

/-- A set of uninitialized formula objects each of which reads a member of the set: a
read of a member can never return. -/
def Memory.Trap (m : Memory) (T : ValuePtr → Prop) : Prop :=
  ∀ t, T t → ∃ b, T b ∧ m.Reads t b

/-- A sequence of `GetValue` calls on the object `p`, one for each recursion bound of the
list: the values returned and the heap left. -/
def GetValues (p : ValuePtr) : List Nat → Memory → Option (List Dbl × Memory)
  | [], m => some ([], m)
  | fuel :: rest, m =>
    match Value.GetValue fuel m p with
    | none => none
    | some (x, m1) =>
      match GetValues p rest m1 with
      | none => none
      | some (xs, m2) => some (x :: xs, m2)

/-- The record is a rule `R|name|+|...` or `R|name|-|...`. -/
def isFormulaRule (r : Quote) : Bool :=
  decide (r[0]? = some "R" ∧ (r[2]? = some "+" ∨ r[2]? = some "-"))

/-- The record is a rule `R|name|S`. -/
def isSourceRule (r : Quote) : Bool :=
  decide (r[0]? = some "R" ∧ r[2]? = some "S")

/-- The record is a rule that declares the name `n`. -/
def declares (n : String) (r : Quote) : Bool :=
  decide (r[0]? = some "R" ∧ r[1]? = some n)

/-- The record is a quote `Q|n|...` for the name `n`. -/
def quotes (n : String) (q : Quote) : Bool :=
  decide (q[0]? = some "Q" ∧ q[1]? = some n)

/-- The first rule of a stream that declares the name `n`. -/
def firstRule (qs : List Quote) (n : String) : Option Quote :=
  qs.find? (declares n)

/-- The literal of the last `Q` record of a stream that names `n`. -/
def lastQuote (qs : List Quote) (n : String) : Option String :=
  match (qs.filter (quotes n)).getLast? with
  | none => none
  | some q => q[2]?

/-- The object `p` of the state `s` is what the rule record `r` makes: an object without
closure for `S`; for `+` and `-` an object whose closure is the sum, respectively the
difference, of the objects registered under the two operand names of `r`. -/
def RuleCell (s : State) (r : Quote) (p : ValuePtr) : Prop :=
  ∃ c, s.mem.cells[p]? = some c ∧
    ((r[2]? = some "S" ∧ c.m_fn = none) ∨
      ∃ operation n1 n2 arg1 arg2, r[2]? = some operation ∧
        (operation = "+" ∨ operation = "-") ∧ r[3]? = some n1 ∧ r[4]? = some n2 ∧
        s.db.values.lookup n1 = some arg1 ∧ s.db.values.lookup n2 = some arg2 ∧
        c.m_fn = some ⟨operation = "+", arg1, arg2⟩)

/-- How the name table and the evaluation list of a state relate to the stream of records
that was loaded: a name is registered exactly when a rule declared it, it is registered
for the object of the first rule that declared it, no two names share an object, and the
evaluation list pairs off, in order, with the `+`/`-` rules of the stream. -/
structure Table (qs : List Quote) (s : State) : Prop where
  decl_none : ∀ (n : String), s.db.values.lookup n = none → firstRule qs n = none
  decl_some : ∀ (n : String) (p : ValuePtr), s.db.values.lookup n = some p →
    ∃ r, firstRule qs n = some r ∧ RuleCell s r p
  inj : ∀ (n n' : String) (p : ValuePtr), s.db.values.lookup n = some p →
    s.db.values.lookup n' = some p → n = n'
  deps : List.Forall₂ (fun p r => RuleCell s r p) s.db.indexDependencies
    (qs.filter isFormulaRule)

/-- No `Q` record of the stream names a name that a `+`/`-` rule of the stream declares. -/
def QuotesOnlySources (qs : List Quote) : Prop :=
  ∀ q ∈ qs, q[0]? = some "Q" → ∀ r ∈ qs, isFormulaRule r = true → r[1]? ≠ q[1]?

/-- The property `QuotesOnlySources` can be computed. -/
instance instDecidableQuotesOnlySources (qs : List Quote) : Decidable (QuotesOnlySources qs) :=
  inferInstanceAs (Decidable (∀ q ∈ qs, q[0]? = some "Q" →
    ∀ r ∈ qs, isFormulaRule r = true → r[1]? ≠ q[1]?))

/-- No formula object has been initialized. -/
def Memory.Fresh (m : Memory) : Prop :=
  ∀ (p : ValuePtr) (c : Value) (fn : Fn), m.cells[p]? = some c → c.m_fn = some fn →
    c.m_initialized = false

/-- The names that the rules of a stream declare, in order. -/
def declaredNames (qs : List Quote) : List String :=
  qs.filterMap (fun r => if r[0]? = some "R" then r[1]? else none)

/-- The state of the source objects after the stream `qs` was loaded: a source object
registered under `n` is uninitialized when no `Q` record named `n`, and otherwise holds
the number that `stod` read from the literal of the last `Q` record that named `n`. -/
def SourceInv (stod : String → Except Exception Dbl) (qs : List Quote) (s : State) : Prop :=
  (∀ (n : String), s.db.values.lookup n = none → qs.filter (quotes n) = []) ∧
  ∀ (n : String) (p : ValuePtr) (c : Value), s.db.values.lookup n = some p →
    s.mem.cells[p]? = some c → c.m_fn = none →
    match (qs.filter (quotes n)).getLast? with
    | none => c.m_initialized = false
    | some q => ∃ literal value, q[2]? = some literal ∧ stod literal = .ok value ∧
        c.m_initialized = true ∧ c.m_value = value

/-- The names of the `+`/`-` rules of a stream, in the order of declaration. -/
def formulaNames (qs : List Quote) : List String :=
  (qs.filter isFormulaRule).filterMap (fun r => r[1]?)

/-- The name on a report line. -/
def OutLine.name : OutLine → Option String
  | .report name _ => some name
  | .error _ => none

/-- An input that declares the formula `Z` before the formula `B`. -/
def descendingInput : String := "R|A|S\nR|Z|+|A|A\nR|B|+|A|A\nQ|A|1\n"

/-- The invariant of the loading phase. -/
structure State.Inv (s : State) : Prop where
  wf : s.mem.WF
  calls : s.mem.calls = []
  values : ∀ (n : String) (p : ValuePtr), s.db.values.lookup n = some p →
    p < s.mem.cells.length
  indices : ∀ e ∈ s.db.indices, s.mem.isFormula e.2 = true
  deps : s.db.indexDependencies = s.mem.formulaCells
  args : ∀ (p : ValuePtr) (v : Value) (fn : Fn), s.mem.cells[p]? = some v → v.m_fn = some fn →
    (∃ n, s.db.values.lookup n = some fn.arg1) ∧ (∃ n, s.db.values.lookup n = some fn.arg2)

/-- The record carries one of the two tags that `ParseQuote` acts on. -/
def isTagged (quote : Quote) : Bool :=
  decide (quote[0]? = some "R" ∨ quote[0]? = some "Q")

/-- The state after a sequence of calls of `ParseQuote`, whether they return or raise. -/
def applyAll (stod : String → Except Exception Dbl) : List Quote → State → State
  | [], s => s
  | quote :: rest, s => applyAll stod rest (ParseQuote stod quote s).2

/-- Every object that is not initialized still holds the initial `NAN`. -/
def Memory.UnsetIsNan (m : Memory) : Prop :=
  ∀ (p : ValuePtr) (c : Value), m.cells[p]? = some c → c.m_initialized = false →
    c.m_value = NAN

/-- The member `m_value` of the object at `p` (`NAN` when there is no such object). -/
def Memory.valueAt (m : Memory) (p : ValuePtr) : Dbl :=
  match m.cells[p]? with
  | some c => c.m_value
  | none => NAN

/-- An input that declares a source and a formula over it, and sets nothing. -/
def unsetInput : String := "R|A|S\nR|X|+|A|A\n"

/-- A sequence of `GetValue` calls, each on the object and with the recursion bound of a
pair of the list: the heap left when all of them return. -/
def readAll : List (Nat × ValuePtr) → Memory → Option Memory
  | [], m => some m
  | (fuel, p) :: rest, m =>
    match Value.GetValue fuel m p with
    | none => none
    | some (_, m1) => readAll rest m1

/-- An input that declares `A` with `S` and then again with `+`. -/
def redeclaredInput : String := "R|A|S\nR|A|+|A|A\nQ|A|1\n"

/-- The text that `out << value` writes for a `double` after `setprecision(2)` and `fixed`
(line 138), which the C++ library defines (the text is that of `printf` with `%.2f`): for
a finite number a minus sign when the sign bit is set, then the exact value rounded to
hundredths (ties to even), as the decimal digits of the integer part, a point and two
fraction digits; `inf` and `nan` with a minus sign when the sign bit is set otherwise. -/
def fixed2 : Dbl → String
  | .nan sign => if sign then "-nan" else "nan"
  | .inf sign => if sign then "-inf" else "inf"
  | .fin sign exponent fraction =>
    String.mk ((if sign then ['-'] else []) ++
      Nat.toDigits 10 (roundHalfEven (Dbl.units exponent fraction * 100) (2 ^ 1074) / 100) ++
      ['.',
        Nat.digitChar (roundHalfEven (Dbl.units exponent fraction * 100) (2 ^ 1074) % 100 / 10),
        Nat.digitChar (roundHalfEven (Dbl.units exponent fraction * 100) (2 ^ 1074) % 10)])

/-- The text of an output line: `name: value` written by line 141 of `PrintIndices`, or
the text of the exception written by line 176 of `main`. -/
def OutLine.render : OutLine → String
  | .report name value => name ++ ": " ++ fixed2 value
  | .error what => what

/-- The end-to-end example of the specification. -/
def endToEndInput : String := "R|A|S\nR|B|S\nR|X|+|A|B\nQ|A|10\nQ|B|5\n"

/-- An input whose exact sum is not a `double`: 9007199254740992 is `2 ^ 53`. -/
def roundedInput : String := "R|A|S\nR|B|S\nR|X|+|A|B\nQ|A|9007199254740992\nQ|B|1\n"

/-- A state used to run examples: `R|A|S`, `R|X|+|A|A`, `R|Y|-|X|A` and `Q|A|5` loaded into
the empty database. -/
def dependantState : State :=
  applyAll stodNat
    [["R", "A", "S"], ["R", "X", "+", "A", "A"], ["R", "Y", "-", "X", "A"], ["Q", "A", "5"]]
    State.empty

/-- An input with one finite literal, `10 ^ 308` written out, whose sum with itself is
beyond the largest `double`. -/
def overflowInput : String :=
  "R|A|S\nR|X|+|A|A\nR|Y|-|X|X\nQ|A|1" ++ String.mk (List.replicate 308 '0') ++ "\n"

/-! ## Arithmetic of `double` -/

/-- The function `ilog2Aux` finds the leading bit of a positive number below `2 ^ 2 ^ j`. -/
theorem ilog2Aux_spec : ∀ (j n : Nat), n ≠ 0 → n < 2 ^ 2 ^ j →
    2 ^ ilog2Aux j n ≤ n ∧ n < 2 ^ (ilog2Aux j n + 1) := by
  intro j
  induction j with
  | zero =>
    intro n h0 h
    have : n = 1 := by simp at h; omega
    subst this
    simp [ilog2Aux]
  | succ j ih =>
    intro n h0 h
    have hp : 0 < 2 ^ 2 ^ j := Nat.two_pow_pos _
    have hsq : 2 ^ 2 ^ (j + 1) = 2 ^ 2 ^ j * 2 ^ 2 ^ j := by
      rw [← Nat.pow_add, Nat.pow_succ, Nat.mul_two]
    simp only [ilog2Aux]
    split
    · next hz =>
      exact ih n h0 ((Nat.div_eq_zero_iff hp).1 hz)
    · next hz =>
      have hm : n / 2 ^ 2 ^ j < 2 ^ 2 ^ j := by
        apply Nat.div_lt_of_lt_mul
        rw [← hsq]; exact h
      obtain ⟨h1, h2⟩ := ih _ hz hm
      constructor
      · rw [Nat.pow_add]
        calc 2 ^ 2 ^ j * 2 ^ ilog2Aux j (n / 2 ^ 2 ^ j)
            ≤ 2 ^ 2 ^ j * (n / 2 ^ 2 ^ j) := Nat.mul_le_mul_left _ h1
          _ ≤ n := Nat.mul_div_le _ _
      · have h3 : n < 2 ^ 2 ^ j * (n / 2 ^ 2 ^ j + 1) := Nat.lt_mul_div_succ n hp
        have h4 : 2 ^ 2 ^ j * (n / 2 ^ 2 ^ j + 1) ≤
            2 ^ 2 ^ j * 2 ^ (ilog2Aux j (n / 2 ^ 2 ^ j) + 1) := Nat.mul_le_mul_left _ h2
        have h5 : 2 ^ 2 ^ j * 2 ^ (ilog2Aux j (n / 2 ^ 2 ^ j) + 1) =
            2 ^ (2 ^ j + ilog2Aux j (n / 2 ^ 2 ^ j) + 1) := by
          rw [← Nat.pow_add]; rfl
        omega

theorem ilog2_eq {n k : Nat} (hk : k < 4096) (h1 : 2 ^ k ≤ n) (h2 : n < 2 ^ (k + 1)) :
    ilog2 n = k := by
  have h0 : n ≠ 0 := by
    have : 0 < 2 ^ k := Nat.two_pow_pos _
    omega
  have hb : n < 2 ^ 2 ^ 12 :=
    Nat.lt_of_lt_of_le h2 (Nat.pow_le_pow_right (by decide) (by
      have : (2 : Nat) ^ 12 = 4096 := by decide
      omega))
  obtain ⟨l1, l2⟩ := ilog2Aux_spec 12 n h0 hb
  have a1 : 2 ^ k < 2 ^ (ilog2Aux 12 n + 1) := Nat.lt_of_le_of_lt h1 l2
  have a2 : 2 ^ ilog2Aux 12 n < 2 ^ (k + 1) := Nat.lt_of_le_of_lt l1 h2
  have b1 := (Nat.pow_lt_pow_iff_right (by decide : 1 < 2)).1 a1
  have b2 := (Nat.pow_lt_pow_iff_right (by decide : 1 < 2)).1 a2
  unfold ilog2
  omega

theorem ilog2_le {n k : Nat} (hk : k < 4096) (h2 : n < 2 ^ (k + 1)) : ilog2 n ≤ k := by
  by_cases h0 : n = 0
  · subst h0
    have : ilog2 0 = 0 := by decide!
    omega
  have hb : n < 2 ^ 2 ^ 12 :=
    Nat.lt_of_lt_of_le h2 (Nat.pow_le_pow_right (by decide) (by
      have : (2 : Nat) ^ 12 = 4096 := by decide
      omega))
  obtain ⟨l1, _⟩ := ilog2Aux_spec 12 n h0 hb
  have a2 : 2 ^ ilog2Aux 12 n < 2 ^ (k + 1) := Nat.lt_of_le_of_lt l1 h2
  have b2 := (Nat.pow_lt_pow_iff_right (by decide : 1 < 2)).1 a2
  unfold ilog2
  omega

theorem roundHalfEven_mul (k : Nat) {b : Nat} (hb : 0 < b) : roundHalfEven (k * b) b = k := by
  simp [roundHalfEven, Nat.mul_mod_left, hb, Nat.mul_div_cancel _ hb]

theorem Dbl.units_normal (e : Fin 2047) (f : Fin 4503599627370496) (he : e.val ≠ 0) :
    2 ^ (51 + e.val) ≤ Dbl.units e f ∧ Dbl.units e f < 2 ^ (51 + e.val + 1) := by
  have hf := f.isLt
  simp only [Dbl.units, he, if_false]
  have e1 : 51 + e.val = 52 + (e.val - 1) := by omega
  have p : 0 < 2 ^ (e.val - 1) := Nat.two_pow_pos _
  constructor
  · rw [e1, Nat.pow_add]
    exact Nat.mul_le_mul_right _ (by omega)
  · rw [e1, Nat.add_right_comm, Nat.pow_add]
    apply Nat.mul_lt_mul_of_pos_right _ p
    have : (2 : Nat) ^ (52 + 1) = 2 ^ 52 + 4503599627370496 := by decide
    omega

theorem Dbl.units_lt (e : Fin 2047) (f : Fin 4503599627370496) : Dbl.units e f < 2 ^ 2098 := by
  by_cases he : e.val = 0
  · simp only [Dbl.units, he, if_true]
    have h52 : (4503599627370496 : Nat) = 2 ^ 52 := by decide
    have h1 : f.val < 2 ^ 52 := Nat.lt_of_lt_of_eq f.isLt h52
    have h2 : (2 : Nat) ^ 52 < 2 ^ 2098 := by decide!
    exact Nat.lt_trans h1 h2
  · have h := (Dbl.units_normal e f he).2
    have hle : 51 + e.val + 1 ≤ 2098 := by have := e.isLt; omega
    have hpow : (2 : Nat) ^ (51 + e.val + 1) ≤ 2 ^ 2098 := by
      apply Nat.pow_le_pow_right
      · decide
      · exact hle
    omega

theorem Dbl.ilog2_units (e : Fin 2047) (f : Fin 4503599627370496) :
    ilog2 (Dbl.units e f) - 52 = e.val - 1 := by
  by_cases he : e.val = 0
  · have : Dbl.units e f < 2 ^ (51 + 1) := by
      simp only [Dbl.units, he, if_true]
      exact f.isLt
    have := ilog2_le (by decide) this
    omega
  · obtain ⟨h1, h2⟩ := Dbl.units_normal e f he
    have := ilog2_eq (by have := e.isLt; omega) h1 h2
    omega

theorem Dbl.units_dvd (e : Fin 2047) (f : Fin 4503599627370496) :
    ∃ k, Dbl.units e f = k * 2 ^ (e.val - 1) ∧ (e.val ≠ 0 → k = 2 ^ 52 + f.val) := by
  by_cases he : e.val = 0
  · exact ⟨f.val, by simp [Dbl.units, he], fun h => absurd he h⟩
  · exact ⟨2 ^ 52 + f.val, by simp [Dbl.units, he], fun _ => rfl⟩

/-- Rounding leaves the magnitude of a double as it is. -/
theorem Dbl.roundUnits_units (e : Fin 2047) (f : Fin 4503599627370496) {d : Nat} (hd : 0 < d) :
    Dbl.roundUnits (Dbl.units e f * d) d = Dbl.units e f := by
  have hlt := Dbl.units_lt e f
  obtain ⟨k, hk, _⟩ := Dbl.units_dvd e f
  have p : 0 < d * 2 ^ (e.val - 1) := Nat.mul_pos hd (Nat.two_pow_pos _)
  simp only [Dbl.roundUnits, Nat.mul_div_cancel _ hd, Nat.not_le.2 hlt, if_false,
    Dbl.ilog2_units]
  have : Dbl.units e f * d = k * (d * 2 ^ (e.val - 1)) := by
    rw [hk, Nat.mul_assoc, Nat.mul_comm (2 ^ _) d]
  rw [this, roundHalfEven_mul k p, ← hk]

theorem Dbl.fin_congr (s : Bool) {e1 e2 : Fin 2047} {f1 f2 : Fin 4503599627370496}
    (he : e1 = e2) (hf : f1 = f2) : Dbl.fin s e1 f1 = Dbl.fin s e2 f2 := by
  rw [he, hf]

/-- The fields of a double are recovered from its magnitude. -/
theorem Dbl.ofUnits_units (s : Bool) (e : Fin 2047) (f : Fin 4503599627370496) :
    Dbl.ofUnits s (Dbl.units e f) = .fin s e f := by
  have hlt := Dbl.units_lt e f
  have hf := f.isLt
  unfold Dbl.ofUnits
  rw [if_neg (Nat.not_le.2 hlt)]
  by_cases he : e.val = 0
  · have hu : Dbl.units e f = f.val := by simp [Dbl.units, he]
    have hlt2 : Dbl.units e f < 2 ^ 52 := by rw [hu]; exact hf
    rw [if_pos hlt2]
    apply Dbl.fin_congr
    · exact Fin.ext (by rw [he]; rfl)
    · exact Fin.ext (by rw [hu]; exact Nat.mod_eq_of_lt hf)
  · obtain ⟨h1, h2⟩ := Dbl.units_normal e f he
    have hge : ¬ Dbl.units e f < 2 ^ 52 := by
      have : (2 : Nat) ^ 52 ≤ 2 ^ (51 + e.val) := Nat.pow_le_pow_right (by decide) (by omega)
      omega
    have hlog := ilog2_eq (by have := e.isLt; omega) h1 h2
    have hdiv : Dbl.units e f / 2 ^ (51 + e.val - 52) = 2 ^ 52 + f.val := by
      have : 51 + e.val - 52 = e.val - 1 := by omega
      rw [this]
      simp only [Dbl.units, he, if_false]
      exact Nat.mul_div_cancel _ (Nat.two_pow_pos _)
    rw [if_neg hge]
    apply Dbl.fin_congr
    · apply Fin.ext
      show (ilog2 (Dbl.units e f) - 51) % 2047 = e.val
      rw [hlog, Nat.add_sub_cancel_left]
      exact Nat.mod_eq_of_lt e.isLt
    · apply Fin.ext
      show (Dbl.units e f / 2 ^ (ilog2 (Dbl.units e f) - 52) - 2 ^ 52) % 4503599627370496 = f.val
      rw [hlog, hdiv, Nat.add_sub_cancel_left]
      exact Nat.mod_eq_of_lt hf

theorem Dbl.natAbs_signed (s : Bool) (e : Fin 2047) (f : Fin 4503599627370496) :
    (Dbl.signed s e f).natAbs = Dbl.units e f := by
  cases s <;> simp [Dbl.signed]

theorem Dbl.signed_neg_iff (s : Bool) (e : Fin 2047) (f : Fin 4503599627370496)
    (h : Dbl.signed s e f ≠ 0) : decide (Dbl.signed s e f < 0) = s := by
  cases s
  · simp [Dbl.signed]
  · simp only [Dbl.signed, if_true] at h ⊢
    simp only [decide_eq_true_eq]
    omega

theorem Dbl.toRat_eq_some {d : Dbl} {q : ℚ} (h : d.toRat = some q) :
    ∃ s e f, d = .fin s e f ∧ q = (Dbl.signed s e f : ℚ) / 2 ^ 1074 := by
  cases d with
  | nan _ => cases h
  | inf _ => cases h
  | fin s e f => exact ⟨s, e, f, rfl, (Option.some.inj h).symm⟩

/-- The sum of two finite doubles is exact whenever the exact sum is a double. -/
theorem Dbl.add_exact {a b d : Dbl} {qa qb : ℚ} (ha : a.toRat = some qa)
    (hb : b.toRat = some qb) (hd : d.toRat = some (qa + qb)) :
    (a.add b).toRat = some (qa + qb) := by
  obtain ⟨s, e, f, rfl, rfl⟩ := Dbl.toRat_eq_some ha
  obtain ⟨t, g, h, rfl, rfl⟩ := Dbl.toRat_eq_some hb
  obtain ⟨u, i, k, rfl, hq⟩ := Dbl.toRat_eq_some hd
  have hp : (2 : ℚ) ^ 1074 ≠ 0 := pow_ne_zero _ (by norm_num)
  have hint : Dbl.signed u i k = Dbl.signed s e f + Dbl.signed t g h := by
    have : ((Dbl.signed u i k : ℤ) : ℚ) = ((Dbl.signed s e f + Dbl.signed t g h : ℤ) : ℚ) := by
      rw [← add_div] at hq
      have := (div_left_inj' hp).1 hq
      push_cast
      exact this.symm
    exact_mod_cast this
  unfold Dbl.add
  by_cases h0 : Dbl.signed s e f + Dbl.signed t g h = 0
  · simp only [h0, if_true, Dbl.toRat]
    rw [← add_div]
    have : ((Dbl.signed s e f : ℚ) + (Dbl.signed t g h : ℚ)) = 0 := by exact_mod_cast h0
    rw [this]
    simp [Dbl.signed, Dbl.units]
  · simp only [h0, if_false]
    rw [← hint] at h0 ⊢
    rw [Dbl.natAbs_signed, Dbl.signed_neg_iff u i k h0]
    have := Dbl.roundUnits_units i k (Nat.one_pos)
    rw [Nat.mul_one] at this
    rw [this, Dbl.ofUnits_units]
    exact hd

theorem Dbl.signed_not (t : Bool) (g : Fin 2047) (h : Fin 4503599627370496) :
    Dbl.signed (!t) g h = -Dbl.signed t g h := by
  cases t <;> simp [Dbl.signed]

/-- The difference of two finite doubles is exact whenever the exact difference is a
double. -/
theorem Dbl.sub_exact {a b d : Dbl} {qa qb : ℚ} (ha : a.toRat = some qa)
    (hb : b.toRat = some qb) (hd : d.toRat = some (qa - qb)) :
    (a.sub b).toRat = some (qa - qb) := by
  obtain ⟨s, e, f, rfl, rfl⟩ := Dbl.toRat_eq_some ha
  obtain ⟨t, g, h, rfl, rfl⟩ := Dbl.toRat_eq_some hb
  have hb' : (Dbl.fin (!t) g h).toRat = some (-((Dbl.signed t g h : ℚ) / 2 ^ 1074)) := by
    simp only [Dbl.toRat, Dbl.signed_not]
    push_cast
    rw [neg_div]
  rw [sub_eq_add_neg] at hd ⊢
  exact @Dbl.add_exact (.fin s e f) _ _ _ _ rfl hb' hd

theorem roundHalfEven_bounds (a g : Nat) :
    (roundHalfEven a g = a / g ∧ 2 * (a % g) ≤ g) ∨
    (roundHalfEven a g = a / g + 1 ∧ g ≤ 2 * (a % g)) := by
  unfold roundHalfEven
  split
  · left; exact ⟨rfl, by omega⟩
  · split
    · right; exact ⟨rfl, by omega⟩
    · split
      · left; exact ⟨rfl, by omega⟩
      · right; exact ⟨rfl, by omega⟩

/-- The multiple of `g` that `roundHalfEven` picks is at least as near to `a` as any
other. -/
theorem roundHalfEven_nearest (a k : Nat) {g : Nat} (hg : 0 < g) :
    |((roundHalfEven a g * g : Nat) : Int) - a| ≤ |((k * g : Nat) : Int) - a| := by
  have hdiv : g * (a / g) + a % g = a := Nat.div_add_mod a g
  have hmod : a % g < g := Nat.mod_lt a hg
  have hq : a / g * g = g * (a / g) := Nat.mul_comm _ _
  have hq1 : (a / g + 1) * g = g * (a / g) + g := by rw [Nat.add_mul, Nat.one_mul, hq]
  rcases Nat.lt_or_ge (a / g) k with hk | hk
  · have h1 : (a / g + 1) * g ≤ k * g := Nat.mul_le_mul_right g hk
    rcases roundHalfEven_bounds a g with ⟨e, hb⟩ | ⟨e, hb⟩ <;> rw [e] <;>
      simp only [abs_le, le_abs] <;> omega
  · have h1 : k * g ≤ a / g * g := Nat.mul_le_mul_right g hk
    rcases roundHalfEven_bounds a g with ⟨e, hb⟩ | ⟨e, hb⟩ <;> rw [e] <;>
      simp only [abs_le, le_abs] <;> omega

theorem lt_of_two_pow_lt {a b : Nat} (h : 2 ^ a < 2 ^ b) : a < b :=
  (Nat.pow_lt_pow_iff_right (by decide : 1 < 2)).1 h

theorem ilog2_spec {n : Nat} (h0 : n ≠ 0) (h : n < 2 ^ 2098) :
    2 ^ ilog2 n ≤ n ∧ n < 2 ^ (ilog2 n + 1) ∧ ilog2 n < 2098 := by
  have hb : n < 2 ^ 2 ^ 12 := by
    have : (2 : Nat) ^ 2098 ≤ 2 ^ 2 ^ 12 := by decide!
    omega
  obtain ⟨l1, l2⟩ := ilog2Aux_spec 12 n h0 hb
  refine ⟨l1, l2, ?_⟩
  have : 2 ^ ilog2Aux 12 n < 2 ^ 2098 := Nat.lt_of_le_of_lt l1 h
  exact lt_of_two_pow_lt this

theorem Dbl.roundUnits_one {a : Nat} (h : a < 2 ^ 2098) :
    Dbl.roundUnits a 1 = roundHalfEven a (2 ^ (ilog2 a - 52)) * 2 ^ (ilog2 a - 52) := by
  unfold Dbl.roundUnits
  rw [Nat.div_one, if_neg (Nat.not_le.2 h), Nat.one_mul]

theorem Dbl.roundUnits_small {a : Nat} (h : a < 2 ^ 53) : Dbl.roundUnits a 1 = a := by
  have h2 : (2 : Nat) ^ 53 < 2 ^ 2098 := by decide!
  rw [Dbl.roundUnits_one (Nat.lt_trans h h2)]
  have : ilog2 a - 52 = 0 := by
    have := ilog2_le (by decide : 52 < 4096) h
    omega
  rw [this]
  have := roundHalfEven_mul a (Nat.one_pos)
  simpa using this

/-- Below the range of the subnormal numbers' quantum the leading bit of `a` is at 53 or
above, and the quotient by the quantum has 53 bits. -/
theorem Dbl.quantum_spec {a : Nat} (h53 : 2 ^ 53 ≤ a) (h : a < 2 ^ 2098) :
    1 ≤ ilog2 a - 52 ∧ ilog2 a - 52 ≤ 2045 ∧
    2 ^ 52 * 2 ^ (ilog2 a - 52) ≤ a ∧ a < 2 ^ 53 * 2 ^ (ilog2 a - 52) := by
  have h0 : a ≠ 0 := by
    have : 0 < 2 ^ 53 := Nat.two_pow_pos _
    omega
  obtain ⟨l1, l2, l3⟩ := ilog2_spec h0 h
  have hL : 53 ≤ ilog2 a := by
    have : 2 ^ 53 < 2 ^ (ilog2 a + 1) := Nat.lt_of_le_of_lt h53 l2
    have := lt_of_two_pow_lt this
    omega
  refine ⟨by omega, by omega, ?_, ?_⟩
  · rw [← Nat.pow_add]
    have : 52 + (ilog2 a - 52) = ilog2 a := by omega
    rw [this]; exact l1
  · rw [← Nat.pow_add]
    have : 53 + (ilog2 a - 52) = ilog2 a + 1 := by omega
    rw [this]; exact l2

/-- The magnitude that rounding returns is at least as near to `a` as the magnitude of any
`double`. -/
theorem Dbl.roundUnits_nearest {a : Nat} (ha : a < 2 ^ 2098) (e : Fin 2047)
    (f : Fin 4503599627370496) :
    |((Dbl.roundUnits a 1 : Nat) : Int) - a| ≤ |((Dbl.units e f : Nat) : Int) - a| := by
  rcases Nat.lt_or_ge a (2 ^ 53) with h53 | h53
  · rw [Dbl.roundUnits_small h53]
    simp
  obtain ⟨s1, s2, q1, q2⟩ := Dbl.quantum_spec h53 ha
  rw [Dbl.roundUnits_one ha]
  have hg : 0 < 2 ^ (ilog2 a - 52) := Nat.two_pow_pos _
  rcases Nat.lt_or_ge (Dbl.units e f) (2 ^ 52 * 2 ^ (ilog2 a - 52)) with hM | hM
  · have h := roundHalfEven_nearest a (2 ^ 52) hg
    simp only [abs_le, le_abs] at h ⊢
    omega
  · have he : e.val ≠ 0 := by
      intro he
      have hu : Dbl.units e f = f.val := by simp [Dbl.units, he]
      have hf : f.val < 2 ^ 52 := f.isLt
      have : 2 ^ 52 * 1 ≤ 2 ^ 52 * 2 ^ (ilog2 a - 52) := Nat.mul_le_mul_left _ hg
      omega
    obtain ⟨_, n2⟩ := Dbl.units_normal e f he
    have hlt : 2 ^ (52 + (ilog2 a - 52)) < 2 ^ (51 + e.val + 1) := by
      rw [Nat.pow_add]; omega
    have hs := lt_of_two_pow_lt hlt
    have hsplit : e.val - 1 = (e.val - 1 - (ilog2 a - 52)) + (ilog2 a - 52) := by omega
    have hk : Dbl.units e f =
        (2 ^ 52 + f.val) * 2 ^ (e.val - 1 - (ilog2 a - 52)) * 2 ^ (ilog2 a - 52) := by
      rw [Nat.mul_assoc, ← Nat.pow_add, ← hsplit]
      simp [Dbl.units, he]
    rw [hk]
    exact roundHalfEven_nearest a _ hg

theorem Dbl.units_succ (n : Nat) (hn : n + 1 < 2047) (k : Nat) (hk : k < 4503599627370496) :
    Dbl.units ⟨n + 1, hn⟩ ⟨k, hk⟩ = (2 ^ 52 + k) * 2 ^ n := by
  simp [Dbl.units]

/-- Rounding returns the magnitude of a `double`, unless it signals overflow. -/
theorem Dbl.roundUnits_repr {a : Nat} (ha : a < 2 ^ 2098) (hN : Dbl.roundUnits a 1 < 2 ^ 2098) :
    ∃ (e : Fin 2047) (f : Fin 4503599627370496), Dbl.units e f = Dbl.roundUnits a 1 := by
  have h52 : (4503599627370496 : Nat) = 2 ^ 52 := by decide
  have h53' : (2 : Nat) ^ 53 = 2 ^ 52 + 2 ^ 52 := by decide
  rcases Nat.lt_or_ge a (2 ^ 53) with h53 | h53
  · rw [Dbl.roundUnits_small h53]
    rcases Nat.lt_or_ge a (2 ^ 52) with hlt | hge
    · exact ⟨⟨0, by decide⟩, ⟨a, by omega⟩, by simp [Dbl.units]⟩
    · refine ⟨⟨0 + 1, by decide⟩, ⟨a - 2 ^ 52, by omega⟩, ?_⟩
      rw [Dbl.units_succ, Nat.pow_zero, Nat.mul_one]
      omega
  obtain ⟨s1, s2, q1, q2⟩ := Dbl.quantum_spec h53 ha
  rw [Dbl.roundUnits_one ha] at hN ⊢
  have hg : 0 < 2 ^ (ilog2 a - 52) := Nat.two_pow_pos _
  have d1 : 2 ^ 52 ≤ a / 2 ^ (ilog2 a - 52) := (Nat.le_div_iff_mul_le hg).2 q1
  have d2 : a / 2 ^ (ilog2 a - 52) < 2 ^ 53 := (Nat.div_lt_iff_lt_mul hg).2 q2
  have hK : 2 ^ 52 ≤ roundHalfEven a (2 ^ (ilog2 a - 52)) ∧
      roundHalfEven a (2 ^ (ilog2 a - 52)) ≤ 2 ^ 53 := by
    rcases roundHalfEven_bounds a (2 ^ (ilog2 a - 52)) with ⟨e, _⟩ | ⟨e, _⟩ <;> rw [e] <;> omega
  rcases Nat.lt_or_ge (roundHalfEven a (2 ^ (ilog2 a - 52))) (2 ^ 53) with hlt | hge
  · refine ⟨⟨ilog2 a - 52 + 1, by omega⟩,
      ⟨roundHalfEven a (2 ^ (ilog2 a - 52)) - 2 ^ 52, by omega⟩, ?_⟩
    rw [Dbl.units_succ, Nat.add_sub_of_le hK.1]
  · have hKeq : roundHalfEven a (2 ^ (ilog2 a - 52)) = 2 ^ 53 := by omega
    rw [hKeq] at hN ⊢
    have hs : ilog2 a - 52 < 2045 := by
      rw [← Nat.pow_add] at hN
      have := lt_of_two_pow_lt hN
      omega
    refine ⟨⟨ilog2 a - 52 + 1 + 1, by omega⟩, ⟨0, by decide⟩, ?_⟩
    rw [Dbl.units_succ, Nat.add_zero, ← Nat.pow_add, ← Nat.pow_add]
    congr 1
    omega

/-- Rounding signals overflow only from halfway between the largest `double` and
`2 ^ 1024` on. -/
theorem Dbl.roundUnits_overflow {a : Nat} (hN : 2 ^ 2098 ≤ Dbl.roundUnits a 1) :
    2 ^ 2098 - 2 ^ 2044 ≤ a := by
  rcases Nat.lt_or_ge a (2 ^ 2098) with ha | ha
  swap
  · omega
  have h2 : (2 : Nat) ^ 53 < 2 ^ 2098 := by decide!
  rcases Nat.lt_or_ge a (2 ^ 53) with h53 | h53
  · rw [Dbl.roundUnits_small h53] at hN
    omega
  obtain ⟨s1, s2, q1, q2⟩ := Dbl.quantum_spec h53 ha
  rw [Dbl.roundUnits_one ha] at hN
  have hg : 0 < 2 ^ (ilog2 a - 52) := Nat.two_pow_pos _
  have d2 : a / 2 ^ (ilog2 a - 52) < 2 ^ 53 := (Nat.div_lt_iff_lt_mul hg).2 q2
  have hdiv : 2 ^ (ilog2 a - 52) * (a / 2 ^ (ilog2 a - 52)) + a % 2 ^ (ilog2 a - 52) = a :=
    Nat.div_add_mod a _
  have hs : ilog2 a - 52 = 2045 := by
    have hle : roundHalfEven a (2 ^ (ilog2 a - 52)) * 2 ^ (ilog2 a - 52) ≤
        2 ^ 53 * 2 ^ (ilog2 a - 52) := by
      apply Nat.mul_le_mul_right
      rcases roundHalfEven_bounds a (2 ^ (ilog2 a - 52)) with ⟨e, _⟩ | ⟨e, _⟩ <;> rw [e] <;> omega
    have h3 : 2 ^ 2098 ≤ 2 ^ (53 + (ilog2 a - 52)) := by
      rw [Nat.pow_add]; omega
    have : 2 ^ 2097 < 2 ^ (53 + (ilog2 a - 52)) := by
      have : (2 : Nat) ^ 2097 < 2 ^ 2098 := by decide!
      omega
    have := lt_of_two_pow_lt this
    omega
  rw [hs] at hN hdiv d2
  have e1 : (2 : Nat) ^ 2098 = 2 ^ 53 * 2 ^ 2045 := by decide!
  have e2 : (2 : Nat) ^ 2045 = 2 * 2 ^ 2044 := by decide!
  rcases roundHalfEven_bounds a (2 ^ (ilog2 a - 52)) with ⟨e, hb⟩ | ⟨e, hb⟩
  · rw [hs] at e
    rw [e] at hN
    omega
  · rw [hs] at e hb
    rw [e] at hN
    omega

theorem Dbl.add_fin (s : Bool) (e : Fin 2047) (f : Fin 4503599627370496) (t : Bool)
    (g : Fin 2047) (h : Fin 4503599627370496) :
    Dbl.add (.fin s e f) (.fin t g h) =
      if Dbl.signed s e f + Dbl.signed t g h = 0 then .fin (s && t) 0 0
      else Dbl.ofUnits (decide (Dbl.signed s e f + Dbl.signed t g h < 0))
        (Dbl.roundUnits (Dbl.signed s e f + Dbl.signed t g h).natAbs 1) := by
  rfl

theorem Dbl.ofUnits_inf (sign : Bool) {n : Nat} (h : 2 ^ 2098 ≤ n) :
    Dbl.ofUnits sign n = .inf sign := by
  unfold Dbl.ofUnits
  rw [if_pos h]

theorem Dbl.signed_ofSign (S : Int) (e : Fin 2047) (f : Fin 4503599627370496) :
    |Dbl.signed (decide (S < 0)) e f - S| = |(Dbl.units e f : Int) - S.natAbs| := by
  by_cases h : S < 0
  · simp only [h, decide_True, Dbl.signed, if_true]
    rw [show -(Dbl.units e f : Int) - S = -((Dbl.units e f : Int) - S.natAbs) by omega, abs_neg]
  · simp only [h, decide_False, Dbl.signed]
    rw [show (S.natAbs : Int) = S by omega]
    rfl

theorem Dbl.abs_signed_sub (u : Bool) (i : Fin 2047) (k : Fin 4503599627370496) (S : Int) :
    |(Dbl.units i k : Int) - S.natAbs| ≤ |Dbl.signed u i k - S| := by
  cases u <;> simp only [Dbl.signed, if_true, abs_le, le_abs] <;> omega

/-- The sum of two finite doubles, when finite, is at least as near to the exact sum as
any `double`. -/
theorem Dbl.add_nearest {a b d : Dbl} {qa qb qx qd : ℚ} (ha : a.toRat = some qa)
    (hb : b.toRat = some qb) (hx : (a.add b).toRat = some qx) (hd : d.toRat = some qd) :
    |qx - (qa + qb)| ≤ |qd - (qa + qb)| := by
  obtain ⟨s, e, f, rfl, rfl⟩ := Dbl.toRat_eq_some ha
  obtain ⟨t, g, h, rfl, rfl⟩ := Dbl.toRat_eq_some hb
  obtain ⟨u, i, k, rfl, rfl⟩ := Dbl.toRat_eq_some hd
  obtain ⟨v, j, l, hv, rfl⟩ := Dbl.toRat_eq_some hx
  have hp : (0 : ℚ) < 2 ^ 1074 := pow_pos (by norm_num) _
  have key : |Dbl.signed v j l - (Dbl.signed s e f + Dbl.signed t g h)| ≤
      |Dbl.signed u i k - (Dbl.signed s e f + Dbl.signed t g h)| := by
    rw [Dbl.add_fin] at hv
    by_cases h0 : Dbl.signed s e f + Dbl.signed t g h = 0
    · rw [if_pos h0] at hv
      cases hv
      rw [h0]
      simp [Dbl.signed, Dbl.units]
    · rw [if_neg h0] at hv
      rcases Nat.lt_or_ge (Dbl.roundUnits (Dbl.signed s e f + Dbl.signed t g h).natAbs 1)
        (2 ^ 2098) with hN | hN
      swap
      · rw [Dbl.ofUnits_inf _ hN] at hv
        cases hv
      have hS : (Dbl.signed s e f + Dbl.signed t g h).natAbs < 2 ^ 2098 := by
        rcases Nat.lt_or_ge (Dbl.signed s e f + Dbl.signed t g h).natAbs (2 ^ 2098) with c | c
        · exact c
        · unfold Dbl.roundUnits at hN
          rw [Nat.div_one, if_pos c] at hN
          omega
      obtain ⟨e', f', hu⟩ := Dbl.roundUnits_repr hS hN
      rw [← hu, Dbl.ofUnits_units] at hv
      cases hv
      rw [Dbl.signed_ofSign, hu]
      exact le_trans (Dbl.roundUnits_nearest hS i k) (Dbl.abs_signed_sub u i k _)
  have cast : ∀ (x y : Int),
      |(x : ℚ) / 2 ^ 1074 - (y : ℚ) / 2 ^ 1074| = ((|x - y| : Int) : ℚ) / 2 ^ 1074 := by
    intro x y
    rw [← sub_div, abs_div, abs_of_pos hp]
    push_cast
    rfl
  have e1 : (Dbl.signed s e f : ℚ) / 2 ^ 1074 + (Dbl.signed t g h : ℚ) / 2 ^ 1074 =
      ((Dbl.signed s e f + Dbl.signed t g h : Int) : ℚ) / 2 ^ 1074 := by
    push_cast
    rw [add_div]
  rw [e1, cast, cast]
  exact div_le_div_of_nonneg_right (by exact_mod_cast key) (le_of_lt hp)

/-- The sum of two finite doubles is finite or an infinity, and an infinity only when
the exact sum is, in absolute value, at least halfway between the largest `double`
and `2 ^ 1024`. -/
theorem Dbl.add_overflow {a b : Dbl} {qa qb : ℚ} (ha : a.toRat = some qa)
    (hb : b.toRat = some qb) (hx : (a.add b).toRat = none) :
    (∃ sign, a.add b = .inf sign) ∧ (2 : ℚ) ^ 1024 - 2 ^ 970 ≤ |qa + qb| := by
  obtain ⟨s, e, f, rfl, rfl⟩ := Dbl.toRat_eq_some ha
  obtain ⟨t, g, h, rfl, rfl⟩ := Dbl.toRat_eq_some hb
  have hp : (0 : ℚ) < 2 ^ 1074 := pow_pos (by norm_num) _
  rw [Dbl.add_fin] at hx ⊢
  by_cases h0 : Dbl.signed s e f + Dbl.signed t g h = 0
  · rw [if_pos h0] at hx
    cases hx
  · rw [if_neg h0] at hx ⊢
    rcases Nat.lt_or_ge (Dbl.roundUnits (Dbl.signed s e f + Dbl.signed t g h).natAbs 1)
      (2 ^ 2098) with hN | hN
    · have hS : (Dbl.signed s e f + Dbl.signed t g h).natAbs < 2 ^ 2098 := by
        rcases Nat.lt_or_ge (Dbl.signed s e f + Dbl.signed t g h).natAbs (2 ^ 2098) with c | c
        · exact c
        · unfold Dbl.roundUnits at hN
          rw [Nat.div_one, if_pos c] at hN
          omega
      obtain ⟨e', f', hu⟩ := Dbl.roundUnits_repr hS hN
      rw [← hu, Dbl.ofUnits_units] at hx
      cases hx
    · refine ⟨⟨_, Dbl.ofUnits_inf _ hN⟩, ?_⟩
      have hbig := Dbl.roundUnits_overflow hN
      rw [← add_div, abs_div, abs_of_pos hp, le_div_iff₀ hp]
      have e1 : ((2 : ℚ) ^ 1024 - 2 ^ 970) * 2 ^ 1074 = ((2 ^ 2098 - 2 ^ 2044 : Nat) : ℚ) := by
        have : (2 : Nat) ^ 2044 ≤ 2 ^ 2098 := by decide!
        rw [Nat.cast_sub this]
        simp only [Nat.cast_pow, Nat.cast_ofNat]
        rw [sub_mul, ← pow_add, ← pow_add]
      rw [e1]
      have e2 : |(Dbl.signed s e f : ℚ) + (Dbl.signed t g h : ℚ)| =
          (((Dbl.signed s e f + Dbl.signed t g h).natAbs : Nat) : ℚ) := by
        rw [Nat.cast_natAbs]
        push_cast
        rfl
      rw [e2]
      exact_mod_cast hbig

theorem Dbl.sub_eq_add {a b : Dbl} {qa qb : ℚ} (ha : a.toRat = some qa)
    (hb : b.toRat = some qb) : ∃ b', b'.toRat = some (-qb) ∧ a.sub b = a.add b' := by
  obtain ⟨s, e, f, rfl, rfl⟩ := Dbl.toRat_eq_some ha
  obtain ⟨t, g, h, rfl, rfl⟩ := Dbl.toRat_eq_some hb
  refine ⟨.fin (!t) g h, ?_, rfl⟩
  simp only [Dbl.toRat, Dbl.signed_not]
  push_cast
  rw [neg_div]

/-- The difference of two finite doubles, when finite, is at least as near to the exact
difference as any `double`. -/
theorem Dbl.sub_nearest {a b d : Dbl} {qa qb qx qd : ℚ} (ha : a.toRat = some qa)
    (hb : b.toRat = some qb) (hx : (a.sub b).toRat = some qx) (hd : d.toRat = some qd) :
    |qx - (qa - qb)| ≤ |qd - (qa - qb)| := by
  obtain ⟨b', hb', e⟩ := Dbl.sub_eq_add ha hb
  rw [e] at hx
  rw [sub_eq_add_neg qa qb]
  exact Dbl.add_nearest ha hb' hx hd

/-- The difference of two finite doubles is finite or an infinity, and an infinity only
when the exact difference is, in absolute value, at least halfway between the largest
`double` and `2 ^ 1024`. -/
theorem Dbl.sub_overflow {a b : Dbl} {qa qb : ℚ} (ha : a.toRat = some qa)
    (hb : b.toRat = some qb) (hx : (a.sub b).toRat = none) :
    (∃ sign, a.sub b = .inf sign) ∧ (2 : ℚ) ^ 1024 - 2 ^ 970 ≤ |qa - qb| := by
  obtain ⟨b', hb', e⟩ := Dbl.sub_eq_add ha hb
  rw [e] at hx ⊢
  rw [sub_eq_add_neg qa qb]
  exact Dbl.add_overflow ha hb' hx

theorem roundHalfEven_half (a : Nat) {g : Nat} (hg : 0 < g) :
    2 * |((roundHalfEven a g * g : Nat) : Int) - a| ≤ g := by
  have hdiv : g * (a / g) + a % g = a := Nat.div_add_mod a g
  have hmod : a % g < g := Nat.mod_lt a hg
  have hq : a / g * g = g * (a / g) := Nat.mul_comm _ _
  have hq1 : (a / g + 1) * g = g * (a / g) + g := by rw [Nat.add_mul, Nat.one_mul, hq]
  rcases roundHalfEven_bounds a g with ⟨e, hb⟩ | ⟨e, hb⟩
  · rw [e]
    rw [abs_of_nonpos (by omega)]
    omega
  · rw [e]
    rw [abs_of_nonneg (by omega)]
    omega

/-- Rounding `a * c / g` to an integer and dividing by `c` gives `a / g` within `1 / (2 c)`. -/
theorem roundHalfEven_near (a c : Nat) {g : Nat} (hg : 0 < g) (hc : 0 < c) :
    |((roundHalfEven (a * c) g : Nat) : ℚ) / c - (a : ℚ) / g| ≤ 1 / (2 * c) := by
  have hg' : (0 : ℚ) < g := by exact_mod_cast hg
  have hc' : (0 : ℚ) < c := by exact_mod_cast hc
  have h := roundHalfEven_half (a * c) hg
  have hq : (2 : ℚ) * |((roundHalfEven (a * c) g : Nat) : ℚ) * g - (a : ℚ) * c| ≤ g := by
    have := (Int.cast_le (R := ℚ)).2 h
    simpa using this
  have e1 : ((roundHalfEven (a * c) g : Nat) : ℚ) / c - (a : ℚ) / g =
      (((roundHalfEven (a * c) g : Nat) : ℚ) * g - (a : ℚ) * c) / (c * g) := by
    rw [div_sub_div _ _ (ne_of_gt hc') (ne_of_gt hg'), mul_comm (c : ℚ) (a : ℚ)]
  rw [e1, abs_div, abs_of_pos (mul_pos hc' hg'), div_le_div_iff₀ (mul_pos hc' hg') (by positivity)]
  nlinarith

theorem Dbl.abs_toRat {d : Dbl} {q : ℚ} (h : d.toRat = some q) :
    ∃ s e f, d = .fin s e f ∧ |q| = (Dbl.units e f : ℚ) / ((2 ^ 1074 : Nat) : ℚ) := by
  obtain ⟨s, e, f, rfl, rfl⟩ := Dbl.toRat_eq_some h
  refine ⟨s, e, f, rfl, ?_⟩
  have hp : (0 : ℚ) < 2 ^ 1074 := pow_pos (by norm_num) _
  have habs : |(Dbl.signed s e f : ℚ)| = (Dbl.units e f : ℚ) := by
    cases s <;> simp [Dbl.signed]
  rw [abs_div, abs_of_pos hp, habs, Nat.cast_pow, Nat.cast_ofNat]

/-! ## Reads: `Value::GetValue` -/

theorem Evolves.refl (m : Memory) : Evolves m m :=
  ⟨rfl, fun _ v h => ⟨v, h, Or.inl ⟨rfl, rfl⟩⟩⟩

theorem Computed.mono {m m' : Memory} (h : Evolves m m') {fn : Fn} {x : Dbl}
    (hc : Computed m fn x) : Computed m' fn x := by
  obtain ⟨a, b, ha, hai, hb, hbi, hx⟩ := hc
  obtain ⟨a', ha', sa⟩ := h.cell _ _ ha
  obtain ⟨b', hb', sb⟩ := h.cell _ _ hb
  have ea : a' = a := by
    rcases sa with ⟨e, _⟩ | ⟨e, _⟩ | ⟨e, _⟩
    · exact e
    · rw [hai] at e; cases e
    · rw [hai] at e; cases e
  have eb : b' = b := by
    rcases sb with ⟨e, _⟩ | ⟨e, _⟩ | ⟨e, _⟩
    · exact e
    · rw [hbi] at e; cases e
    · rw [hbi] at e; cases e
  subst ea; subst eb
  exact ⟨a', b', ha', hai, hb', hbi, hx⟩

theorem Evolves.trans {m m1 m2 : Memory} (h1 : Evolves m m1) (h2 : Evolves m1 m2) :
    Evolves m m2 := by
  refine ⟨h2.len.trans h1.len, fun q v hv => ?_⟩
  obtain ⟨v1, hv1, s1⟩ := h1.cell q v hv
  obtain ⟨v2, hv2, s2⟩ := h2.cell q v1 hv1
  refine ⟨v2, hv2, ?_⟩
  rcases s1 with ⟨e1, c1⟩ | ⟨i1, f1, e1, c1⟩ | ⟨i1, j1, f1, c1, fn, hfn, hc⟩
  · subst e1
    rcases s2 with ⟨e2, c2⟩ | ⟨i2, f2, e2, c2⟩ | ⟨i2, j2, f2, c2, fn, hfn, hc⟩
    · exact Or.inl ⟨e2, c2.trans c1⟩
    · exact Or.inr (Or.inl ⟨i2, f2, e2, c2.trans c1⟩)
    · exact Or.inr (Or.inr ⟨i2, j2, f2, by omega, fn, hfn, hc⟩)
  · rcases s2 with ⟨e2, c2⟩ | ⟨i2, f2, e2, c2⟩ | ⟨i2, j2, f2, c2, fn, hfn, hc⟩
    · exact Or.inr (Or.inl ⟨i1, f1, e2.trans e1, c2.trans c1⟩)
    · rw [e1] at i2; cases i2
    · rw [e1] at i2; cases i2
  · rcases s2 with ⟨e2, c2⟩ | ⟨i2, f2, e2, c2⟩ | ⟨i2, j2, f2, c2, fn2, hfn2, hc2⟩
    · subst e2
      exact Or.inr (Or.inr ⟨i1, j1, f1, by omega, fn, hfn, hc.mono h2⟩)
    · rw [j1] at i2; cases i2
    · rw [j1] at i2; cases i2

theorem Evolves.wf {m m' : Memory} (h : Evolves m m') (hw : m.WF) : m'.WF := by
  intro p v' fn hv' hfn
  have hp : p < m.cells.length := by
    obtain ⟨hlt, _⟩ := List.getElem?_eq_some_iff.1 hv'
    rw [h.len] at hlt; exact hlt
  obtain ⟨v, hv⟩ : ∃ v, m.cells[p]? = some v := ⟨m.cells[p], List.getElem?_eq_getElem hp⟩
  obtain ⟨v2, hv2, s⟩ := h.cell p v hv
  rw [hv'] at hv2; cases hv2
  have : v'.m_fn = v.m_fn := by
    rcases s with ⟨e, _⟩ | ⟨_, _, e, _⟩ | ⟨_, _, e, _⟩
    · rw [e]
    · rw [e]
    · exact e
  exact hw p v fn hv (this ▸ hfn)

theorem count_append_singleton_ne {q p : ValuePtr} (l : List ValuePtr) (h : q ≠ p) :
    (l ++ [p]).count q = l.count q := by
  rw [List.count_append, List.count_singleton]
  have : (p == q) = false := by simpa using fun e : p = q => h e.symm
  simp [this]

theorem count_append_singleton_self (p : ValuePtr) (l : List ValuePtr) :
    (l ++ [p]).count p = l.count p + 1 := by
  rw [List.count_append, List.count_singleton]; simp

/-- Marking an uninitialized object does not disturb a closure result that is already
established, since such a result only mentions initialized objects. -/
theorem Computed.modify {m : Memory} {fn : Fn} {x : Dbl} (hc : Computed m fn x)
    {p : ValuePtr} {v : Value} (hv : m.cells[p]? = some v) (hi : v.m_initialized = false)
    (f : Value → Value) (calls : List ValuePtr) :
    Computed ⟨m.cells.modify f p, calls⟩ fn x := by
  obtain ⟨a, b, ha, hai, hb, hbi, hx⟩ := hc
  have h1 : fn.arg1 ≠ p := by
    intro e; rw [e, hv] at ha; cases ha; rw [hai] at hi; cases hi
  have h2 : fn.arg2 ≠ p := by
    intro e; rw [e, hv] at hb; cases hb; rw [hbi] at hi; cases hi
  refine ⟨a, b, ?_, hai, ?_, hbi, hx⟩
  · show (m.cells.modify f p)[fn.arg1]? = some a
    rw [List.getElem?_modify_ne _ _ (Ne.symm h1)]; exact ha
  · show (m.cells.modify f p)[fn.arg2]? = some b
    rw [List.getElem?_modify_ne _ _ (Ne.symm h2)]; exact hb

/-- What one successful call of `GetValue` on `p` does to a well-formed heap: the heap
evolves by reads, nothing above `p` is touched, and `p` ends initialized with the
returned value. -/
theorem GetValue_spec : ∀ (fuel : Nat) (m : Memory) (p : ValuePtr) (r : Dbl) (m' : Memory),
    m.WF → Value.GetValue fuel m p = some (r, m') →
    Evolves m m' ∧
    (∀ q, p < q → m'.cells[q]? = m.cells[q]? ∧ m'.calls.count q = m.calls.count q) ∧
    ∃ v', m'.cells[p]? = some v' ∧ v'.m_initialized = true ∧ v'.m_value = r := by
  intro fuel
  induction fuel with
  | zero => intro m p r m' _ h; simp [Value.GetValue] at h
  | succ fuel ih =>
    intro m p r m' hw h
    rw [Value.GetValue] at h
    cases hv : m.cells[p]? with
    | none => rw [hv] at h; simp at h
    | some v =>
      rw [hv] at h
      simp only at h
      by_cases hi : v.m_initialized = true
      · rw [if_pos hi] at h
        cases h
        exact ⟨Evolves.refl m, fun _ _ => ⟨rfl, rfl⟩, v, hv, hi, rfl⟩
      · rw [if_neg hi] at h
        have hi' : v.m_initialized = false := by simpa using hi
        cases hfn : v.m_fn with
        | none =>
          rw [hfn] at h
          cases h
          refine ⟨⟨by simp, fun q v0 hv0 => ?_⟩, fun q hq => ⟨?_, rfl⟩, ?_⟩
          · by_cases e : q = p
            · subst e
              rw [hv] at hv0; cases hv0
              exact ⟨{ v with m_initialized := true }, by simp [hv],
                Or.inr (Or.inl ⟨hi', hfn, rfl, rfl⟩)⟩
            · exact ⟨v0, by simp [List.getElem?_modify_ne _ _ (Ne.symm e), hv0],
                Or.inl ⟨rfl, rfl⟩⟩
          · have e : p ≠ q := Nat.ne_of_lt hq
            simp [List.getElem?_modify_ne _ _ e]
          · exact ⟨{ v with m_initialized := true }, by simp [hv], rfl, rfl⟩
        | some fn =>
          rw [hfn] at h
          simp only at h
          obtain ⟨lt1, lt2⟩ := hw p v fn hv hfn
          cases h1 : Value.GetValue fuel { m with calls := m.calls ++ [p] } fn.arg1 with
          | none => rw [h1] at h; simp at h
          | some res1 =>
            obtain ⟨a, m1⟩ := res1
            rw [h1] at h
            simp only at h
            cases h2 : Value.GetValue fuel m1 fn.arg2 with
            | none => rw [h2] at h; simp at h
            | some res2 =>
              obtain ⟨b, m2⟩ := res2
              rw [h2] at h
              simp only [Option.some.injEq, Prod.mk.injEq] at h
              obtain ⟨hr, hm'⟩ := h
              subst hr
              have hw0 : Memory.WF { m with calls := m.calls ++ [p] } := hw
              obtain ⟨E1, A1, a', ha', hai, hav⟩ := ih _ _ _ _ hw0 h1
              obtain ⟨E2, A2, b', hb', hbi, hbv⟩ := ih _ _ _ _ (E1.wf hw0) h2
              have E := E1.trans E2
              -- the object at `p` is not touched by the two operand reads
              have hp2 : m2.cells[p]? = some v := by
                rw [(A2 p lt2).1, (A1 p lt1).1]; exact hv
              have cp2 : m2.calls.count p = m.calls.count p + 1 := by
                rw [(A2 p lt2).2, (A1 p lt1).2]; exact count_append_singleton_self p _
              have ha2 : m2.cells[fn.arg1]? = some a' := by
                obtain ⟨x, hx, sx⟩ := E2.cell _ _ ha'
                rcases sx with ⟨e, _⟩ | ⟨e, _⟩ | ⟨e, _⟩
                · rw [hx, e]
                · rw [hai] at e; cases e
                · rw [hai] at e; cases e
              subst hm'
              refine ⟨⟨?_, fun q v0 hv0 => ?_⟩, fun q hq => ?_, ?_⟩
              · simp [Value.SetValue]; exact E.len
              · by_cases e : q = p
                · subst e
                  rw [hv] at hv0; cases hv0
                  refine ⟨{ v with m_value := if fn.plus then a + b else a - b,
                                   m_initialized := true },
                    by simp [Value.SetValue, hp2], Or.inr (Or.inr
                    ⟨hi', rfl, rfl, cp2, fn, hfn, a', b', ?_, hai, ?_, hbi, ?_⟩)⟩
                  · simp only [Value.SetValue]
                    rw [List.getElem?_modify_ne _ _ (Nat.ne_of_gt lt1)]; exact ha2
                  · simp only [Value.SetValue]
                    rw [List.getElem?_modify_ne _ _ (Nat.ne_of_gt lt2)]; exact hb'
                  · simp only [hav, hbv]
                · obtain ⟨v2, hv2, s⟩ := E.cell q v0 hv0
                  have c0 : (m.calls ++ [p]).count q = m.calls.count q :=
                    count_append_singleton_ne _ e
                  refine ⟨v2, ?_, ?_⟩
                  · simp only [Value.SetValue]
                    rw [List.getElem?_modify_ne _ _ (Ne.symm e)]; exact hv2
                  · rcases s with ⟨e1, c1⟩ | ⟨i1, f1, e1, c1⟩ | ⟨i1, j1, f1, c1, g, hg, hc⟩
                    · exact Or.inl ⟨e1, c1.trans c0⟩
                    · exact Or.inr (Or.inl ⟨i1, f1, e1, c1.trans c0⟩)
                    · exact Or.inr (Or.inr ⟨i1, j1, f1, by rw [← c0]; exact c1, g, hg,
                        hc.modify hp2 hi' _ _⟩)
              · have e : p ≠ q := Nat.ne_of_lt hq
                have q1 : fn.arg1 < q := Nat.lt_trans lt1 hq
                have q2 : fn.arg2 < q := Nat.lt_trans lt2 hq
                constructor
                · simp only [Value.SetValue]
                  rw [List.getElem?_modify_ne _ _ e, (A2 q q2).1, (A1 q q1).1]
                · show m2.calls.count q = _
                  rw [(A2 q q2).2, (A1 q q1).2]
                  exact count_append_singleton_ne _ (Ne.symm e)
              · exact ⟨{ v with m_value := if fn.plus then a + b else a - b,
                                m_initialized := true },
                  by simp [Value.SetValue, hp2], rfl, rfl⟩

/-- More fuel does not change the result of a call that returned. -/
theorem GetValue_succ : ∀ (fuel : Nat) (m : Memory) (p : ValuePtr) (x : Dbl × Memory),
    Value.GetValue fuel m p = some x → Value.GetValue (fuel + 1) m p = some x := by
  intro fuel
  induction fuel with
  | zero => intro m p x h; simp [Value.GetValue] at h
  | succ fuel ih =>
    intro m p x h
    rw [Value.GetValue] at h
    rw [Value.GetValue]
    cases hv : m.cells[p]? with
    | none => rw [hv] at h; simp at h
    | some v =>
      rw [hv] at h
      simp only at h ⊢
      by_cases hi : v.m_initialized = true
      · rw [if_pos hi] at h ⊢; exact h
      · rw [if_neg hi] at h ⊢
        cases hfn : v.m_fn with
        | none => rw [hfn] at h; exact h
        | some fn =>
          rw [hfn] at h
          simp only at h ⊢
          cases h1 : Value.GetValue fuel { m with calls := m.calls ++ [p] } fn.arg1 with
          | none => rw [h1] at h; simp at h
          | some res1 =>
            rw [h1] at h
            rw [ih _ _ _ h1]
            simp only at h ⊢
            cases h2 : Value.GetValue fuel res1.2 fn.arg2 with
            | none => rw [h2] at h; simp at h
            | some res2 =>
              rw [h2] at h
              rw [ih _ _ _ h2]
              exact h

theorem GetValue_mono {fuel fuel' : Nat} (hle : fuel ≤ fuel') {m : Memory} {p : ValuePtr}
    {x : Dbl × Memory} (h : Value.GetValue fuel m p = some x) :
    Value.GetValue fuel' m p = some x := by
  induction hle with
  | refl => exact h
  | step _ ih => exact GetValue_succ _ _ _ _ ih

/-- On a well-formed heap a call of `GetValue` on the object `p` returns, as soon as the
recursion bound exceeds `p`. -/
theorem GetValue_total : ∀ (fuel : Nat) (m : Memory) (p : ValuePtr),
    m.WF → p < m.cells.length → p < fuel → ∃ r m', Value.GetValue fuel m p = some (r, m') := by
  intro fuel
  induction fuel with
  | zero => intro m p _ _ h; exact absurd h (Nat.not_lt_zero _)
  | succ fuel ih =>
    intro m p hw hp hf
    rw [Value.GetValue]
    have hv : m.cells[p]? = some m.cells[p] := List.getElem?_eq_getElem hp
    rw [hv]
    simp only
    by_cases hi : (m.cells[p]).m_initialized = true
    · rw [if_pos hi]; exact ⟨_, _, rfl⟩
    · rw [if_neg hi]
      cases hfn : (m.cells[p]).m_fn with
      | none => exact ⟨_, _, rfl⟩
      | some fn =>
        simp only
        obtain ⟨lt1, lt2⟩ := hw p _ fn hv hfn
        have hw0 : Memory.WF { m with calls := m.calls ++ [p] } := hw
        obtain ⟨a, m1, h1⟩ := ih { m with calls := m.calls ++ [p] } fn.arg1 hw0
          (Nat.lt_trans lt1 hp) (Nat.lt_of_lt_of_le lt1 (Nat.lt_succ_iff.1 hf))
        obtain ⟨E1, _, _⟩ := GetValue_spec _ _ _ _ _ hw0 h1
        obtain ⟨b, m2, h2⟩ := ih m1 fn.arg2 (E1.wf hw0)
          (by rw [E1.len]; exact Nat.lt_trans lt2 hp)
          (Nat.lt_of_lt_of_le lt2 (Nat.lt_succ_iff.1 hf))
        rw [h1]
        simp only
        rw [h2]
        exact ⟨_, _, rfl⟩

theorem GetValue_initialized {m : Memory} {p : ValuePtr} {v : Value}
    (hv : m.cells[p]? = some v) (hi : v.m_initialized = true) (fuel : Nat) :
    Value.GetValue (fuel + 1) m p = some (v.m_value, m) := by
  rw [Value.GetValue, hv]
  simp only [hi, if_true]

/-- What a call of `GetValue` that returns does on any heap, well-formed or not: no
object is added or loses its closure, initialized objects stay initialized, the trace
only grows, and the object read ends initialized with the returned value. -/
theorem GetValue_frame : ∀ (fuel : Nat) (m : Memory) (q : ValuePtr) (r : Dbl) (m' : Memory),
    Value.GetValue fuel m q = some (r, m') →
    m'.cells.length = m.cells.length ∧
    (∀ (x : ValuePtr) (v : Value), m.cells[x]? = some v → ∃ v', m'.cells[x]? = some v' ∧
      v'.m_fn = v.m_fn ∧ (v.m_initialized = true → v'.m_initialized = true)) ∧
    (∀ x, m.calls.count x ≤ m'.calls.count x) ∧
    ∃ v', m'.cells[q]? = some v' ∧ v'.m_initialized = true ∧ v'.m_value = r := by
  intro fuel
  induction fuel with
  | zero => intro m q r m' h; simp [Value.GetValue] at h
  | succ fuel ih =>
    intro m q r m' h
    rw [Value.GetValue] at h
    cases hv : m.cells[q]? with
    | none => rw [hv] at h; simp at h
    | some v =>
      rw [hv] at h
      simp only at h
      by_cases hi : v.m_initialized = true
      · rw [if_pos hi] at h
        cases h
        exact ⟨rfl, fun x w hw => ⟨w, hw, rfl, id⟩, fun _ => Nat.le_refl _, v, hv, hi, rfl⟩
      · rw [if_neg hi] at h
        cases hfn : v.m_fn with
        | none =>
          rw [hfn] at h
          cases h
          refine ⟨by simp, fun x w hw => ?_, fun _ => Nat.le_refl _,
            { v with m_initialized := true }, by simp [hv], rfl, rfl⟩
          by_cases e : q = x
          · subst e
            exact ⟨{ w with m_initialized := true }, by simp [hw], rfl, fun _ => rfl⟩
          · exact ⟨w, by simp [List.getElem?_modify_ne _ _ e, hw], rfl, id⟩
        | some fn =>
          rw [hfn] at h
          simp only at h
          cases h1 : Value.GetValue fuel { m with calls := m.calls ++ [q] } fn.arg1 with
          | none => rw [h1] at h; simp at h
          | some res1 =>
            obtain ⟨a, m1⟩ := res1
            rw [h1] at h
            simp only at h
            cases h2 : Value.GetValue fuel m1 fn.arg2 with
            | none => rw [h2] at h; simp at h
            | some res2 =>
              obtain ⟨b, m2⟩ := res2
              rw [h2] at h
              simp only [Option.some.injEq, Prod.mk.injEq] at h
              obtain ⟨hr, hm'⟩ := h
              subst hr; subst hm'
              obtain ⟨len1, cell1, cnt1, _⟩ := ih _ _ _ _ h1
              obtain ⟨len2, cell2, cnt2, _⟩ := ih _ _ _ _ h2
              obtain ⟨v1, hv1, _, _⟩ := cell1 q v hv
              obtain ⟨v2, hv2, _, _⟩ := cell2 q v1 hv1
              refine ⟨by simp [Value.SetValue, len1, len2], fun x w hw => ?_, fun x => ?_,
                { v2 with m_value := if fn.plus then a + b else a - b, m_initialized := true },
                by simp [Value.SetValue, hv2], rfl, rfl⟩
              · obtain ⟨w1, hw1, f1, i1⟩ := cell1 x w hw
                obtain ⟨w2, hw2, f2, i2⟩ := cell2 x w1 hw1
                by_cases e : q = x
                · subst e
                  exact ⟨{ w2 with m_value := if fn.plus then a + b else a - b,
                                   m_initialized := true },
                    by simp [Value.SetValue, hw2], f2.trans f1, fun _ => rfl⟩
                · exact ⟨w2, by simp [Value.SetValue, List.getElem?_modify_ne _ _ e, hw2],
                    f2.trans f1, fun h => i2 (i1 h)⟩
              · have c0 : m.calls.count x ≤ (m.calls ++ [q]).count x := by
                  rw [List.count_append]; exact Nat.le_add_right _ _
                exact Nat.le_trans c0 (Nat.le_trans (cnt1 x) (cnt2 x))

theorem Reads_of_frame {m m' : Memory}
    (cell : ∀ (x : ValuePtr) (v : Value), m.cells[x]? = some v → ∃ v', m'.cells[x]? = some v' ∧
      v'.m_fn = v.m_fn ∧ (v.m_initialized = true → v'.m_initialized = true))
    (len : m'.cells.length = m.cells.length) {a b : ValuePtr} (h : m'.Reads a b) :
    m.Reads a b := by
  obtain ⟨v', fn, hv', hi', hfn', hb⟩ := h
  have ha : a < m.cells.length := by
    obtain ⟨hlt, _⟩ := List.getElem?_eq_some_iff.1 hv'
    rw [len] at hlt; exact hlt
  obtain ⟨w, hw, hf, hi⟩ := cell a _ (List.getElem?_eq_getElem ha)
  rw [hv'] at hw; cases hw
  refine ⟨m.cells[a], fn, List.getElem?_eq_getElem ha, ?_, hf ▸ hfn', hb⟩
  cases hinit : (m.cells[a]).m_initialized with
  | false => rfl
  | true => rw [hi hinit] at hi'; cases hi'

/-- A read of a member of a trap does not return; a read that returns leaves the trap
as it was. -/
theorem GetValue_trap (T : ValuePtr → Prop) : ∀ (fuel : Nat) (m : Memory) (q : ValuePtr)
    (r : Dbl) (m' : Memory), m.Trap T → Value.GetValue fuel m q = some (r, m') →
    ¬ T q ∧ ∀ t, T t → m'.cells[t]? = m.cells[t]? := by
  intro fuel
  induction fuel with
  | zero => intro m q r m' _ h; simp [Value.GetValue] at h
  | succ fuel ih =>
    intro m q r m' ht h
    rw [Value.GetValue] at h
    cases hv : m.cells[q]? with
    | none => rw [hv] at h; simp at h
    | some v =>
      rw [hv] at h
      simp only at h
      by_cases hi : v.m_initialized = true
      · rw [if_pos hi] at h
        cases h
        refine ⟨fun hq => ?_, fun _ _ => rfl⟩
        obtain ⟨_, _, w, _, hw, hwi, _⟩ := ht q hq
        rw [hv] at hw; cases hw; rw [hi] at hwi; cases hwi
      · rw [if_neg hi] at h
        cases hfn : v.m_fn with
        | none =>
          rw [hfn] at h
          cases h
          have hq : ¬ T q := by
            intro hq
            obtain ⟨_, _, w, _, hw, _, hwf, _⟩ := ht q hq
            rw [hv] at hw; cases hw; rw [hfn] at hwf; cases hwf
          refine ⟨hq, fun t htT => ?_⟩
          have e : q ≠ t := fun e => hq (e ▸ htT)
          simp [List.getElem?_modify_ne _ _ e]
        | some fn =>
          rw [hfn] at h
          simp only at h
          cases h1 : Value.GetValue fuel { m with calls := m.calls ++ [q] } fn.arg1 with
          | none => rw [h1] at h; simp at h
          | some res1 =>
            obtain ⟨a, m1⟩ := res1
            rw [h1] at h
            simp only at h
            cases h2 : Value.GetValue fuel m1 fn.arg2 with
            | none => rw [h2] at h; simp at h
            | some res2 =>
              obtain ⟨b, m2⟩ := res2
              rw [h2] at h
              simp only [Option.some.injEq, Prod.mk.injEq] at h
              obtain ⟨hr, hm'⟩ := h
              subst hr; subst hm'
              have ht0 : Memory.Trap { m with calls := m.calls ++ [q] } T := ht
              obtain ⟨n1, same1⟩ := ih _ _ _ _ ht0 h1
              have ht1 : m1.Trap T := by
                intro t htT
                obtain ⟨b', hb', w, g, hw, hwi, hwf, hwb⟩ := ht t htT
                exact ⟨b', hb', w, g, (same1 t htT).trans hw, hwi, hwf, hwb⟩
              obtain ⟨n2, same2⟩ := ih _ _ _ _ ht1 h2
              have hq : ¬ T q := by
                intro hq
                obtain ⟨b', hb', w, g, hw, _, hwf, hwb⟩ := ht q hq
                rw [hv] at hw; cases hw
                rw [hfn] at hwf; cases hwf
                rcases hwb with e | e
                · exact n1 (e ▸ hb')
                · exact n2 (e ▸ hb')
              refine ⟨hq, fun t htT => ?_⟩
              have e : q ≠ t := fun e => hq (e ▸ htT)
              simp only [Value.SetValue]
              rw [List.getElem?_modify_ne _ _ e, same2 t htT, same1 t htT]

/-- If a read of `q` that returns ran the closure of `p`, then `p` was an uninitialized
formula object reached from `q` through uninitialized formula objects. -/
theorem GetValue_path : ∀ (fuel : Nat) (m : Memory) (q : ValuePtr) (r : Dbl) (m' : Memory),
    Value.GetValue fuel m q = some (r, m') → ∀ p, m.calls.count p < m'.calls.count p →
    Relation.ReflTransGen m.Reads q p ∧ ∃ b, m.Reads p b := by
  intro fuel
  induction fuel with
  | zero => intro m q r m' h; simp [Value.GetValue] at h
  | succ fuel ih =>
    intro m q r m' h p hlt
    rw [Value.GetValue] at h
    cases hv : m.cells[q]? with
    | none => rw [hv] at h; simp at h
    | some v =>
      rw [hv] at h
      simp only at h
      by_cases hi : v.m_initialized = true
      · rw [if_pos hi] at h
        cases h
        exact absurd hlt (Nat.lt_irrefl _)
      · rw [if_neg hi] at h
        have hi' : v.m_initialized = false := by simpa using hi
        cases hfn : v.m_fn with
        | none =>
          rw [hfn] at h
          cases h
          exact absurd hlt (Nat.lt_irrefl _)
        | some fn =>
          rw [hfn] at h
          simp only at h
          cases h1 : Value.GetValue fuel { m with calls := m.calls ++ [q] } fn.arg1 with
          | none => rw [h1] at h; simp at h
          | some res1 =>
            obtain ⟨a, m1⟩ := res1
            rw [h1] at h
            simp only at h
            cases h2 : Value.GetValue fuel m1 fn.arg2 with
            | none => rw [h2] at h; simp at h
            | some res2 =>
              obtain ⟨b, m2⟩ := res2
              rw [h2] at h
              simp only [Option.some.injEq, Prod.mk.injEq] at h
              obtain ⟨hr, hm'⟩ := h
              subst hr; subst hm'
              have hlt2 : m.calls.count p < m2.calls.count p := hlt
              have r1 : m.Reads q fn.arg1 := ⟨v, fn, hv, hi', hfn, Or.inl rfl⟩
              have r2 : m.Reads q fn.arg2 := ⟨v, fn, hv, hi', hfn, Or.inr rfl⟩
              by_cases e : p = q
              · subst e
                exact ⟨Relation.ReflTransGen.refl, fn.arg1, r1⟩
              · have c0 : (m.calls ++ [q]).count p = m.calls.count p :=
                  count_append_singleton_ne _ e
                by_cases hc1 : (m.calls ++ [q]).count p < m1.calls.count p
                · obtain ⟨path, b', hb'⟩ := ih _ _ _ _ h1 p hc1
                  exact ⟨Relation.ReflTransGen.head r1 path, b', hb'⟩
                · have hc2 : m1.calls.count p < m2.calls.count p := by
                    have := Nat.not_lt.1 hc1
                    rw [c0] at this
                    exact Nat.lt_of_le_of_lt this hlt2
                  obtain ⟨path, b', hb'⟩ := ih _ _ _ _ h2 p hc2
                  obtain ⟨len1, cell1, _, _⟩ := GetValue_frame _ _ _ _ _ h1
                  have back : ∀ x y, m1.Reads x y → m.Reads x y :=
                    fun x y hxy => Reads_of_frame cell1 len1 hxy
                  exact ⟨Relation.ReflTransGen.head r2 (Relation.ReflTransGen.mono back path),
                    b', back _ _ hb'⟩

/-- A read that returns runs the closure of the object it reads at most once: once when
the object was not initialized, never when it was. -/
theorem GetValue_count_self (fuel : Nat) (m : Memory) (p : ValuePtr) (c : Value) (fn : Fn)
    (hc : m.cells[p]? = some c) (hfn : c.m_fn = some fn) (x : Dbl) (m1 : Memory)
    (h : Value.GetValue fuel m p = some (x, m1)) :
    m1.calls.count p = m.calls.count p + (if c.m_initialized then 0 else 1) := by
  cases fuel with
  | zero => simp [Value.GetValue] at h
  | succ fuel =>
    rw [Value.GetValue, hc] at h
    simp only at h
    by_cases hi : c.m_initialized = true
    · rw [if_pos hi] at h
      cases h
      simp [hi]
    · rw [if_neg hi] at h
      have hi' : c.m_initialized = false := by simpa using hi
      rw [hfn] at h
      simp only at h
      cases h1 : Value.GetValue fuel { m with calls := m.calls ++ [p] } fn.arg1 with
      | none => rw [h1] at h; simp at h
      | some res1 =>
        obtain ⟨a, m1'⟩ := res1
        rw [h1] at h
        simp only at h
        cases h2 : Value.GetValue fuel m1' fn.arg2 with
        | none => rw [h2] at h; simp at h
        | some res2 =>
          obtain ⟨b, m2⟩ := res2
          rw [h2] at h
          simp only [Option.some.injEq, Prod.mk.injEq] at h
          obtain ⟨hr, hm'⟩ := h
          subst hr; subst hm'
          -- a nested run of the closure of `p` would close a trap around the operand
          have no_nested : ∀ (f : Nat) (m0 : Memory) (q : ValuePtr) (y : Dbl) (m0' : Memory),
              Value.GetValue f m0 q = some (y, m0') →
              (∀ b, m0.Reads p b → m0.Reads p q) →
              ¬ m0.calls.count p < m0'.calls.count p := by
            intro f m0 q y m0' hq hreads hlt
            obtain ⟨path, b', hb'⟩ := GetValue_path _ _ _ _ _ hq p hlt
            have trap : m0.Trap (fun t => Relation.ReflTransGen m0.Reads t p) := by
              intro t ht
              rcases Relation.ReflTransGen.cases_head ht with e | ⟨t', htt', ht'⟩
              · subst e
                exact ⟨q, path, hreads b' hb'⟩
              · exact ⟨t', ht', htt'⟩
            exact (GetValue_trap _ _ _ _ _ _ trap hq).1 path
          have hreads1 : ∀ b', Memory.Reads { m with calls := m.calls ++ [p] } p b' →
              Memory.Reads { m with calls := m.calls ++ [p] } p fn.arg1 :=
            fun _ _ => ⟨c, fn, hc, hi', hfn, Or.inl rfl⟩
          have hreads2 : ∀ b', m1'.Reads p b' → m1'.Reads p fn.arg2 := by
            intro b' hb'
            obtain ⟨w, g, hw, hwi, hwf, _⟩ := hb'
            obtain ⟨_, cell1, _, _⟩ := GetValue_frame _ _ _ _ _ h1
            obtain ⟨w', hw', hf', _⟩ := cell1 p c hc
            rw [hw] at hw'; cases hw'
            rw [hf', hfn] at hwf; cases hwf
            exact ⟨w, fn, hw, hwi, hf'.trans hfn, Or.inr rfl⟩
          have n1 := no_nested _ _ _ _ _ h1 hreads1
          have n2 := no_nested _ _ _ _ _ h2 hreads2
          obtain ⟨_, _, cnt1, _⟩ := GetValue_frame _ _ _ _ _ h1
          obtain ⟨_, _, cnt2, _⟩ := GetValue_frame _ _ _ _ _ h2
          have e1 : m1'.calls.count p = (m.calls ++ [p]).count p :=
            Nat.le_antisymm (Nat.not_lt.1 n1) (cnt1 p)
          have e2 : m2.calls.count p = m1'.calls.count p :=
            Nat.le_antisymm (Nat.not_lt.1 n2) (cnt2 p)
          show m2.calls.count p = _
          rw [e2, e1, count_append_singleton_self, hi']
          rfl

/-! ## Records: `ParseRule`, `ParseQuote`, `ReadDatabase` -/

theorem SetValue_ok {s : State} {name : String} {p : ValuePtr}
    (hreg : s.db.values.lookup name = some p) (value : Dbl) :
    Database.SetValue name value s = (.ok (), { s with mem := Value.SetValue p value s.mem }) := by
  simp [Database.SetValue, Database.GetValue, hreg]

theorem SetValue_cell {m : Memory} {p : ValuePtr} {c : Value} (hc : m.cells[p]? = some c)
    (value : Dbl) :
    (Value.SetValue p value m).cells[p]? =
      some { c with m_value := value, m_initialized := true } := by
  simp [Value.SetValue, hc]

theorem Quote.at_eq_ok {quote : Quote} {i : Nat} {x : String} :
    quote.at i = .ok x ↔ quote[i]? = some x := by
  unfold Quote.at
  cases quote[i]? <;> simp

theorem Quote.at_eq_error {quote : Quote} {i : Nat} {e : Exception} :
    quote.at i = .error e → quote[i]? = none ∧ e = .out_of_range "vector::at" := by
  unfold Quote.at
  cases quote[i]? <;> simp
  exact fun h => h.symm

theorem Database.GetValue_eq_ok {db : Database} {id : String} {p : ValuePtr} :
    db.GetValue id = .ok p ↔ db.values.lookup id = some p := by
  unfold Database.GetValue
  cases db.values.lookup id <;> simp

theorem Database.GetValue_eq_error {db : Database} {id : String} {e : Exception} :
    db.GetValue id = .error e → db.values.lookup id = none ∧
      e = .out_of_range "unordered_map::at" := by
  unfold Database.GetValue
  cases db.values.lookup id <;> simp
  exact fun h => h.symm

/-- A record that raises an exception leaves the state as it was. -/
theorem ParseQuote_error (stod : String → Except Exception Dbl) (quote : Quote) (s : State)
    (e : Exception) (s' : State) (h : ParseQuote stod quote s = (.error e, s')) : s' = s := by
  unfold ParseQuote at h
  split at h
  · cases h
  · split at h
    · unfold ParseRule at h
      split at h
      · cases h; rfl
      · split at h
        · cases h; rfl
        · split at h
          · cases h; rfl
          · cases h
    · split at h
      · split at h
        · cases h; rfl
        · split at h
          · cases h; rfl
          · split at h
            · cases h; rfl
            · unfold Database.SetValue at h
              split at h
              · cases h; rfl
              · cases h
      · cases h

theorem ParseRule_fn_ok {quote : Quote} {operation : String} {db : Database}
    {fn : Option Fn} (h : ParseRule.fn quote operation db = .ok fn) :
    (operation = "S" ∧ fn = none) ∨
    ((operation = "+" ∨ operation = "-") ∧ ∃ n1 n2 arg1 arg2,
      quote[3]? = some n1 ∧ quote[4]? = some n2 ∧ db.values.lookup n1 = some arg1 ∧
      db.values.lookup n2 = some arg2 ∧ fn = some ⟨operation = "+", arg1, arg2⟩) := by
  unfold ParseRule.fn at h
  split at h
  · rename_i hop
    right
    refine ⟨hop, ?_⟩
    cases h3 : quote.at 3 with
    | error e => rw [h3] at h; cases h
    | ok n1 =>
      rw [h3] at h; simp only at h
      cases g1 : db.GetValue n1 with
      | error e => rw [g1] at h; cases h
      | ok arg1 =>
        rw [g1] at h; simp only at h
        cases h4 : quote.at 4 with
        | error e => rw [h4] at h; cases h
        | ok n2 =>
          rw [h4] at h; simp only at h
          cases g2 : db.GetValue n2 with
          | error e => rw [g2] at h; cases h
          | ok arg2 =>
            rw [g2] at h; simp only at h
            cases h
            exact ⟨n1, n2, arg1, arg2, Quote.at_eq_ok.1 h3, Quote.at_eq_ok.1 h4,
              Database.GetValue_eq_ok.1 g1, Database.GetValue_eq_ok.1 g2, rfl⟩
  · split at h
    · cases h
    · rename_i hs
      cases h
      left
      exact ⟨by simpa using hs, rfl⟩

/-- The normal returns of `ParseQuote` are exactly the four cases of `Accepts`. -/
theorem ParseQuote_ok_iff (stod : String → Except Exception Dbl) (quote : Quote)
    (s s' : State) : ParseQuote stod quote s = (.ok (), s') ↔ Accepts stod quote s s' := by
  constructor
  · intro h
    unfold ParseQuote at h
    split at h
    · cases h
      exact Accepts.skip _ _ (by simp) (by simp)
    · rename_i front rest
      split at h
      · rename_i hR
        subst hR
        unfold ParseRule at h
        cases h1 : Quote.at ("R" :: rest) 1 with
        | error e => rw [h1] at h; cases h
        | ok id =>
          rw [h1] at h; simp only at h
          cases h2 : Quote.at ("R" :: rest) 2 with
          | error e => rw [h2] at h; cases h
          | ok operation =>
            rw [h2] at h; simp only at h
            cases hf : ParseRule.fn ("R" :: rest) operation s.db with
            | error e => rw [hf] at h; cases h
            | ok fn =>
              rw [hf] at h
              simp only [make_shared, Prod.mk.injEq, true_and] at h
              subst h
              rcases ParseRule_fn_ok hf with ⟨hop, hfn⟩ | ⟨hop, n1, n2, a1, a2, q3, q4, l1, l2, hfn⟩
              · subst hfn; subst hop
                exact Accepts.source _ _ id (by simp) (Quote.at_eq_ok.1 h1) (Quote.at_eq_ok.1 h2)
              · subst hfn
                exact Accepts.formula _ _ id operation n1 n2 a1 a2 (by simp) (Quote.at_eq_ok.1 h1)
                  (Quote.at_eq_ok.1 h2) hop q3 q4 l1 l2
      · rename_i hR
        split at h
        · rename_i hQ
          subst hQ
          cases h1 : Quote.at ("Q" :: rest) 1 with
          | error e => rw [h1] at h; cases h
          | ok id =>
            rw [h1] at h; simp only at h
            cases h2 : Quote.at ("Q" :: rest) 2 with
            | error e => rw [h2] at h; cases h
            | ok literal =>
              rw [h2] at h; simp only at h
              cases h3 : stod literal with
              | error e => rw [h3] at h; cases h
              | ok value =>
                rw [h3] at h; simp only at h
                unfold Database.SetValue at h
                cases h4 : s.db.GetValue id with
                | error e => rw [h4] at h; cases h
                | ok p =>
                  rw [h4] at h
                  simp only [Prod.mk.injEq, true_and] at h
                  subst h
                  exact Accepts.quote _ _ id literal value p (by simp) (Quote.at_eq_ok.1 h1)
                    (Quote.at_eq_ok.1 h2) h3 (Database.GetValue_eq_ok.1 h4)
        · rename_i hQ
          cases h
          exact Accepts.skip _ _ (by simpa using hR) (by simpa using hQ)
  · intro h
    cases h with
    | skip hR hQ =>
      unfold ParseQuote
      cases quote with
      | nil => rfl
      | cons front rest =>
        have h1 : front ≠ "R" := by simpa using hR
        have h2 : front ≠ "Q" := by simpa using hQ
        simp [h1, h2]
    | source id h0 h1 h2 =>
      cases quote with
      | nil => simp at h0
      | cons front rest =>
        have hf : front = "R" := by simpa using h0
        subst hf
        simp [ParseQuote, ParseRule, Quote.at_eq_ok.2 h1, Quote.at_eq_ok.2 h2, ParseRule.fn,
          make_shared]
    | formula id operation n1 n2 a1 a2 h0 h1 h2 hop h3 h4 l1 l2 =>
      cases quote with
      | nil => simp at h0
      | cons front rest =>
        have hf : front = "R" := by simpa using h0
        subst hf
        simp [ParseQuote, ParseRule, Quote.at_eq_ok.2 h1, Quote.at_eq_ok.2 h2, ParseRule.fn,
          Quote.at_eq_ok.2 h3, Quote.at_eq_ok.2 h4, Database.GetValue_eq_ok.2 l1,
          Database.GetValue_eq_ok.2 l2, make_shared, hop]
    | quote id literal value p h0 h1 h2 h3 l =>
      cases quote with
      | nil => simp at h0
      | cons front rest =>
        have hf : front = "Q" := by simpa using h0
        subst hf
        simp [ParseQuote, Quote.at_eq_ok.2 h1, Quote.at_eq_ok.2 h2, h3, Database.SetValue,
          Database.GetValue_eq_ok.2 l]

/-! ## The invariant of the loading phase -/

theorem lookup_AddValue_of_some {db : Database} {n : String} {p : ValuePtr} (id : String)
    (value : ValuePtr) (h : db.values.lookup n = some p) :
    (db.AddValue id value).values.lookup n = some p := by
  unfold Database.AddValue
  split
  · exact h
  · simp [List.lookup_append, h]

theorem lookup_AddValue {db : Database} {n id : String} {p value : ValuePtr}
    (h : (db.AddValue id value).values.lookup n = some p) :
    db.values.lookup n = some p ∨ (n = id ∧ p = value ∧ db.values.lookup id = none) := by
  unfold Database.AddValue at h
  split at h
  · exact Or.inl h
  · rename_i hnone
    simp only [List.lookup_append] at h
    cases hl : db.values.lookup n with
    | some x => rw [hl] at h; simp at h; left; rw [h]
    | none =>
      rw [hl] at h
      simp only [Option.none_or, List.lookup_cons, List.lookup_nil] at h
      split at h
      · rename_i heq
        have : n = id := by simpa using heq
        cases h
        exact Or.inr ⟨this, rfl, hnone⟩
      · cases h

theorem mem_mapEmplace {id : String} {value : ValuePtr} {l : List (String × ValuePtr)}
    {e : String × ValuePtr} (h : e ∈ mapEmplace id value l) : e ∈ l ∨ e = (id, value) := by
  induction l with
  | nil => simp [mapEmplace] at h; exact Or.inr h
  | cons hd tl ih =>
    obtain ⟨k, w⟩ := hd
    simp only [mapEmplace] at h
    split at h
    · rcases List.mem_cons.1 h with h | h
      · exact Or.inr h
      · exact Or.inl h
    · split at h
      · rcases List.mem_cons.1 h with h | h
        · exact Or.inl (h ▸ List.mem_cons_self _ _)
        · rcases ih h with h | h
          · exact Or.inl (List.mem_cons_of_mem _ h)
          · exact Or.inr h
      · exact Or.inl h

theorem isFormula_append_lt (cells : List Value) (c : Value) (calls calls' : List ValuePtr)
    {p : ValuePtr} (hp : p < cells.length) :
    Memory.isFormula ⟨cells ++ [c], calls'⟩ p = Memory.isFormula ⟨cells, calls⟩ p := by
  simp only [Memory.isFormula, List.getElem?_append_left hp]

theorem isFormula_append_length (cells : List Value) (c : Value) (calls : List ValuePtr) :
    Memory.isFormula ⟨cells ++ [c], calls⟩ cells.length = c.m_fn.isSome := by
  simp only [Memory.isFormula, List.getElem?_concat_length]

theorem isFormula_lt {m : Memory} {p : ValuePtr} (h : m.isFormula p = true) :
    p < m.cells.length := by
  unfold Memory.isFormula at h
  cases hv : m.cells[p]? with
  | none => rw [hv] at h; cases h
  | some v => exact (List.getElem?_eq_some_iff.1 hv).1

theorem formulaCells_append (cells : List Value) (c : Value) (calls : List ValuePtr) :
    Memory.formulaCells ⟨cells ++ [c], calls⟩ =
      Memory.formulaCells ⟨cells, calls⟩ ++ (if c.m_fn.isSome then [cells.length] else []) := by
  unfold Memory.formulaCells
  simp only [List.length_append, List.length_singleton, List.range_succ, List.filter_append]
  congr 1
  · apply List.filter_congr
    intro p hp
    exact isFormula_append_lt cells c calls calls (List.mem_range.1 hp)
  · simp only [List.filter_cons, List.filter_nil, isFormula_append_length]

theorem isFormula_modify (m : Memory) (f : Value → Value) (hf : ∀ v, (f v).m_fn = v.m_fn)
    (p q : ValuePtr) (calls : List ValuePtr) :
    Memory.isFormula ⟨m.cells.modify f p, calls⟩ q = m.isFormula q := by
  unfold Memory.isFormula
  simp only [List.getElem?_modify]
  cases m.cells[q]? with
  | none => rfl
  | some v =>
    by_cases e : p = q
    · simp [e, hf]
    · simp [e]

theorem formulaCells_modify (m : Memory) (f : Value → Value) (hf : ∀ v, (f v).m_fn = v.m_fn)
    (p : ValuePtr) (calls : List ValuePtr) :
    Memory.formulaCells ⟨m.cells.modify f p, calls⟩ = m.formulaCells := by
  unfold Memory.formulaCells
  simp only [List.length_modify]
  apply List.filter_congr
  intro q _
  exact isFormula_modify m f hf p q calls

theorem getElem?_concat_some {cells : List Value} {c v : Value} {p : ValuePtr}
    (h : (cells ++ [c])[p]? = some v) :
    (p < cells.length ∧ cells[p]? = some v) ∨ (p = cells.length ∧ v = c) := by
  rcases Nat.lt_trichotomy p cells.length with hlt | heq | hgt
  · left; rw [List.getElem?_append_left hlt] at h; exact ⟨hlt, h⟩
  · right; subst heq; rw [List.getElem?_concat_length] at h; cases h; exact ⟨rfl, rfl⟩
  · exfalso
    obtain ⟨hlt, _⟩ := List.getElem?_eq_some_iff.1 h
    simp only [List.length_append, List.length_singleton] at hlt
    exact absurd hlt (Nat.not_lt.2 hgt)

theorem Inv_empty : State.empty.Inv := by
  refine ⟨?_, rfl, ?_, ?_, rfl, ?_⟩
  · intro p v fn h; simp [State.empty] at h
  · intro n p h; simp [State.empty] at h
  · intro e h; simp [State.empty] at h
  · intro p v fn h; simp [State.empty] at h

/-- Allocating the object of a rule and registering it keeps the invariant. -/
theorem Inv_alloc {s : State} (hi : s.Inv) (fn : Option Fn) (id : String)
    (hfn : ∀ f, fn = some f →
      (∃ n, s.db.values.lookup n = some f.arg1) ∧ (∃ n, s.db.values.lookup n = some f.arg2)) :
    State.Inv ⟨(make_shared fn s.mem).2,
      if fn.isSome then (s.db.AddValue id s.mem.cells.length).AddIndex id s.mem.cells.length
      else s.db.AddValue id s.mem.cells.length⟩ := by
  have hvalues : (if fn.isSome then
      (s.db.AddValue id s.mem.cells.length).AddIndex id s.mem.cells.length
      else s.db.AddValue id s.mem.cells.length).values =
      (s.db.AddValue id s.mem.cells.length).values := by
    split <;> rfl
  refine ⟨?_, hi.calls, ?_, ?_, ?_, ?_⟩
  · intro p v f hv hf
    rcases getElem?_concat_some hv with ⟨_, hv⟩ | ⟨hp, hc⟩
    · exact hi.wf p v f hv hf
    · subst hc
      obtain ⟨⟨n1, h1⟩, ⟨n2, h2⟩⟩ := hfn f hf
      rw [hp]
      exact ⟨hi.values _ _ h1, hi.values _ _ h2⟩
  · intro n p h
    rw [hvalues] at h
    simp only [make_shared, List.length_append, List.length_singleton]
    rcases lookup_AddValue h with h | ⟨_, h, _⟩
    · exact Nat.lt_succ_of_lt (hi.values n p h)
    · rw [h]; exact Nat.lt_succ_self _
  · intro e he
    have old : ∀ e ∈ s.db.indices, Memory.isFormula (make_shared fn s.mem).2 e.2 = true := by
      intro e he
      have := hi.indices e he
      simp only [make_shared]
      rw [isFormula_append_lt _ _ s.mem.calls _ (isFormula_lt this)]
      exact this
    have hsame : (s.db.AddValue id s.mem.cells.length).indices = s.db.indices := by
      unfold Database.AddValue; split <;> rfl
    cases hsome : fn.isSome with
    | false =>
      rw [hsome] at he
      simp only [Bool.false_eq_true, if_false, hsame] at he
      exact old e he
    | true =>
      rw [hsome] at he
      simp only [if_true, Database.AddIndex, hsame] at he
      rcases mem_mapEmplace he with he | he
      · exact old e he
      · subst he
        simp only [make_shared]
        rw [isFormula_append_length]
        exact hsome
  · simp only [make_shared]
    rw [formulaCells_append]
    have hsame : (s.db.AddValue id s.mem.cells.length).indexDependencies =
        s.db.indexDependencies := by
      unfold Database.AddValue; split <;> rfl
    cases hsome : fn.isSome with
    | false =>
      simp only [Bool.false_eq_true, if_false, hsame, List.append_nil]
      exact hi.deps
    | true =>
      simp only [if_true, Database.AddIndex, hsame]
      rw [hi.deps]
  · intro p v f hv hf
    rw [hvalues]
    have key : (∃ n, s.db.values.lookup n = some f.arg1) ∧
        (∃ n, s.db.values.lookup n = some f.arg2) := by
      rcases getElem?_concat_some hv with ⟨_, hv⟩ | ⟨_, hc⟩
      · exact hi.args p v f hv hf
      · subst hc; exact hfn f hf
    obtain ⟨⟨n1, h1⟩, ⟨n2, h2⟩⟩ := key
    exact ⟨⟨n1, lookup_AddValue_of_some _ _ h1⟩, ⟨n2, lookup_AddValue_of_some _ _ h2⟩⟩

/-- Writing a literal into an object keeps the invariant. -/
theorem Inv_SetValue {s : State} (hi : s.Inv) (p : ValuePtr) (value : Dbl) :
    State.Inv { s with mem := Value.SetValue p value s.mem } := by
  have hf : ∀ v : Value,
      ({ v with m_value := value, m_initialized := true } : Value).m_fn = v.m_fn := fun _ => rfl
  refine ⟨?_, hi.calls, ?_, ?_, ?_, ?_⟩
  · intro q v f hv hfn
    simp only [Value.SetValue, List.getElem?_modify] at hv
    cases hq : s.mem.cells[q]? with
    | none => rw [hq] at hv; cases hv
    | some w =>
      rw [hq] at hv
      simp only [Option.map_eq_map, Option.map_some', Option.some.injEq] at hv
      refine hi.wf q w f hq ?_
      rw [← hfn, ← hv]
      split <;> rfl
  · intro n q h
    simp only [Value.SetValue, List.length_modify]
    exact hi.values n q h
  · intro e he
    simp only [Value.SetValue]
    rw [isFormula_modify _ _ hf]
    exact hi.indices e he
  · simp only [Value.SetValue]
    rw [formulaCells_modify _ _ hf]
    exact hi.deps
  · intro q v f hv hfn
    simp only [Value.SetValue, List.getElem?_modify] at hv
    cases hq : s.mem.cells[q]? with
    | none => rw [hq] at hv; cases hv
    | some w =>
      rw [hq] at hv
      simp only [Option.map_eq_map, Option.map_some', Option.some.injEq] at hv
      refine hi.args q w f hq ?_
      rw [← hfn, ← hv]
      split <;> rfl

theorem Accepts.preserves_inv {stod : String → Except Exception Dbl} {quote : Quote} {s s' : State}
    (h : Accepts stod quote s s') (hi : s.Inv) : s'.Inv := by
  cases h with
  | skip => exact hi
  | source id =>
    exact Inv_alloc hi none id (fun f hf => by cases hf)
  | formula id operation n1 n2 a1 a2 _ _ _ _ _ _ l1 l2 =>
    exact Inv_alloc hi (some ⟨operation = "+", a1, a2⟩) id
      (fun f hf => by cases hf; exact ⟨⟨n1, l1⟩, ⟨n2, l2⟩⟩)
  | quote id literal value p => exact Inv_SetValue hi p value

theorem ParseQuote_inv (stod : String → Except Exception Dbl) (quote : Quote) {s : State}
    (hi : s.Inv) : (ParseQuote stod quote s).2.Inv := by
  cases h : ParseQuote stod quote s with
  | mk res s' =>
    cases res with
    | error e => rw [ParseQuote_error stod quote s e s' h]; exact hi
    | ok u => exact ((ParseQuote_ok_iff stod quote s s').1 h).preserves_inv hi

theorem Reachable.state_inv {stod : String → Except Exception Dbl} {s : State}
    (h : Reachable stod s) : s.Inv := by
  induction h with
  | empty => exact Inv_empty
  | step quote s _ ih => exact ParseQuote_inv stod quote ih

theorem ReadLoop_append (stod : String → Except Exception Dbl) (qs : List Quote) (q : Quote)
    (s0 s' : State) :
    ReadLoop stod (qs ++ [q]) s0 = (.ok (), s') ↔
      ∃ s, ReadLoop stod qs s0 = (.ok (), s) ∧ ParseQuote stod q s = (.ok (), s') := by
  induction qs generalizing s0 with
  | nil =>
    simp only [List.nil_append, ReadLoop]
    constructor
    · intro h
      refine ⟨s0, rfl, ?_⟩
      cases hq : ParseQuote stod q s0 with
      | mk res s1 =>
        rw [hq] at h
        cases res with
        | error e => cases h
        | ok u => simpa using h
    · rintro ⟨s, hs, hq⟩
      cases hs
      rw [hq]
  | cons hd tl ih =>
    simp only [List.cons_append, ReadLoop]
    cases hq : ParseQuote stod hd s0 with
    | mk res s1 =>
      cases res with
      | error e => simp
      | ok u => exact ih s1

theorem ReadLoop_reachable (stod : String → Except Exception Dbl) (qs : List Quote) {s0 : State}
    (h : Reachable stod s0) : Reachable stod (ReadLoop stod qs s0).2 := by
  induction qs generalizing s0 with
  | nil => exact h
  | cons hd tl ih =>
    simp only [ReadLoop]
    have hstep := Reachable.step hd s0 h
    cases hq : ParseQuote stod hd s0 with
    | mk res s1 =>
      rw [hq] at hstep
      cases res with
      | error e => exact hstep
      | ok u => exact ih hstep

/-- Induction over a stream of records that loads without error. -/
theorem ReadLoop_induction (stod : String → Except Exception Dbl) (s0 : State)
    (P : List Quote → State → Prop) (h0 : P [] s0)
    (hstep : ∀ qs s q s', ReadLoop stod qs s0 = (.ok (), s) → P qs s →
      Accepts stod q s s' → P (qs ++ [q]) s') :
    ∀ qs s, ReadLoop stod qs s0 = (.ok (), s) → P qs s := by
  intro qs
  induction qs using List.reverseRecOn with
  | nil => intro s h; cases h; exact h0
  | append_singleton qs q ih =>
    intro s' h
    obtain ⟨s, hs, hq⟩ := (ReadLoop_append stod qs q s0 s').1 h
    exact hstep qs s q s' hs (ih s hs) ((ParseQuote_ok_iff stod q s s').1 hq)

/-- An accepted record only adds names and objects: registered names stay registered for
the same object, and existing objects keep their closure. -/
theorem Accepts.state_grows {stod : String → Except Exception Dbl} {quote : Quote} {s s' : State}
    (h : Accepts stod quote s s') :
    (∀ (n : String) (p : ValuePtr), s.db.values.lookup n = some p →
      s'.db.values.lookup n = some p) ∧
    (∀ (p : ValuePtr) (c : Value), s.mem.cells[p]? = some c →
      ∃ c', s'.mem.cells[p]? = some c' ∧ c'.m_fn = c.m_fn) := by
  have alloc : ∀ (fn : Option Fn) (p : ValuePtr) (c : Value), s.mem.cells[p]? = some c →
      ∃ c', (make_shared fn s.mem).2.cells[p]? = some c' ∧ c'.m_fn = c.m_fn := by
    intro fn p c hc
    have hp : p < s.mem.cells.length := (List.getElem?_eq_some_iff.1 hc).1
    exact ⟨c, by simp only [make_shared]; rw [List.getElem?_append_left hp]; exact hc, rfl⟩
  cases h with
  | skip => exact ⟨fun _ _ h => h, fun p c hc => ⟨c, hc, rfl⟩⟩
  | source id => exact ⟨fun n p hl => lookup_AddValue_of_some _ _ hl, alloc none⟩
  | formula id operation n1 n2 a1 a2 =>
    exact ⟨fun n p hl => lookup_AddValue_of_some _ _ hl, alloc _⟩
  | quote id literal value q =>
    refine ⟨fun _ _ h => h, fun p c hc => ?_⟩
    by_cases e : q = p
    · subst e
      exact ⟨_, SetValue_cell hc value, rfl⟩
    · exact ⟨c, by simp only [Value.SetValue]; rw [List.getElem?_modify_ne _ _ e]; exact hc, rfl⟩

theorem RuleCell.transfer {s s' : State} {r : Quote} {p : ValuePtr}
    (hl : ∀ (n : String) (p : ValuePtr), s.db.values.lookup n = some p →
      s'.db.values.lookup n = some p)
    (hc : ∀ (p : ValuePtr) (c : Value), s.mem.cells[p]? = some c →
      ∃ c', s'.mem.cells[p]? = some c' ∧ c'.m_fn = c.m_fn)
    (h : RuleCell s r p) : RuleCell s' r p := by
  obtain ⟨c, hcell, hr⟩ := h
  obtain ⟨c', hc', hf⟩ := hc p c hcell
  refine ⟨c', hc', ?_⟩
  rcases hr with ⟨h2, hnone⟩ | ⟨op, n1, n2, a1, a2, h2, hop, h3, h4, l1, l2, hsome⟩
  · exact Or.inl ⟨h2, hf.trans hnone⟩
  · exact Or.inr ⟨op, n1, n2, a1, a2, h2, hop, h3, h4, hl _ _ l1, hl _ _ l2, hf.trans hsome⟩

theorem firstRule_append (qs : List Quote) (q : Quote) (n : String) :
    firstRule (qs ++ [q]) n =
      (firstRule qs n).or (if declares n q then some q else none) := by
  unfold firstRule
  rw [List.find?_append]
  congr 1
  simp only [List.find?_cons, List.find?_nil]
  cases declares n q <;> rfl

theorem filter_append_singleton (f : Quote → Bool) (qs : List Quote) (q : Quote) :
    (qs ++ [q]).filter f = qs.filter f ++ (if f q then [q] else []) := by
  rw [List.filter_append]
  congr 1
  simp only [List.filter_cons, List.filter_nil]

theorem Table_empty : Table [] State.empty := by
  refine ⟨fun _ _ => rfl, ?_, ?_, ?_⟩
  · intro n p h; simp [State.empty] at h
  · intro n n' p h; simp [State.empty] at h
  · exact List.Forall₂.nil

/-- A record that registers no name and is no `+`/`-` rule keeps the table. -/
theorem Table_keep {qs : List Quote} {s s' : State} (q : Quote) (ht : Table qs s)
    (hdb : s'.db = s.db)
    (hc : ∀ (p : ValuePtr) (c : Value), s.mem.cells[p]? = some c →
      ∃ c', s'.mem.cells[p]? = some c' ∧ c'.m_fn = c.m_fn)
    (h0 : q[0]? ≠ some "R") : Table (qs ++ [q]) s' := by
  have hd : ∀ n, declares n q = false := by
    intro n; simp [declares, h0]
  have hf : isFormulaRule q = false := by simp [isFormulaRule, h0]
  have hl : ∀ (n : String) (p : ValuePtr), s.db.values.lookup n = some p →
      s'.db.values.lookup n = some p := by
    intro n p h; rw [hdb]; exact h
  refine ⟨?_, ?_, ?_, ?_⟩
  · intro n h
    rw [hdb] at h
    simp [firstRule_append, hd, ht.decl_none n h]
  · intro n p h
    rw [hdb] at h
    obtain ⟨r, hr, hcell⟩ := ht.decl_some n p h
    exact ⟨r, by simp [firstRule_append, hr], hcell.transfer hl hc⟩
  · intro n n' p h h'
    rw [hdb] at h h'
    exact ht.inj n n' p h h'
  · rw [filter_append_singleton, hf, hdb]
    simp only [Bool.false_eq_true, if_false, List.append_nil]
    exact ht.deps.imp (fun _ _ h => h.transfer hl hc)

theorem lookup_AddValue_self (db : Database) (id : String) (value : ValuePtr) :
    (db.AddValue id value).values.lookup id ≠ none := by
  unfold Database.AddValue
  split
  · rename_i p hp; rw [hp]; simp
  · rename_i hnone; simp [List.lookup_append, hnone]

/-- A rule record that allocates an object and registers it extends the table. -/
theorem Table_alloc {qs : List Quote} {s : State} (q : Quote) (id : String) (fn : Option Fn)
    (ht : Table qs s) (hi : s.Inv) (h0 : q[0]? = some "R") (h1 : q[1]? = some id)
    (hform : isFormulaRule q = fn.isSome)
    (hrc : ∀ s' : State, s'.mem.cells[s.mem.cells.length]? = some { m_fn := fn } →
      (∀ (n : String) (p : ValuePtr), s.db.values.lookup n = some p →
        s'.db.values.lookup n = some p) → RuleCell s' q s.mem.cells.length) :
    Table (qs ++ [q]) ⟨(make_shared fn s.mem).2,
      if fn.isSome then (s.db.AddValue id s.mem.cells.length).AddIndex id s.mem.cells.length
      else s.db.AddValue id s.mem.cells.length⟩ := by
  have hvalues : (if fn.isSome then
      (s.db.AddValue id s.mem.cells.length).AddIndex id s.mem.cells.length
      else s.db.AddValue id s.mem.cells.length).values =
      (s.db.AddValue id s.mem.cells.length).values := by
    split <;> rfl
  have hl : ∀ (n : String) (p : ValuePtr), s.db.values.lookup n = some p →
      (State.mk (make_shared fn s.mem).2 (if fn.isSome then
        (s.db.AddValue id s.mem.cells.length).AddIndex id s.mem.cells.length
        else s.db.AddValue id s.mem.cells.length)).db.values.lookup n = some p := by
    intro n p h
    dsimp only
    rw [hvalues]; exact lookup_AddValue_of_some _ _ h
  have hc : ∀ (p : ValuePtr) (c : Value), s.mem.cells[p]? = some c →
      ∃ c', (State.mk (make_shared fn s.mem).2 (if fn.isSome then
        (s.db.AddValue id s.mem.cells.length).AddIndex id s.mem.cells.length
        else s.db.AddValue id s.mem.cells.length)).mem.cells[p]? = some c' ∧
        c'.m_fn = c.m_fn := by
    intro p c hcell
    have hp : p < s.mem.cells.length := (List.getElem?_eq_some_iff.1 hcell).1
    exact ⟨c, by simp only [make_shared]; rw [List.getElem?_append_left hp]; exact hcell, rfl⟩
  have hnew := hrc _ (by simp only [make_shared]; exact List.getElem?_concat_length _ _) hl
  have hd : ∀ n, declares n q = decide (n = id) := by
    intro n
    simp only [declares, h0, h1, true_and, Option.some.injEq]
    by_cases e : n = id
    · simp [e]
    · have : ¬ id = n := fun h => e h.symm
      simp [e, this]
  refine ⟨?_, ?_, ?_, ?_⟩
  · intro n h
    have h' : (s.db.AddValue id s.mem.cells.length).values.lookup n = none := by
      rw [← hvalues]; exact h
    have hn : s.db.values.lookup n = none := by
      cases hs : s.db.values.lookup n with
      | none => rfl
      | some p => rw [lookup_AddValue_of_some _ _ hs] at h'; cases h'
    have hne : n ≠ id := fun e => lookup_AddValue_self _ _ _ (e ▸ h')
    simp [firstRule_append, ht.decl_none n hn, hd, hne]
  · intro n p h
    have h' : (s.db.AddValue id s.mem.cells.length).values.lookup n = some p := by
      rw [← hvalues]; exact h
    rcases lookup_AddValue h' with hs | ⟨hn, hp, hnone⟩
    · obtain ⟨r, hr, hcell⟩ := ht.decl_some n p hs
      exact ⟨r, by simp [firstRule_append, hr], hcell.transfer hl hc⟩
    · subst hn; subst hp
      exact ⟨q, by simp [firstRule_append, ht.decl_none n hnone, hd], hnew⟩
  · intro n n' p h h'
    have g : (s.db.AddValue id s.mem.cells.length).values.lookup n = some p := by
      rw [← hvalues]; exact h
    have g' : (s.db.AddValue id s.mem.cells.length).values.lookup n' = some p := by
      rw [← hvalues]; exact h'
    rcases lookup_AddValue g with hs | ⟨hn, hp, _⟩
    · rcases lookup_AddValue g' with hs' | ⟨_, hp', _⟩
      · exact ht.inj n n' p hs hs'
      · exact absurd (hi.values n p hs) (by rw [hp']; exact Nat.lt_irrefl _)
    · rcases lookup_AddValue g' with hs' | ⟨hn', _, _⟩
      · exact absurd (hi.values n' p hs') (by rw [hp]; exact Nat.lt_irrefl _)
      · rw [hn, hn']
  · have hsame : (s.db.AddValue id s.mem.cells.length).indexDependencies =
        s.db.indexDependencies := by
      unfold Database.AddValue; split <;> rfl
    have old := ht.deps.imp (fun _ _ h => RuleCell.transfer hl hc h)
    rw [filter_append_singleton, hform]
    cases hsome : fn.isSome with
    | false =>
      simp only [Bool.false_eq_true, if_false, List.append_nil, hsame]
      simp only [hsome, Bool.false_eq_true, if_false] at old
      exact old
    | true =>
      simp only [if_true, Database.AddIndex, hsame]
      simp only [hsome, if_true, Database.AddIndex, hsame] at old hnew
      exact List.rel_append old (List.Forall₂.cons hnew List.Forall₂.nil)

theorem Accepts.table {stod : String → Except Exception Dbl} {qs : List Quote} {q : Quote}
    {s s' : State} (h : Accepts stod q s s') (ht : Table qs s) (hi : s.Inv) :
    Table (qs ++ [q]) s' := by
  have hg := h.state_grows
  cases h with
  | skip hR hQ => exact Table_keep q ht rfl hg.2 hR
  | source id h0 h1 h2 =>
    refine Table_alloc q id none ht hi h0 h1 (by simp [isFormulaRule, h2]) ?_
    intro s' hcell _
    exact ⟨_, hcell, Or.inl ⟨h2, rfl⟩⟩
  | formula id operation n1 n2 a1 a2 h0 h1 h2 hop h3 h4 l1 l2 =>
    refine Table_alloc q id (some ⟨operation = "+", a1, a2⟩) ht hi h0 h1 ?_ ?_
    · rcases hop with e | e <;> simp [isFormulaRule, h0, h2, e]
    · intro s' hcell hl
      exact ⟨_, hcell, Or.inr ⟨operation, n1, n2, a1, a2, h2, hop, h3, h4, hl _ _ l1,
        hl _ _ l2, rfl⟩⟩
  | quote id literal value p h0 =>
    exact Table_keep q ht rfl hg.2 (by rw [h0]; decide)

/-- A stream that loads without error leaves a state that satisfies the invariant and
whose tables match the stream. -/
theorem ReadLoop_table (stod : String → Except Exception Dbl) (qs : List Quote) (s : State)
    (h : ReadLoop stod qs State.empty = (.ok (), s)) : s.Inv ∧ Table qs s := by
  refine ReadLoop_induction stod State.empty (fun qs s => s.Inv ∧ Table qs s)
    ⟨Inv_empty, Table_empty⟩ ?_ qs s h
  intro qs s q s' _ hp hacc
  exact ⟨hacc.preserves_inv hp.1, hacc.table hp.2 hp.1⟩

/-- While a stream in which no `Q` record names a formula is loaded, no formula object
gets initialized. -/
theorem ReadLoop_fresh (stod : String → Except Exception Dbl) (qs : List Quote) (s : State)
    (h : ReadLoop stod qs State.empty = (.ok (), s)) (H : QuotesOnlySources qs) :
    s.mem.Fresh := by
  refine ReadLoop_induction stod State.empty (fun qs s => QuotesOnlySources qs → s.mem.Fresh)
    ?_ ?_ qs s h H
  · intro _ p c fn hc; simp [State.empty] at hc
  · intro qs s q s' hload ih hacc H'
    have Hqs : QuotesOnlySources qs := fun a ha h0 r hr hf =>
      H' a (List.mem_append_left _ ha) h0 r (List.mem_append_left _ hr) hf
    have fresh := ih Hqs
    obtain ⟨hinv, htab⟩ := ReadLoop_table stod qs s hload
    have alloc : ∀ fn : Option Fn, Memory.Fresh (make_shared fn s.mem).2 := by
      intro fn p c g hc hg
      rcases getElem?_concat_some hc with ⟨_, hc⟩ | ⟨_, hc⟩
      · exact fresh p c g hc hg
      · rw [hc]
    cases hacc with
    | skip => exact fresh
    | source id => exact alloc none
    | formula id operation n1 n2 a1 a2 => exact alloc _
    | quote id literal value p h0 h1 h2 h3 hl =>
      intro x c g hc hg
      by_cases e : p = x
      · exfalso
        subst e
        obtain ⟨r, hr, c0, hc0, hrule⟩ := htab.decl_some id p hl
        have hdecl := List.find?_some hr
        have hmem : r ∈ qs := List.mem_of_find?_eq_some hr
        simp only [declares, decide_eq_true_eq] at hdecl
        simp only [Value.SetValue, List.getElem?_modify_eq, hc0, Option.map_eq_map,
          Option.map_some', Option.some.injEq] at hc
        subst hc
        rcases hrule with ⟨_, hnone⟩ | ⟨op, _, _, _, _, h2', hop, _⟩
        · rw [hnone] at hg; cases hg
        · have hform : isFormulaRule r = true := by
            rcases hop with e | e <;> simp [isFormulaRule, hdecl.1, h2', e]
          exact H' q (List.mem_append_right _ (List.mem_singleton_self q)) h0 r
            (List.mem_append_left _ hmem) hform (by rw [hdecl.2, h1])
      · simp only [Value.SetValue] at hc
        rw [List.getElem?_modify_ne _ _ e] at hc
        exact fresh x c g hc hg

theorem Evolves.init {m m' : Memory} (h : Evolves m m') {p : ValuePtr} {v : Value}
    (hv : m.cells[p]? = some v) (hi : v.m_initialized = true) : m'.cells[p]? = some v := by
  obtain ⟨v', hv', s⟩ := h.cell p v hv
  rcases s with ⟨e, _⟩ | ⟨e, _⟩ | ⟨e, _⟩
  · rw [hv', e]
  · rw [hi] at e; cases e
  · rw [hi] at e; cases e

theorem Evolves.counted {m m' : Memory} (h : Evolves m m') (hc : m.Counted) : m'.Counted := by
  intro q v' fn hv' hfn
  have hq : q < m.cells.length := by
    obtain ⟨hlt, _⟩ := List.getElem?_eq_some_iff.1 hv'
    rw [h.len] at hlt; exact hlt
  obtain ⟨w, hw, s⟩ := h.cell q _ (List.getElem?_eq_getElem hq)
  rw [hv'] at hw; cases hw
  rcases s with ⟨e, c⟩ | ⟨_, f, e, _⟩ | ⟨i, j, f, c, _⟩
  · rw [c, e]; exact hc q _ fn (List.getElem?_eq_getElem hq) (e ▸ hfn)
  · rw [e] at hfn; rw [f] at hfn; cases hfn
  · rw [c, hc q _ fn (List.getElem?_eq_getElem hq) (f ▸ hfn), i, j]; rfl

theorem Evolves.consistent {m m' : Memory} (h : Evolves m m') (hc : m.Consistent) :
    m'.Consistent := by
  intro q v' fn hv' hi' hfn
  have hq : q < m.cells.length := by
    obtain ⟨hlt, _⟩ := List.getElem?_eq_some_iff.1 hv'
    rw [h.len] at hlt; exact hlt
  obtain ⟨w, hw, s⟩ := h.cell q _ (List.getElem?_eq_getElem hq)
  rw [hv'] at hw; cases hw
  rcases s with ⟨e, _⟩ | ⟨_, f, e, _⟩ | ⟨_, _, f, _, g, hg, hcomp⟩
  · have := (hc q _ fn (List.getElem?_eq_getElem hq) (e ▸ hi') (e ▸ hfn)).mono h
    rw [e]; exact this
  · rw [e] at hfn; rw [f] at hfn; cases hfn
  · rw [f, hg] at hfn; cases hfn; exact hcomp

theorem CalcLoop_mono {fuel fuel' : Nat} (hle : fuel ≤ fuel') :
    ∀ (deps : List ValuePtr) (m m' : Memory), CalcLoop fuel deps m = some m' →
      CalcLoop fuel' deps m = some m' := by
  intro deps
  induction deps with
  | nil => intro m m' h; exact h
  | cons p rest ih =>
    intro m m' h
    simp only [CalcLoop] at h ⊢
    cases h1 : Value.GetValue fuel m p with
    | none => rw [h1] at h; cases h
    | some res =>
      rw [h1] at h
      rw [GetValue_mono hle h1]
      exact ih _ _ h

/-- The loop of `CalcIndices` returns on a well-formed heap; the heap evolves by reads and
every object of the list ends initialized. -/
theorem CalcLoop_spec (fuel : Nat) : ∀ (deps : List ValuePtr) (m : Memory), m.WF →
    (∀ p ∈ deps, p < m.cells.length ∧ p < fuel) →
    ∃ m', CalcLoop fuel deps m = some m' ∧ Evolves m m' ∧
      ∀ p ∈ deps, ∃ v, m'.cells[p]? = some v ∧ v.m_initialized = true := by
  intro deps
  induction deps with
  | nil => intro m _ _; exact ⟨m, rfl, Evolves.refl m, fun p hp => by cases hp⟩
  | cons p rest ih =>
    intro m hw hb
    obtain ⟨hp, hf⟩ := hb p (List.mem_cons_self _ _)
    obtain ⟨r, m1, h1⟩ := GetValue_total fuel m p hw hp hf
    obtain ⟨E1, _, v, hv, hvi, _⟩ := GetValue_spec _ _ _ _ _ hw h1
    obtain ⟨m', h', E2, hall⟩ := ih m1 (E1.wf hw) (fun q hq => by
      rw [E1.len]; exact hb q (List.mem_cons_of_mem _ hq))
    refine ⟨m', by simp only [CalcLoop, h1]; exact h', E1.trans E2, ?_⟩
    intro q hq
    rcases List.mem_cons.1 hq with e | hq
    · subst e; exact ⟨v, E2.init hv hvi, hvi⟩
    · exact hall q hq

theorem mem_formulaCells {m : Memory} {p : ValuePtr} :
    p ∈ m.formulaCells ↔ ∃ c fn, m.cells[p]? = some c ∧ c.m_fn = some fn := by
  unfold Memory.formulaCells
  rw [List.mem_filter, List.mem_range]
  constructor
  · rintro ⟨_, h⟩
    unfold Memory.isFormula at h
    cases hc : m.cells[p]? with
    | none => rw [hc] at h; cases h
    | some c =>
      rw [hc] at h
      obtain ⟨fn, hfn⟩ := Option.isSome_iff_exists.1 h
      exact ⟨c, fn, rfl, hfn⟩
  · rintro ⟨c, fn, hc, hfn⟩
    refine ⟨(List.getElem?_eq_some_iff.1 hc).1, ?_⟩
    simp [Memory.isFormula, hc, hfn]

/-- On a state of the loading phase `CalcIndices` returns, with a result that does not
depend on the recursion bound; the heap evolves by reads and every formula object ends
initialized. -/
theorem CalcIndices_spec {s : State} (hi : s.Inv) :
    ∃ s', (∀ fuel, s.mem.cells.length ≤ fuel → Database.CalcIndices fuel s = some s') ∧
      s'.db = s.db ∧ Evolves s.mem s'.mem ∧
      ∀ (p : ValuePtr) (c : Value) (fn : Fn), s'.mem.cells[p]? = some c → c.m_fn = some fn →
        c.m_initialized = true := by
  have hb : ∀ p ∈ s.db.indexDependencies, p < s.mem.cells.length ∧ p < s.mem.cells.length := by
    intro p hp
    rw [hi.deps] at hp
    obtain ⟨c, _, hc, _⟩ := mem_formulaCells.1 hp
    exact ⟨(List.getElem?_eq_some_iff.1 hc).1, (List.getElem?_eq_some_iff.1 hc).1⟩
  obtain ⟨m', h', E, hall⟩ := CalcLoop_spec s.mem.cells.length s.db.indexDependencies s.mem
    hi.wf hb
  refine ⟨{ s with mem := m' }, ?_, rfl, E, ?_⟩
  · intro fuel hf
    simp only [Database.CalcIndices, CalcLoop_mono hf _ _ _ h']
  · intro p c fn hc hfn
    have hp : p < s.mem.cells.length := by
      obtain ⟨hlt, _⟩ := List.getElem?_eq_some_iff.1 hc
      rw [E.len] at hlt; exact hlt
    obtain ⟨c', hc', st⟩ := E.cell p _ (List.getElem?_eq_getElem hp)
    have hc0 : m'.cells[p]? = some c := hc
    rw [hc0] at hc'; cases hc'
    have hf0 : (s.mem.cells[p]).m_fn = some fn := by
      rcases st with ⟨e, _⟩ | ⟨_, _, e, _⟩ | ⟨_, _, e, _⟩
      · rw [← e]; exact hfn
      · rw [e] at hfn; exact hfn
      · rw [← e]; exact hfn
    have hmem : p ∈ s.db.indexDependencies := by
      rw [hi.deps]
      exact mem_formulaCells.2 ⟨_, fn, List.getElem?_eq_getElem hp, hf0⟩
    obtain ⟨v, hv, hvi⟩ := hall p hmem
    rw [hc0] at hv; cases hv
    exact hvi

theorem isFormula_iff {m : Memory} {p : ValuePtr} :
    m.isFormula p = true ↔ ∃ c fn, m.cells[p]? = some c ∧ c.m_fn = some fn := by
  unfold Memory.isFormula
  cases hc : m.cells[p]? with
  | none => simp
  | some c =>
    simp only [Option.some.injEq, Option.isSome_iff_exists]
    constructor
    · rintro ⟨fn, hfn⟩; exact ⟨c, fn, rfl, hfn⟩
    · rintro ⟨c', fn, e, hfn⟩; subst e; exact ⟨fn, hfn⟩

theorem CalcIndices_mono {fuel fuel' : Nat} (hle : fuel ≤ fuel') {s s' : State}
    (h : Database.CalcIndices fuel s = some s') : Database.CalcIndices fuel' s = some s' := by
  unfold Database.CalcIndices at h ⊢
  cases h1 : CalcLoop fuel s.db.indexDependencies s.mem with
  | none => rw [h1] at h; cases h
  | some m =>
    rw [h1] at h
    rw [CalcLoop_mono hle _ _ _ h1]
    exact h

/-- Whatever recursion bound made `CalcIndices` return, the state it leaves is the one of
`CalcIndices_spec`. -/
theorem CalcIndices_unique {s : State} (hi : s.Inv) {fuel : Nat} {s' : State}
    (h : Database.CalcIndices fuel s = some s') :
    s'.db = s.db ∧ Evolves s.mem s'.mem ∧
      ∀ (p : ValuePtr) (c : Value) (fn : Fn), s'.mem.cells[p]? = some c → c.m_fn = some fn →
        c.m_initialized = true := by
  obtain ⟨s'', hs'', hrest⟩ := CalcIndices_spec hi
  have h1 := CalcIndices_mono (Nat.le_max_left fuel s.mem.cells.length) h
  have h2 := hs'' _ (Nat.le_max_right fuel s.mem.cells.length)
  rw [h1] at h2
  cases h2
  exact hrest

/-- Every `R` and `Q` record of a stream that loaded has a name field. -/
theorem ReadLoop_shapes (stod : String → Except Exception Dbl) (qs : List Quote) (s : State)
    (h : ReadLoop stod qs State.empty = (.ok (), s)) :
    ∀ q ∈ qs, q[0]? = some "R" ∨ q[0]? = some "Q" → ∃ id, q[1]? = some id := by
  refine ReadLoop_induction stod State.empty
    (fun qs _ => ∀ q ∈ qs, q[0]? = some "R" ∨ q[0]? = some "Q" → ∃ id, q[1]? = some id)
    ?_ ?_ qs s h
  · intro q hq; cases hq
  · intro qs s q s' _ ih hacc a ha h0
    rcases List.mem_append.1 ha with ha | ha
    · exact ih a ha h0
    · rw [List.mem_singleton.1 ha]
      rw [List.mem_singleton.1 ha] at h0
      cases hacc with
      | skip hR hQ => rcases h0 with h0 | h0 <;> [exact absurd h0 hR; exact absurd h0 hQ]
      | source id _ h1 => exact ⟨id, h1⟩
      | formula id operation n1 n2 a1 a2 _ h1 => exact ⟨id, h1⟩
      | quote id literal value p _ h1 => exact ⟨id, h1⟩

theorem mem_declaredNames {qs : List Quote} {r : Quote} {n : String} (hr : r ∈ qs)
    (hd : declares n r = true) : n ∈ declaredNames qs := by
  simp only [declares, decide_eq_true_eq] at hd
  exact List.mem_filterMap.2 ⟨r, hr, by simp [hd.1, hd.2]⟩

/-- When no name is declared twice, a name has one declaring rule. -/
theorem declares_unique {qs : List Quote} (hn : (declaredNames qs).Nodup) {r r' : Quote}
    {n : String} (hr : r ∈ qs) (hr' : r' ∈ qs) (hd : declares n r = true)
    (hd' : declares n r' = true) : r = r' := by
  induction qs with
  | nil => cases hr
  | cons a qs ih =>
    have step : ∀ x : Quote, declares n x = true → x = a → ∀ y ∈ qs, declares n y = true →
        False := by
      intro x hx e y hy hdy
      subst e
      have hmem := mem_declaredNames hy hdy
      simp only [declares, decide_eq_true_eq] at hx
      simp only [declaredNames, List.filterMap_cons, hx.1, hx.2, if_true] at hn
      exact (List.nodup_cons.1 hn).1 hmem
    have hn' : (declaredNames qs).Nodup := by
      simp only [declaredNames, List.filterMap_cons] at hn
      split at hn
      · exact hn
      · exact (List.nodup_cons.1 hn).2
    rcases List.mem_cons.1 hr with e | hr
    · rcases List.mem_cons.1 hr' with e' | hr'
      · rw [e, e']
      · exact (step r hd e r' hr' hd').elim
    · rcases List.mem_cons.1 hr' with e' | hr'
      · exact (step r' hd' e' r hr hd).elim
      · exact ih hn' hr hr'

theorem firstRule_of_mem {qs : List Quote} (hn : (declaredNames qs).Nodup) {r : Quote}
    {n : String} (hr : r ∈ qs) (hd : declares n r = true) : firstRule qs n = some r := by
  cases hf : firstRule qs n with
  | none =>
    have := List.find?_eq_none.1 hf r hr
    exact absurd hd this
  | some r' =>
    rw [declares_unique hn (List.mem_of_find?_eq_some hf) hr (List.find?_some hf) hd]

theorem ReadLoop_source (stod : String → Except Exception Dbl) (qs : List Quote) (s : State)
    (h : ReadLoop stod qs State.empty = (.ok (), s)) : SourceInv stod qs s := by
  refine ReadLoop_induction stod State.empty (fun qs s => SourceInv stod qs s) ?_ ?_ qs s h
  · exact ⟨fun _ _ => rfl, fun n p c hl => by simp [State.empty] at hl⟩
  · intro qs s q s' hload ih hacc
    obtain ⟨hinv, htab⟩ := ReadLoop_table stod qs s hload
    obtain ⟨ih1, ih2⟩ := ih
    have keep : ∀ n, quotes n q = false →
        ((qs ++ [q]).filter (quotes n)) = qs.filter (quotes n) := by
      intro n hq
      rw [filter_append_singleton, hq]
      simp
    have alloc : ∀ (fn : Option Fn) (id : String) (db' : Database), q[0]? = some "R" →
        db'.values = (s.db.AddValue id s.mem.cells.length).values →
        SourceInv stod (qs ++ [q]) ⟨(make_shared fn s.mem).2, db'⟩ := by
      intro fn id db' h0 hdb
      have hq : ∀ n, quotes n q = false := by
        intro n; simp [quotes, h0]
      refine ⟨fun n hl => ?_, fun n p c hl hc hfn => ?_⟩
      · rw [keep n (hq n)]
        apply ih1
        have hl' : (s.db.AddValue id s.mem.cells.length).values.lookup n = none := by
          rw [← hdb]; exact hl
        cases hs : s.db.values.lookup n with
        | none => rfl
        | some p => rw [lookup_AddValue_of_some _ _ hs] at hl'; cases hl'
      · rw [keep n (hq n)]
        have hl' : (s.db.AddValue id s.mem.cells.length).values.lookup n = some p := by
          rw [← hdb]; exact hl
        rcases lookup_AddValue hl' with hs | ⟨hn, hp, hnone⟩
        · have hp : p < s.mem.cells.length := hinv.values n p hs
          have hc' : s.mem.cells[p]? = some c := by
            simp only [make_shared] at hc
            rw [List.getElem?_append_left hp] at hc; exact hc
          exact ih2 n p c hs hc' hfn
        · subst hn
          rw [ih1 n hnone]
          simp only [List.getLast?_nil]
          subst hp
          simp only [make_shared, List.getElem?_concat_length, Option.some.injEq] at hc
          rw [← hc]
    cases hacc with
    | skip hR hQ =>
      have hq : ∀ n, quotes n q = false := by
        intro n; simp [quotes, hQ]
      exact ⟨fun n hl => by rw [keep n (hq n)]; exact ih1 n hl,
        fun n p c hl hc hfn => by rw [keep n (hq n)]; exact ih2 n p c hl hc hfn⟩
    | source id h0 => exact alloc none id _ h0 rfl
    | formula id operation n1 n2 a1 a2 h0 => exact alloc _ id _ h0 rfl
    | quote id literal value p h0 h1 h2 h3 hl =>
      have hq : ∀ n, n ≠ id → quotes n q = false := by
        intro n hn
        have : ¬ id = n := fun e => hn e.symm
        simp [quotes, h1, this]
      have hqid : quotes id q = true := by simp [quotes, h0, h1]
      refine ⟨fun n hn => ?_, fun n x c hn hc hfn => ?_⟩
      · have hne : n ≠ id := by
          intro e; rw [e, hl] at hn; cases hn
        rw [keep n (hq n hne)]
        exact ih1 n hn
      · by_cases e : n = id
        · subst e
          rw [hl] at hn; cases hn
          rw [filter_append_singleton, hqid]
          simp only [if_true, List.getLast?_concat]
          have hx : p < s.mem.cells.length := hinv.values n p hl
          rw [SetValue_cell (List.getElem?_eq_getElem hx) value] at hc
          cases hc
          exact ⟨literal, value, h2, h3, rfl, rfl⟩
        · rw [keep n (hq n e)]
          have hne : p ≠ x := by
            intro hpx
            subst hpx
            exact e (htab.inj n id p hn hl)
          simp only [Value.SetValue] at hc
          rw [List.getElem?_modify_ne _ _ hne] at hc
          exact ih2 n x c hn hc hfn

theorem CellStep.fn_eq {m m' : Memory} {q : ValuePtr} {v v' : Value}
    (h : CellStep m m' q v v') : v'.m_fn = v.m_fn := by
  rcases h with ⟨e, _⟩ | ⟨_, _, e, _⟩ | ⟨_, _, e, _⟩
  · rw [e]
  · rw [e]
  · exact e

/-- Reading a name whose object is initialized returns the stored value and changes
nothing. -/
theorem readName_initialized {s : State} {n : String} {p : ValuePtr} {c : Value}
    (hl : s.db.values.lookup n = some p) (hc : s.mem.cells[p]? = some c)
    (hi : c.m_initialized = true) (fuel : Nat) :
    readName (fuel + 1) s n = some (c.m_value, s) := by
  simp only [readName, hl, GetValue_initialized hc hi]

/-- In a stream that loaded, where no name is declared twice and every `Q` record names a
name declared with `S`, no `Q` record names a formula. -/
theorem quotesOnlySources_of_nodup (stod : String → Except Exception Dbl) (qs : List Quote)
    (s : State) (h : ReadLoop stod qs State.empty = (.ok (), s))
    (hnodup : (declaredNames qs).Nodup)
    (hq : ∀ q ∈ qs, q[0]? = some "Q" → ∃ r ∈ qs, isSourceRule r = true ∧ r[1]? = q[1]?) :
    QuotesOnlySources qs := by
  intro q hqm h0 r hr hform heq
  obtain ⟨r0, hr0, hsrc, hname⟩ := hq q hqm h0
  obtain ⟨id, hid⟩ := ReadLoop_shapes stod qs s h q hqm (Or.inr h0)
  simp only [isSourceRule, decide_eq_true_eq] at hsrc
  simp only [isFormulaRule, decide_eq_true_eq] at hform
  have d : declares id r = true := by simp [declares, hform.1, heq, hid]
  have d0 : declares id r0 = true := by simp [declares, hsrc.1, hname, hid]
  have e := declares_unique hnodup hr hr0 d d0
  rw [e, hsrc.2] at hform
  rcases hform.2 with h | h <;> exact absurd h (by decide)

/-! ## The report: `PrintIndices` -/

theorem PrintLoop_mono {fuel fuel' : Nat} (hle : fuel ≤ fuel') :
    ∀ (idx : List (String × ValuePtr)) (m : Memory) (x : List OutLine × Memory),
      PrintLoop fuel idx m = some x → PrintLoop fuel' idx m = some x := by
  intro idx
  induction idx with
  | nil => intro m x h; exact h
  | cons e rest ih =>
    intro m x h
    simp only [PrintLoop] at h ⊢
    cases h1 : Value.GetValue fuel m e.2 with
    | none => rw [h1] at h; cases h
    | some res =>
      obtain ⟨v, m1⟩ := res
      rw [h1] at h
      rw [GetValue_mono hle h1]
      simp only at h ⊢
      cases h2 : PrintLoop fuel rest m1 with
      | none => rw [h2] at h; cases h
      | some res2 =>
        rw [h2] at h
        rw [ih _ _ h2]
        exact h

/-- The loop of `PrintIndices` returns on a well-formed heap, with one report line for each
entry of the map, in the order of the map. -/
theorem PrintLoop_spec (fuel : Nat) : ∀ (idx : List (String × ValuePtr)) (m : Memory), m.WF →
    (∀ e ∈ idx, e.2 < m.cells.length ∧ e.2 < fuel) →
    ∃ out m', PrintLoop fuel idx m = some (out, m') ∧ Evolves m m' ∧
      out.map OutLine.name = idx.map (fun e => some e.1) := by
  intro idx
  induction idx with
  | nil => intro m _ _; exact ⟨[], m, rfl, Evolves.refl m, rfl⟩
  | cons e rest ih =>
    intro m hw hb
    obtain ⟨hp, hf⟩ := hb e (List.mem_cons_self _ _)
    obtain ⟨r, m1, h1⟩ := GetValue_total fuel m e.2 hw hp hf
    obtain ⟨E1, _, _⟩ := GetValue_spec _ _ _ _ _ hw h1
    obtain ⟨out, m', h', E2, hnames⟩ := ih m1 (E1.wf hw) (fun q hq => by
      rw [E1.len]; exact hb q (List.mem_cons_of_mem _ hq))
    refine ⟨OutLine.report e.1 r :: out, m', ?_, E1.trans E2, ?_⟩
    · simp only [PrintLoop, h1, h']
    · simp only [List.map_cons, OutLine.name, hnames]

/-- After loading, `CalcIndices` followed by `PrintIndices` returns, with a result that
does not depend on the recursion bound: one report line for each entry of `indices`, in
the order of that map. -/
theorem report_spec {s : State} (hi : s.Inv) :
    ∃ out, (∀ fuel, s.mem.cells.length ≤ fuel →
        ((Database.CalcIndices fuel s).bind (PrintIndices fuel)).map Prod.fst = some out) ∧
      out.map OutLine.name = s.db.indices.map (fun e => some e.1) := by
  obtain ⟨s1, hs1, hdb, E, _⟩ := CalcIndices_spec hi
  have hb : ∀ e ∈ s1.db.indices,
      e.2 < s1.mem.cells.length ∧ e.2 < s.mem.cells.length := by
    intro e he
    rw [hdb] at he
    have := isFormula_lt (hi.indices e he)
    exact ⟨by rw [E.len]; exact this, this⟩
  obtain ⟨out, m', hp, _, hnames⟩ := PrintLoop_spec s.mem.cells.length s1.db.indices s1.mem
    (E.wf hi.wf) hb
  refine ⟨out, fun fuel hf => ?_, by rw [hnames, hdb]⟩
  rw [hs1 fuel hf]
  simp only [Option.bind, PrintIndices, PrintLoop_mono hf _ _ _ hp, Option.map_some']

theorem mapEmplace_keys_mem {id : String} {value : ValuePtr} {l : List (String × ValuePtr)}
    {k : String} (h : k ∈ (mapEmplace id value l).map Prod.fst) :
    k ∈ l.map Prod.fst ∨ k = id := by
  obtain ⟨e, he, hk⟩ := List.mem_map.1 h
  rcases mem_mapEmplace he with h | h
  · exact Or.inl (List.mem_map.2 ⟨e, h, hk⟩)
  · rw [h] at hk; exact Or.inr hk.symm

/-- The call `emplace` keeps the keys of the map in strictly ascending order. -/
theorem mapEmplace_sorted (id : String) (value : ValuePtr) :
    ∀ l : List (String × ValuePtr), (l.map Prod.fst).Sorted (· < ·) →
      ((mapEmplace id value l).map Prod.fst).Sorted (· < ·) := by
  intro l
  induction l with
  | nil => intro _; exact List.sorted_singleton _
  | cons hd tl ih =>
    obtain ⟨k, w⟩ := hd
    intro hs
    simp only [List.map_cons] at hs
    obtain ⟨hlt, htl⟩ := List.sorted_cons.1 hs
    simp only [mapEmplace]
    split
    · rename_i h1
      simp only [List.map_cons]
      refine List.sorted_cons.2 ⟨?_, hs⟩
      intro b hb
      rcases List.mem_cons.1 hb with e | hb
      · rw [e]; exact h1
      · exact lt_trans h1 (hlt b hb)
    · split
      · rename_i h2
        simp only [List.map_cons]
        refine List.sorted_cons.2 ⟨?_, ih htl⟩
        intro b hb
        rcases mapEmplace_keys_mem hb with hb | hb
        · exact hlt b hb
        · rw [hb]; exact h2
      · exact hs

/-- A key above all keys of the map is inserted at the end. -/
theorem mapEmplace_append (id : String) (value : ValuePtr) :
    ∀ l : List (String × ValuePtr), (∀ k ∈ l.map Prod.fst, k < id) →
      mapEmplace id value l = l ++ [(id, value)] := by
  intro l
  induction l with
  | nil => intro _; rfl
  | cons hd tl ih =>
    obtain ⟨k, w⟩ := hd
    intro h
    have hk : k < id := h k (by simp)
    simp only [mapEmplace, if_neg (lt_asymm hk), if_pos hk, List.cons_append]
    rw [ih (fun x hx => h x (by simp only [List.map_cons]; exact List.mem_cons_of_mem _ hx))]

theorem formulaNames_append (qs : List Quote) (q : Quote) :
    formulaNames (qs ++ [q]) = formulaNames qs ++
      (if isFormulaRule q then (match q[1]? with | some id => [id] | none => []) else []) := by
  unfold formulaNames
  rw [filter_append_singleton, List.filterMap_append]
  congr 1
  cases isFormulaRule q
  · rfl
  · simp only [if_true, List.filterMap_cons, List.filterMap_nil]
    cases q[1]? <;> rfl

/-- The keys of `indices` after loading: strictly ascending, and equal to the list of
formula names in declaration order when that list is strictly ascending. -/
theorem ReadLoop_indices (stod : String → Except Exception Dbl) (qs : List Quote) (s : State)
    (h : ReadLoop stod qs State.empty = (.ok (), s)) :
    (s.db.indices.map Prod.fst).Sorted (· < ·) ∧
    (∀ k ∈ s.db.indices.map Prod.fst, k ∈ formulaNames qs) ∧
    ((formulaNames qs).Sorted (· < ·) → s.db.indices.map Prod.fst = formulaNames qs) := by
  refine ReadLoop_induction stod State.empty (fun qs s =>
    (s.db.indices.map Prod.fst).Sorted (· < ·) ∧
    (∀ k ∈ s.db.indices.map Prod.fst, k ∈ formulaNames qs) ∧
    ((formulaNames qs).Sorted (· < ·) → s.db.indices.map Prod.fst = formulaNames qs))
    ?_ ?_ qs s h
  · exact ⟨List.sorted_nil, fun k hk => by simp [State.empty] at hk, fun _ => rfl⟩
  · intro qs s q s' _ ih hacc
    obtain ⟨ih1, ih2, ih3⟩ := ih
    have same : ∀ id : String,
        (s.db.AddValue id s.mem.cells.length).indices = s.db.indices := by
      intro id; unfold Database.AddValue; split <;> rfl
    have keep : ∀ db' : Database, db'.indices = s.db.indices → isFormulaRule q = false →
        (db'.indices.map Prod.fst).Sorted (· < ·) ∧
        (∀ k ∈ db'.indices.map Prod.fst, k ∈ formulaNames (qs ++ [q])) ∧
        ((formulaNames (qs ++ [q])).Sorted (· < ·) →
          db'.indices.map Prod.fst = formulaNames (qs ++ [q])) := by
      intro db' hdb hf
      rw [formulaNames_append, hf, hdb]
      simp only [Bool.false_eq_true, if_false, List.append_nil]
      exact ⟨ih1, ih2, ih3⟩
    cases hacc with
    | skip hR hQ => exact keep _ rfl (by simp [isFormulaRule, hR])
    | source id h0 h1 h2 => exact keep _ (same id) (by simp [isFormulaRule, h2])
    | quote id literal value p h0 => exact keep _ rfl (by simp [isFormulaRule, h0])
    | formula id operation n1 n2 a1 a2 h0 h1 h2 hop =>
      have hf : isFormulaRule q = true := by
        rcases hop with e | e <;> simp [isFormulaRule, h0, h2, e]
      rw [formulaNames_append, hf, h1]
      simp only [if_true, Database.AddIndex, same id]
      refine ⟨mapEmplace_sorted _ _ _ ih1, ?_, ?_⟩
      · intro k hk
        rcases mapEmplace_keys_mem hk with hk | hk
        · exact List.mem_append_left _ (ih2 k hk)
        · rw [hk]; exact List.mem_append_right _ (List.mem_singleton_self _)
      · intro hs
        have hs' : List.Pairwise (· < ·) (formulaNames qs ++ [id]) := hs
        rw [List.pairwise_append] at hs'
        obtain ⟨hqs, _, hlt⟩ := hs'
        have hall : ∀ k ∈ s.db.indices.map Prod.fst, k < id :=
          fun k hk => hlt k (ih2 k hk) id (List.mem_singleton_self _)
        rw [mapEmplace_append _ _ _ hall, List.map_append, ih3 hqs]
        rfl

/-- Loading allocates at most one object for each record. -/
theorem ReadLoop_length (stod : String → Except Exception Dbl) (qs : List Quote) (s : State)
    (h : ReadLoop stod qs State.empty = (.ok (), s)) : s.mem.cells.length ≤ qs.length := by
  refine ReadLoop_induction stod State.empty (fun qs s => s.mem.cells.length ≤ qs.length)
    (Nat.le_refl _) ?_ qs s h
  intro qs s q s' _ ih hacc
  simp only [List.length_append, List.length_singleton]
  cases hacc with
  | skip => exact Nat.le_succ_of_le ih
  | source id =>
    simp only [make_shared, List.length_append, List.length_singleton]
    exact Nat.succ_le_succ ih
  | formula id operation n1 n2 a1 a2 =>
    simp only [make_shared, List.length_append, List.length_singleton]
    exact Nat.succ_le_succ ih
  | quote id literal value p =>
    simp only [Value.SetValue, List.length_modify]
    exact Nat.le_succ_of_le ih

/-- Loading raises exactly when some record raises in the state left by the records
before it. -/
theorem ReadLoop_error_iff (stod : String → Except Exception Dbl) (e : Exception) :
    ∀ (qs0 : List Quote) (s0 : State), (ReadLoop stod qs0 s0).1 = .error e ↔
      ∃ qs q rest s, qs0 = qs ++ q :: rest ∧ ReadLoop stod qs s0 = (.ok (), s) ∧
        (ParseQuote stod q s).1 = .error e := by
  intro qs0
  induction qs0 with
  | nil =>
    intro s0
    constructor
    · intro h; cases h
    · rintro ⟨qs, q, rest, s, h, _⟩
      cases qs <;> cases h
  | cons hd tl ih =>
    intro s0
    simp only [ReadLoop]
    cases hq : ParseQuote stod hd s0 with
    | mk res s1 =>
      cases res with
      | error e' =>
        constructor
        · intro h
          exact ⟨[], hd, tl, s0, rfl, rfl, by rw [hq]; exact h⟩
        · rintro ⟨qs, q, rest, s, h, hok, hfail⟩
          cases qs with
          | nil =>
            simp only [List.nil_append, List.cons.injEq] at h
            rw [← h.1] at hfail
            simp only [ReadLoop, Prod.mk.injEq, true_and] at hok
            rw [← hok, hq] at hfail
            exact hfail
          | cons a qs' =>
            simp only [List.cons_append, List.cons.injEq] at h
            rw [← h.1] at hok
            simp only [ReadLoop, hq] at hok
            cases hok
      | ok u =>
        rw [ih s1]
        constructor
        · rintro ⟨qs, q, rest, s, h, hok, hfail⟩
          exact ⟨hd :: qs, q, rest, s, by rw [h]; rfl, by simp only [ReadLoop, hq]; exact hok,
            hfail⟩
        · rintro ⟨qs, q, rest, s, h, hok, hfail⟩
          cases qs with
          | nil =>
            simp only [List.nil_append, List.cons.injEq] at h
            rw [← h.1] at hfail
            simp only [ReadLoop, Prod.mk.injEq, true_and] at hok
            rw [← hok, hq] at hfail
            cases hfail
          | cons a qs' =>
            simp only [List.cons_append, List.cons.injEq] at h
            rw [← h.1] at hok
            simp only [ReadLoop, hq] at hok
            exact ⟨qs', q, rest, s, h.2, hok, hfail⟩

/-- On a well-formed heap whose map entries point to objects, `PrintIndices` returns and
writes report lines only. -/
theorem PrintIndices_returns {s : State} (hw : s.mem.WF)
    (hidx : ∀ e ∈ s.db.indices, e.2 < s.mem.cells.length) :
    ∃ out s', (∀ fuel, s.mem.cells.length ≤ fuel → PrintIndices fuel s = some (out, s')) ∧
      out.map OutLine.name = s.db.indices.map (fun e => some e.1) := by
  obtain ⟨out, m', hp, _, hnames⟩ := PrintLoop_spec s.mem.cells.length s.db.indices s.mem hw
    (fun e he => ⟨hidx e he, hidx e he⟩)
  refine ⟨out, { s with mem := m' }, fun fuel hf => ?_, hnames⟩
  simp only [PrintIndices, PrintLoop_mono hf _ _ _ hp]

theorem report_of_names {out : List OutLine} {names : List String}
    (h : out.map OutLine.name = names.map some) :
    ∀ l ∈ out, ∃ name value, l = OutLine.report name value := by
  intro l hl
  have hm : l.name ∈ names.map some := h ▸ List.mem_map_of_mem _ hl
  obtain ⟨n, _, hn⟩ := List.mem_map.1 hm
  cases l with
  | report name value => exact ⟨name, value, rfl⟩
  | error w => cases hn

theorem DependsOn_lt {m : Memory} (hw : m.WF) {p q : ValuePtr} (h : m.DependsOn p q) :
    q < p := by
  obtain ⟨v, fn, hv, hfn, hq⟩ := h
  obtain ⟨h1, h2⟩ := hw p v fn hv hfn
  rcases hq with e | e
  · rw [← e]; exact h1
  · rw [← e]; exact h2

theorem TransGen_DependsOn_lt {m : Memory} (hw : m.WF) {p q : ValuePtr}
    (h : Relation.TransGen m.DependsOn p q) : q < p := by
  induction h with
  | single h => exact DependsOn_lt hw h
  | tail _ h ih => exact Nat.lt_trans (DependsOn_lt hw h) ih

/-- On a well-formed heap every read returns, with a result that does not depend on the
recursion bound. -/
theorem GetValue_returns {m : Memory} (hw : m.WF) {p : ValuePtr} (hp : p < m.cells.length) :
    ∃ x, ∀ fuel, p < fuel → Value.GetValue fuel m p = some x := by
  obtain ⟨r, m', h⟩ := GetValue_total (p + 1) m p hw hp (Nat.lt_succ_self p)
  exact ⟨(r, m'), fun fuel hf => GetValue_mono hf h⟩

/-! ## The claims -/

theorem GetValues_initialized {m : Memory} {p : ValuePtr} {v : Value}
    (hv : m.cells[p]? = some v) (hi : v.m_initialized = true) :
    ∀ fuels : List Nat, (∀ f ∈ fuels, 0 < f) →
      GetValues p fuels m = some (List.replicate fuels.length v.m_value, m) := by
  intro fuels
  induction fuels with
  | nil => intro _; rfl
  | cons f rest ih =>
    intro hpos
    obtain ⟨k, hk⟩ : ∃ k, f = k + 1 :=
      ⟨f - 1, (Nat.succ_pred_eq_of_pos (hpos f (List.mem_cons_self _ _))).symm⟩
    subst hk
    simp only [GetValues, GetValue_initialized hv hi,
      ih (fun g hg => hpos g (List.mem_cons_of_mem _ hg)), List.length_cons,
      List.replicate_succ]

/-- C2: for every object holding a closure, on any heap: a call of `GetValue` that returns
has run the closure once if the object was not initialized and not at all if it was; every
later call (any sequence, any positive recursion bound) returns the same value, runs no
closure and changes no state; a call on an initialized object changes no state. On a
well-formed heap the first call does return. -/
theorem C2_memoization (m : Memory) (p : ValuePtr) (c : Value) (fn : Fn)
    (hc : m.cells[p]? = some c) (hfn : c.m_fn = some fn) :
    (∀ (fuel : Nat) (x : Dbl) (m1 : Memory), Value.GetValue fuel m p = some (x, m1) →
      m1.calls.count p = m.calls.count p + (if c.m_initialized then 0 else 1) ∧
      (c.m_initialized = true → m1 = m) ∧
      ∀ fuels : List Nat, (∀ f ∈ fuels, 0 < f) →
        GetValues p (fuel :: fuels) m = some (List.replicate (fuels.length + 1) x, m1)) ∧
    (m.WF → ∃ x m1, ∀ fuel, p < fuel → Value.GetValue fuel m p = some (x, m1)) := by
  refine ⟨fun fuel x m1 h => ⟨GetValue_count_self fuel m p c fn hc hfn x m1 h, ?_, ?_⟩, ?_⟩
  · intro hi
    cases fuel with
    | zero => simp [Value.GetValue] at h
    | succ fuel =>
      rw [GetValue_initialized hc hi] at h
      cases h; rfl
  · intro fuels hpos
    obtain ⟨_, _, _, v', hv', hi', hx⟩ := GetValue_frame _ _ _ _ _ h
    subst hx
    simp only [GetValues, h, GetValues_initialized hv' hi' fuels hpos, List.replicate_succ]
  · intro hw
    have hp : p < m.cells.length := (List.getElem?_eq_some_iff.1 hc).1
    obtain ⟨⟨x, m1⟩, hx⟩ := GetValue_returns hw hp
    exact ⟨x, m1, hx⟩

/-- Witness of C2 on the formula `X = A + B` of the example, with `A = 3` and `B = 2`:
three reads in a row return 5, and the closure of `X` is run once. -/
theorem C2_memoization_witness :
    exampleLoaded.mem.cells[2]? = some { m_fn := some ⟨true, 0, 1⟩ } ∧
    (GetValues 2 [3, 1, 1] exampleLoaded.mem).map Prod.fst =
      some [Dbl.num 5, Dbl.num 5, Dbl.num 5] ∧
    ((GetValues 2 [3, 1, 1] exampleLoaded.mem).map (fun r => r.2.calls.count 2)) = some 1 := by
  have hc : exampleLoaded.mem.cells[2]? = some { m_fn := some ⟨true, 0, 1⟩ } := by decide!
  have hget : Value.GetValue 3 exampleLoaded.mem 2 =
      some (Dbl.num 5, (Value.GetValue 3 exampleLoaded.mem 2).get (by decide!) |>.2) := by
    decide!
  obtain ⟨hcount, _, hseq⟩ := (C2_memoization exampleLoaded.mem 2 _ ⟨true, 0, 1⟩ hc rfl).1 3
    (Dbl.num 5) _ hget
  refine ⟨hc, ?_, ?_⟩
  · rw [hseq [1, 1] (by decide)]; rfl
  · rw [hseq [1, 1] (by decide)]
    simp only [Option.map_some', hcount]
    decide!

/-- C4: in every state reachable from the empty database by calls of `ParseQuote` (failed
ones included), both operands of every formula object were allocated before it and are
registered in the name table, and an object that a further call creates has operands
registered in the state before that call; hence no object depends on itself directly or
transitively, and `GetValue` on every object returns. -/
theorem C4_operands_registered_before (stod : String → Except Exception Dbl) (s : State)
    (h : Reachable stod s) :
    (∀ (p : ValuePtr) (v : Value) (fn : Fn), s.mem.cells[p]? = some v → v.m_fn = some fn →
      (fn.arg1 < p ∧ ∃ n, s.db.values.lookup n = some fn.arg1) ∧
      (fn.arg2 < p ∧ ∃ n, s.db.values.lookup n = some fn.arg2)) ∧
    (∀ (quote : Quote) (p : ValuePtr) (v : Value) (fn : Fn),
      (ParseQuote stod quote s).2.mem.cells[p]? = some v → s.mem.cells.length ≤ p →
      v.m_fn = some fn →
      (∃ n, s.db.values.lookup n = some fn.arg1) ∧
      (∃ n, s.db.values.lookup n = some fn.arg2)) ∧
    (∀ p, ¬ Relation.TransGen s.mem.DependsOn p p) ∧
    (∀ p, p < s.mem.cells.length →
      ∃ x, ∀ fuel, p < fuel → Value.GetValue fuel s.mem p = some x) := by
  have hi := h.state_inv
  refine ⟨?_, ?_, ?_, ?_⟩
  · intro p v fn hv hfn
    obtain ⟨l1, l2⟩ := hi.wf p v fn hv hfn
    obtain ⟨r1, r2⟩ := hi.args p v fn hv hfn
    exact ⟨⟨l1, r1⟩, ⟨l2, r2⟩⟩
  · intro quote p v fn hv hp hfn
    cases hq : ParseQuote stod quote s with
    | mk res s' =>
      rw [hq] at hv
      have old : ∀ w : Value, s.mem.cells[p]? = some w → False := by
        intro w hw
        obtain ⟨hlt, _⟩ := List.getElem?_eq_some_iff.1 hw
        exact absurd hlt (Nat.not_lt.2 hp)
      cases res with
      | error e =>
        rw [ParseQuote_error stod quote s e s' hq] at hv
        exact (old v hv).elim
      | ok u =>
        have hacc := (ParseQuote_ok_iff stod quote s s').1 hq
        cases hacc with
        | skip => exact (old v hv).elim
        | source id =>
          rcases getElem?_concat_some hv with ⟨_, hv⟩ | ⟨_, hc⟩
          · exact (old v hv).elim
          · subst hc; cases hfn
        | formula id operation n1 n2 a1 a2 _ _ _ _ _ _ l1 l2 =>
          rcases getElem?_concat_some hv with ⟨_, hv⟩ | ⟨_, hc⟩
          · exact (old v hv).elim
          · subst hc; cases hfn; exact ⟨⟨n1, l1⟩, ⟨n2, l2⟩⟩
        | quote id literal value q =>
          simp only [Value.SetValue, List.getElem?_modify] at hv
          cases hw : s.mem.cells[p]? with
          | none => rw [hw] at hv; cases hv
          | some w => exact (old w hw).elim
  · intro p hp
    exact Nat.lt_irrefl p (TransGen_DependsOn_lt hi.wf hp)
  · intro p hp
    exact GetValue_returns hi.wf hp

/-- Witness of C4 on the state reached by `R|A|S`, `R|X|+|A|A`: the formula object 1 does
not depend on itself and reading it returns. -/
theorem C4_operands_registered_before_witness :
    Reachable stodNat exampleState ∧
    ¬ Relation.TransGen exampleState.mem.DependsOn 1 1 ∧
    (Value.GetValue 2 exampleState.mem 1).isSome = true :=
  have hr : Reachable stodNat exampleState :=
    Reachable.step _ _ (Reachable.step _ _ Reachable.empty)
  ⟨hr, (C4_operands_registered_before stodNat exampleState hr).2.2.1 1,
    by
      obtain ⟨x, hx⟩ := (C4_operands_registered_before stodNat exampleState hr).2.2.2 1
        (by decide)
      rw [hx 2 (by decide)]; rfl⟩

/-- C6: a rule with at least three fields whose operation is none of `+`, `-`, `S` makes
`ParseRule` (and `ParseQuote`, when the first field is `R`) raise `invalid_argument` with
the text "Unknown operation" and leaves the whole state unchanged; a rule whose operation
is `S` never raises. -/
theorem C6_unknown_operation (stod : String → Except Exception Dbl) (quote : Quote) (s : State) :
    (∀ operation, quote[2]? = some operation →
      operation ≠ "+" → operation ≠ "-" → operation ≠ "S" →
      ParseRule quote s = (.error (.invalid_argument "Unknown operation"), s) ∧
      (quote[0]? = some "R" →
        ParseQuote stod quote s = (.error (.invalid_argument "Unknown operation"), s))) ∧
    (quote[2]? = some "S" →
      (ParseRule quote s).1 = .ok () ∧
      (quote[0]? = some "R" → (ParseQuote stod quote s).1 = .ok ())) := by
  refine ⟨fun operation h2 hp hm hs => ?_, fun h2 => ?_⟩
  · have key : ParseRule quote s = (.error (.invalid_argument "Unknown operation"), s) := by
      match quote, h2 with
      | _ :: id :: op :: rest, h2 =>
        have e : op = operation := by simpa using h2
        subst e
        simp [ParseRule, Quote.at, ParseRule.fn, hp, hm, hs]
    refine ⟨key, fun h0 => ?_⟩
    match quote, h0 with
    | front :: rest, h0 =>
      have e : front = "R" := by simpa using h0
      subst e
      simp only [ParseQuote, if_true]
      exact key
  · have key : (ParseRule quote s).1 = .ok () := by
      match quote, h2 with
      | _ :: id :: op :: rest, h2 =>
        have e : op = "S" := by simpa using h2
        subst e
        simp [ParseRule, Quote.at, ParseRule.fn]
    refine ⟨key, fun h0 => ?_⟩
    match quote, h0 with
    | front :: rest, h0 =>
      have e : front = "R" := by simpa using h0
      subst e
      simp only [ParseQuote, if_true]
      exact key

/-- Witness of C6: the record `R|Z|*|A|B` on the empty database. -/
theorem C6_unknown_operation_witness :
    ParseRule ["R", "Z", "*", "A", "B"] State.empty =
      (.error (.invalid_argument "Unknown operation"), State.empty) :=
  ((C6_unknown_operation stodNat ["R", "Z", "*", "A", "B"] State.empty).1 "*" (by decide)
    (by decide) (by decide) (by decide)).1

/-- C7: a `+`/`-` rule with five fields returns normally exactly when both operand names
are registered, and a `Q` record with a literal that `stod` accepts returns normally
exactly when its name is registered; when a name is unregistered the call raises
`out_of_range` and the state (database, objects, trace of closure calls) is unchanged.
A rule that names itself as an operand, its name not being registered, raises. -/
theorem C7_unregistered_name (stod : String → Except Exception Dbl) (s : State) :
    (∀ (id operation n1 n2 : String) (rest : List String),
      (operation = "+" ∨ operation = "-") →
      ((ParseQuote stod ("R" :: id :: operation :: n1 :: n2 :: rest) s).1 = .ok () ↔
        (s.db.values.lookup n1).isSome = true ∧ (s.db.values.lookup n2).isSome = true) ∧
      (s.db.values.lookup n1 = none ∨ s.db.values.lookup n2 = none →
        ParseQuote stod ("R" :: id :: operation :: n1 :: n2 :: rest) s =
          (.error (.out_of_range "unordered_map::at"), s)) ∧
      (s.db.values.lookup id = none →
        (ParseQuote stod ("R" :: id :: operation :: id :: n2 :: rest) s).1 ≠ .ok ())) ∧
    (∀ (id literal : String) (value : Dbl) (rest : List String), stod literal = .ok value →
      ((ParseQuote stod ("Q" :: id :: literal :: rest) s).1 = .ok () ↔
        (s.db.values.lookup id).isSome = true) ∧
      (s.db.values.lookup id = none →
        ParseQuote stod ("Q" :: id :: literal :: rest) s =
          (.error (.out_of_range "unordered_map::at"), s))) := by
  have rule : ∀ (id operation n1 n2 : String) (rest : List String),
      (operation = "+" ∨ operation = "-") →
      ((ParseQuote stod ("R" :: id :: operation :: n1 :: n2 :: rest) s).1 = .ok () ↔
        (s.db.values.lookup n1).isSome = true ∧ (s.db.values.lookup n2).isSome = true) ∧
      (s.db.values.lookup n1 = none ∨ s.db.values.lookup n2 = none →
        ParseQuote stod ("R" :: id :: operation :: n1 :: n2 :: rest) s =
          (.error (.out_of_range "unordered_map::at"), s)) := by
    intro id operation n1 n2 rest hop
    cases l1 : s.db.values.lookup n1 with
    | none => simp [ParseQuote, ParseRule, Quote.at, ParseRule.fn, Database.GetValue, hop, l1]
    | some a1 =>
      cases l2 : s.db.values.lookup n2 with
      | none =>
        simp [ParseQuote, ParseRule, Quote.at, ParseRule.fn, Database.GetValue, hop, l1, l2]
      | some a2 =>
        simp [ParseQuote, ParseRule, Quote.at, ParseRule.fn, Database.GetValue, hop, l1, l2]
  refine ⟨fun id operation n1 n2 rest hop => ⟨(rule id operation n1 n2 rest hop).1,
    (rule id operation n1 n2 rest hop).2, fun hnone hok => ?_⟩, ?_⟩
  · have := ((rule id operation id n2 rest hop).1.1 hok).1
    rw [hnone] at this
    cases this
  · intro id literal value rest hlit
    cases l : s.db.values.lookup id with
    | none => simp [ParseQuote, Quote.at, hlit, Database.SetValue, Database.GetValue, l]
    | some p => simp [ParseQuote, Quote.at, hlit, Database.SetValue, Database.GetValue, l]

/-- Witness of C7: `R|X|+|A|Ghost` after `R|A|S`, where `Ghost` was never declared. -/
theorem C7_unregistered_name_witness :
    ParseQuote stodNat ["R", "X", "+", "A", "Ghost"] (ParseQuote stodNat ["R", "A", "S"]
        State.empty).2 =
      (.error (.out_of_range "unordered_map::at"),
        (ParseQuote stodNat ["R", "A", "S"] State.empty).2) :=
  ((C7_unregistered_name stodNat (ParseQuote stodNat ["R", "A", "S"] State.empty).2).1
    "X" "+" "A" "Ghost" [] (Or.inl rfl)).2.1 (Or.inr (by decide))

/-- C9: when `name` is registered for an existing object, `SetValue(name, v)` returns
normally, a following read of the name returns exactly `v` and changes nothing, after
several `SetValue` calls the read returns the literal of the last one, and `SetValue`
leaves the database (name table, indices, evaluation list), the trace of closure calls
and every other object unchanged. -/
theorem C9_set_then_read (s : State) (name : String) (p : ValuePtr) (c : Value)
    (hreg : s.db.values.lookup name = some p) (hc : s.mem.cells[p]? = some c) (value : Dbl) :
    (Database.SetValue name value s).1 = .ok () ∧
    (∀ fuel, readName (fuel + 1) (Database.SetValue name value s).2 name =
      some (value, (Database.SetValue name value s).2)) ∧
    (∀ (rest : List Dbl) (fuel : Nat),
      readName (fuel + 1) (SetValues name (value :: rest) s) name =
        some ((value :: rest).getLast (List.cons_ne_nil _ _),
          SetValues name (value :: rest) s)) ∧
    (Database.SetValue name value s).2.db = s.db ∧
    (Database.SetValue name value s).2.mem.calls = s.mem.calls ∧
    (Database.SetValue name value s).2.mem.cells.length = s.mem.cells.length ∧
    (∀ q, q ≠ p → (Database.SetValue name value s).2.mem.cells[q]? = s.mem.cells[q]?) ∧
    (Database.SetValue name value s).2.mem.cells[p]? =
      some { c with m_value := value, m_initialized := true } := by
  have read : ∀ (s : State) (c : Value) (value : Dbl), s.db.values.lookup name = some p →
      s.mem.cells[p]? = some c → ∀ fuel,
      readName (fuel + 1) (Database.SetValue name value s).2 name =
        some (value, (Database.SetValue name value s).2) := by
    intro s c value hreg hc fuel
    rw [SetValue_ok hreg]
    simp only [readName, hreg]
    rw [GetValue_initialized (SetValue_cell hc value) rfl]
  refine ⟨by rw [SetValue_ok hreg], read s c value hreg hc, ?_, by rw [SetValue_ok hreg],
    by rw [SetValue_ok hreg]; rfl, by rw [SetValue_ok hreg]; simp [Value.SetValue], ?_,
    by rw [SetValue_ok hreg]; exact SetValue_cell hc value⟩
  · intro rest
    induction rest generalizing s c value with
    | nil => intro fuel; exact read s c value hreg hc fuel
    | cons w rest ih =>
      intro fuel
      have h1 : (Database.SetValue name value s).2.db.values.lookup name = some p := by
        rw [SetValue_ok hreg]; exact hreg
      have h2 : (Database.SetValue name value s).2.mem.cells[p]? =
          some { c with m_value := value, m_initialized := true } := by
        rw [SetValue_ok hreg]; exact SetValue_cell hc value
      have := ih (Database.SetValue name value s).2 _ h1 h2 w fuel
      simpa [SetValues, List.getLast_cons] using this
  · intro q hq
    rw [SetValue_ok hreg]
    simp only [Value.SetValue]
    rw [List.getElem?_modify_ne _ _ (Ne.symm hq)]

/-- Witness of C9: after `R|A|S`, `R|X|+|A|A`, setting `A` to 3 and then to 7 makes the
read of `A` return 7. -/
theorem C9_set_then_read_witness :
    exampleState.db.values.lookup "A" = some 0 ∧
    readName 1 (SetValues "A" [Dbl.num 3, Dbl.num 7] exampleState) "A" =
      some (Dbl.num 7, SetValues "A" [Dbl.num 3, Dbl.num 7] exampleState) :=
  ⟨by decide, (C9_set_then_read exampleState "A" 0 { m_fn := none } (by decide) (by decide)
    (Dbl.num 3)).2.2.1 [Dbl.num 7] 0⟩

theorem ReadDatabase_table (stod : String → Except Exception Dbl) (input : String) (s : State)
    (h : ReadDatabase stod input State.empty = (.ok (), s)) :
    s.Inv ∧ Table (records input) s :=
  ReadLoop_table stod (records input) s h

/-- C5, amended: for every record stream that loads without error and in which no `Q` record
names a name declared with `+` or `-`, `CalcIndices` returns, and after it the closure of
each formula object has run exactly once. -/
theorem C5_each_formula_once (stod : String → Except Exception Dbl) (input : String)
    (s : State) (hload : ReadDatabase stod input State.empty = (.ok (), s))
    (H : QuotesOnlySources (records input)) :
    (∃ s', ∀ fuel, s.mem.cells.length ≤ fuel → Database.CalcIndices fuel s = some s') ∧
    (∀ (fuel : Nat) (s' : State), Database.CalcIndices fuel s = some s' →
      ∀ p, s'.mem.isFormula p = true → s'.mem.calls.count p = 1) := by
  obtain ⟨hinv, _⟩ := ReadDatabase_table stod input s hload
  have fresh := ReadLoop_fresh stod (records input) s hload H
  have counted : s.mem.Counted := by
    intro q v fn hv hfn
    rw [hinv.calls, fresh q v fn hv hfn]
    rfl
  refine ⟨?_, ?_⟩
  · obtain ⟨s', hs', _⟩ := CalcIndices_spec hinv
    exact ⟨s', hs'⟩
  · intro fuel s' hcalc p hp
    obtain ⟨_, E, hinit⟩ := CalcIndices_unique hinv hcalc
    obtain ⟨c, fn, hc, hfn⟩ := isFormula_iff.1 hp
    rw [E.counted counted p c fn hc hfn, hinit p c fn hc hfn]
    rfl

/-- Witness of C5 on the example input: the closures of `X` (object 2) and `Y` (object 3)
have each run once after `CalcIndices`. -/
theorem C5_each_formula_once_witness :
    ReadDatabase stodNat exampleInput State.empty = (.ok (), exampleLoaded) ∧
    QuotesOnlySources (records exampleInput) ∧
    (Database.CalcIndices 4 exampleLoaded).isSome = true ∧
    (∀ s', Database.CalcIndices 4 exampleLoaded = some s' →
      s'.mem.calls.count 2 = 1 ∧ s'.mem.calls.count 3 = 1) := by
  have hload : ReadDatabase stodNat exampleInput State.empty = (.ok (), exampleLoaded) := by
    decide!
  have H : QuotesOnlySources (records exampleInput) := by decide
  have h := C5_each_formula_once stodNat exampleInput exampleLoaded hload H
  refine ⟨hload, H, ?_, ?_⟩
  · obtain ⟨s', hs'⟩ := h.1
    rw [hs' 4 (by decide!)]; rfl
  · intro s' hs'
    have hE := (CalcIndices_unique (ReadDatabase_table _ _ _ hload).1 hs').2.1
    have f2 : s'.mem.isFormula 2 = true := by
      obtain ⟨v', hv', st⟩ := hE.cell 2 { m_fn := some ⟨true, 0, 1⟩ }
        (by decide!)
      have : v'.m_fn = some ⟨true, 0, 1⟩ := by
        rcases st with ⟨e, _⟩ | ⟨_, e, _⟩ | ⟨_, _, e, _⟩
        · rw [e]
        · cases e
        · exact e
      exact isFormula_iff.2 ⟨v', _, hv', this⟩
    have f3 : s'.mem.isFormula 3 = true := by
      obtain ⟨v', hv', st⟩ := hE.cell 3 { m_fn := some ⟨false, 0, 1⟩ }
        (by decide!)
      have : v'.m_fn = some ⟨false, 0, 1⟩ := by
        rcases st with ⟨e, _⟩ | ⟨_, e, _⟩ | ⟨_, _, e, _⟩
        · rw [e]
        · cases e
        · exact e
      exact isFormula_iff.2 ⟨v', _, hv', this⟩
    exact ⟨h.2 4 s' hs' 2 f2, h.2 4 s' hs' 3 f3⟩

/-- Counterexample to C5 as stated: the stream `R|A|S`, `R|X|+|A|A`, `Q|X|1` loads without
error, and after `CalcIndices` the closure of the formula `X` (object 1) has never run. -/
theorem C5_counterexample :
    (ReadDatabase stodNat quotedFormulaInput State.empty).1 = .ok () ∧
    (Database.CalcIndices 2 (ReadDatabase stodNat quotedFormulaInput State.empty).2).map
      (fun s' => (s'.mem.isFormula 1, s'.mem.calls.count 1)) = some (true, 0) := by
  constructor
  · decide!
  · decide!

/-- What one call of `ParseQuote`, returning or raising, does to the database. -/
theorem ParseQuote_frame (stod : String → Except Exception Dbl) (s0 : State) (quote : Quote) :
    (isSourceRule quote = true → (ParseQuote stod quote s0).1 = .ok () →
      (ParseQuote stod quote s0).2.db.indexDependencies = s0.db.indexDependencies ∧
      (ParseQuote stod quote s0).2.db.indices = s0.db.indices ∧
      ∃ id, quote[1]? = some id ∧
        (ParseQuote stod quote s0).2.db.values =
          (s0.db.AddValue id s0.mem.cells.length).values) ∧
    (quote[0]? = some "Q" → (ParseQuote stod quote s0).2.db = s0.db) ∧
    ((ParseQuote stod quote s0).1 ≠ .ok () → (ParseQuote stod quote s0).2 = s0) ∧
    List.IsPrefix s0.db.indexDependencies (ParseQuote stod quote s0).2.db.indexDependencies := by
  have same : ∀ id : String, (s0.db.AddValue id s0.mem.cells.length).indexDependencies =
      s0.db.indexDependencies ∧
      (s0.db.AddValue id s0.mem.cells.length).indices = s0.db.indices := by
    intro id; unfold Database.AddValue; split <;> exact ⟨rfl, rfl⟩
  cases hq : ParseQuote stod quote s0 with
  | mk res s' =>
    cases res with
    | error e =>
      have hs := ParseQuote_error stod quote s0 e s' hq
      subst hs
      exact ⟨fun _ h => (by cases h), fun _ => rfl, fun _ => rfl, List.prefix_refl _⟩
    | ok u =>
      have hacc := (ParseQuote_ok_iff stod quote s0 s').1 hq
      cases hacc with
      | skip hR hQ =>
        refine ⟨fun h _ => ?_, fun _ => rfl, fun h => absurd rfl h, List.prefix_refl _⟩
        simp only [isSourceRule, decide_eq_true_eq] at h
        exact absurd h.1 hR
      | source id h0 h1 h2 =>
        refine ⟨fun _ _ => ⟨(same id).1, (same id).2, id, h1, rfl⟩, fun h => ?_,
          fun h => absurd rfl h, ?_⟩
        · rw [h0] at h; exact absurd h (by decide)
        · show List.IsPrefix _ (s0.db.AddValue id s0.mem.cells.length).indexDependencies
          rw [(same id).1]
      | formula id operation n1 n2 a1 a2 h0 h1 h2 hop =>
        refine ⟨fun h _ => ?_, fun h => ?_, fun h => absurd rfl h, ?_⟩
        · simp only [isSourceRule, decide_eq_true_eq, h2, Option.some.injEq] at h
          rcases hop with e | e <;> rw [e] at h <;> exact absurd h.2 (by decide)
        · rw [h0] at h; exact absurd h (by decide)
        · show List.IsPrefix _
            ((s0.db.AddValue id s0.mem.cells.length).indexDependencies ++ [s0.mem.cells.length])
          rw [(same id).1]
          exact List.prefix_append _ _
      | quote id literal value p h0 =>
        refine ⟨fun h _ => ?_, fun _ => rfl, fun h => absurd rfl h, List.prefix_refl _⟩
        simp only [isSourceRule, decide_eq_true_eq, h0] at h
        exact absurd h.1 (by decide)

/-- C10: after a record stream has loaded without error, `indexDependencies` is the list of
the objects that hold a closure, in allocation order and without repetition, and it pairs
off in order with the `+`/`-` rules of the stream, each entry being the object made for
its rule. For any state and record: an `S` rule that returns changes only the name table,
a `Q` record leaves the database unchanged, a record that raises leaves the whole state
unchanged, and the old evaluation list is a prefix of the new one. -/
theorem C10_evaluation_list (stod : String → Except Exception Dbl) (input : String) (s : State)
    (hload : ReadDatabase stod input State.empty = (.ok (), s)) :
    s.db.indexDependencies = s.mem.formulaCells ∧
    s.db.indexDependencies.Nodup ∧
    List.Forall₂ (fun p r => RuleCell s r p) s.db.indexDependencies
      ((records input).filter isFormulaRule) ∧
    ∀ (s0 : State) (quote : Quote),
      (isSourceRule quote = true → (ParseQuote stod quote s0).1 = .ok () →
        (ParseQuote stod quote s0).2.db.indexDependencies = s0.db.indexDependencies ∧
        (ParseQuote stod quote s0).2.db.indices = s0.db.indices ∧
        ∃ id, quote[1]? = some id ∧
          (ParseQuote stod quote s0).2.db.values =
            (s0.db.AddValue id s0.mem.cells.length).values) ∧
      (quote[0]? = some "Q" → (ParseQuote stod quote s0).2.db = s0.db) ∧
      ((ParseQuote stod quote s0).1 ≠ .ok () → (ParseQuote stod quote s0).2 = s0) ∧
      List.IsPrefix s0.db.indexDependencies
        (ParseQuote stod quote s0).2.db.indexDependencies := by
  obtain ⟨hinv, htab⟩ := ReadDatabase_table stod input s hload
  refine ⟨hinv.deps, ?_, htab.deps, ParseQuote_frame stod⟩
  rw [hinv.deps]
  exact (List.nodup_range _).filter _

/-- Witness of C10 on the example input: the evaluation list holds the objects of `X` and
`Y`, in that order. -/
theorem C10_evaluation_list_witness :
    ReadDatabase stodNat exampleInput State.empty = (.ok (), exampleLoaded) ∧
    exampleLoaded.db.indexDependencies = [2, 3] :=
  have hload : ReadDatabase stodNat exampleInput State.empty = (.ok (), exampleLoaded) := by
    decide!
  ⟨hload, (C10_evaluation_list stodNat exampleInput exampleLoaded hload).1.trans (by decide!)⟩

/-- C1, amended: for every record stream that loads without error, in which no name is
declared twice, every `Q` record names a name declared with `S` and every `S` name is named
by some `Q` record: `CalcIndices` returns, and afterwards the value read under the name of
each `+` rule is the sum, and under the name of each `-` rule the difference, in `double`
arithmetic, of the values read under its two operand names. For finite operands that is
the exact sum or difference whenever the exact one is a `double`; when it is finite, no
`double` is nearer to the exact one; and otherwise it is an infinity, and the exact one
is at least halfway from the largest `double` to `2 ^ 1024`. The value read under each
`S` name is the number `stod` reads from the literal of the last `Q` record naming it.
These reads change nothing. -/
theorem C1_sum_and_difference (stod : String → Except Exception Dbl) (input : String)
    (s : State) (hload : ReadDatabase stod input State.empty = (.ok (), s))
    (hnodup : (declaredNames (records input)).Nodup)
    (hq : ∀ q ∈ records input, q[0]? = some "Q" →
      ∃ r ∈ records input, isSourceRule r = true ∧ r[1]? = q[1]?)
    (hset : ∀ r ∈ records input, isSourceRule r = true →
      ∃ q ∈ records input, q[0]? = some "Q" ∧ q[1]? = r[1]?) :
    ∃ s', (∀ fuel, s.mem.cells.length ≤ fuel → Database.CalcIndices fuel s = some s') ∧
      (∀ r ∈ records input, isFormulaRule r = true →
        ∃ X A B x a b, r[1]? = some X ∧ r[3]? = some A ∧ r[4]? = some B ∧
          (∀ fuel, readName (fuel + 1) s' X = some (x, s')) ∧
          (∀ fuel, readName (fuel + 1) s' A = some (a, s')) ∧
          (∀ fuel, readName (fuel + 1) s' B = some (b, s')) ∧
          x = (if r[2]? = some "+" then a + b else a - b) ∧
          ∀ (qa qb : ℚ), a.toRat = some qa → b.toRat = some qb →
            (∀ (d : Dbl), d.toRat = some (if r[2]? = some "+" then qa + qb else qa - qb) →
              x.toRat = some (if r[2]? = some "+" then qa + qb else qa - qb)) ∧
            (∀ (qx : ℚ), x.toRat = some qx → ∀ (d : Dbl) (qd : ℚ), d.toRat = some qd →
              |qx - (if r[2]? = some "+" then qa + qb else qa - qb)| ≤
                |qd - (if r[2]? = some "+" then qa + qb else qa - qb)|) ∧
            (x.toRat = none → (∃ sign, x = Dbl.inf sign) ∧
              (2 : ℚ) ^ 1024 - 2 ^ 970 ≤
                |if r[2]? = some "+" then qa + qb else qa - qb|)) ∧
      (∀ r ∈ records input, isSourceRule r = true →
        ∃ A literal value, r[1]? = some A ∧ lastQuote (records input) A = some literal ∧
          stod literal = .ok value ∧
          ∀ fuel, readName (fuel + 1) s' A = some (value, s')) := by
  obtain ⟨hinv, htab⟩ := ReadDatabase_table stod input s hload
  have shapes := ReadLoop_shapes stod (records input) s hload
  have H := quotesOnlySources_of_nodup stod (records input) s hload hnodup hq
  have fresh := ReadLoop_fresh stod (records input) s hload H
  have hsrcinv := ReadLoop_source stod (records input) s hload
  have cons : s.mem.Consistent := by
    intro q v fn hv hi hfn
    rw [fresh q v fn hv hfn] at hi; cases hi
  obtain ⟨s', hs', hdb, E, hinit⟩ := CalcIndices_spec hinv
  have cons' := E.consistent cons
  -- the object registered under the name of a rule is the object of that rule
  have resolve : ∀ r ∈ records input, ∀ n, declares n r = true →
      ∃ p, s.db.values.lookup n = some p ∧ RuleCell s r p := by
    intro r hr n hd
    have hfirst := firstRule_of_mem hnodup hr hd
    cases hl : s.db.values.lookup n with
    | none => rw [htab.decl_none n hl] at hfirst; cases hfirst
    | some p =>
      obtain ⟨r', hr', hcell⟩ := htab.decl_some n p hl
      rw [hfirst] at hr'; cases hr'
      exact ⟨p, rfl, hcell⟩
  refine ⟨s', hs', ?_, ?_⟩
  · intro r hr hform
    have hform' := hform
    simp only [isFormulaRule, decide_eq_true_eq] at hform'
    obtain ⟨X, hX⟩ := shapes r hr (Or.inl hform'.1)
    obtain ⟨p, hl, c, hc, hrule⟩ := resolve r hr X (by simp [declares, hform'.1, hX])
    rcases hrule with ⟨h2, _⟩ | ⟨op, n1, n2, a1, a2, h2, hop, h3, h4, l1, l2, hfn⟩
    · rw [h2] at hform'
      rcases hform'.2 with h | h <;> exact absurd h (by decide)
    · obtain ⟨c', hc', st⟩ := E.cell p c hc
      have hfn' : c'.m_fn = some ⟨op = "+", a1, a2⟩ := st.fn_eq.trans hfn
      have hi' := hinit p c' _ hc' hfn'
      obtain ⟨ca, cb, hca, hia, hcb, hib, hx⟩ := cons' p c' _ hc' hi' hfn'
      refine ⟨X, n1, n2, c'.m_value, ca.m_value, cb.m_value, hX, h3, h4, ?_, ?_, ?_, ?_, ?_⟩
      · exact fun fuel => readName_initialized (hdb ▸ hl) hc' hi' fuel
      · exact fun fuel => readName_initialized (hdb ▸ l1) hca hia fuel
      · exact fun fuel => readName_initialized (hdb ▸ l2) hcb hib fuel
      · rw [hx, h2]
        simp only [Option.some.injEq]
        by_cases e : op = "+" <;> simp [e]
      · intro qa qb hqa hqb
        rw [hx, h2]
        simp only [Option.some.injEq]
        by_cases e : op = "+"
        · simp only [e, decide_True, if_true]
          exact ⟨fun d hd => Dbl.add_exact hqa hqb hd,
            fun qx hqx d qd hd => Dbl.add_nearest hqa hqb hqx hd,
            fun hnone => Dbl.add_overflow hqa hqb hnone⟩
        · simp only [e, decide_False, if_false]
          exact ⟨fun d hd => Dbl.sub_exact hqa hqb hd,
            fun qx hqx d qd hd => Dbl.sub_nearest hqa hqb hqx hd,
            fun hnone => Dbl.sub_overflow hqa hqb hnone⟩
  · intro r hr hsrc
    have hsrc' := hsrc
    simp only [isSourceRule, decide_eq_true_eq] at hsrc'
    obtain ⟨A, hA⟩ := shapes r hr (Or.inl hsrc'.1)
    obtain ⟨p, hl, c, hc, hrule⟩ := resolve r hr A (by simp [declares, hsrc'.1, hA])
    have hnone : c.m_fn = none := by
      rcases hrule with ⟨_, h⟩ | ⟨op, _, _, _, _, h2, hop, _⟩
      · exact h
      · rw [hsrc'.2] at h2
        simp only [Option.some.injEq] at h2
        rw [← h2] at hop
        rcases hop with h | h <;> exact absurd h (by decide)
    obtain ⟨q, hqm, hq0, hq1⟩ := hset r hr hsrc
    have hmem : q ∈ (records input).filter (quotes A) :=
      List.mem_filter.2 ⟨hqm, by simp [quotes, hq0, hq1, hA]⟩
    have hstate := hsrcinv.2 A p c hl hc hnone
    cases hlast : ((records input).filter (quotes A)).getLast? with
    | none =>
      rw [List.getLast?_eq_none_iff.1 hlast] at hmem
      cases hmem
    | some q' =>
      rw [hlast] at hstate
      obtain ⟨literal, value, hlit, hstod, hi, hv⟩ := hstate
      refine ⟨A, literal, value, hA, ?_, hstod, fun fuel => ?_⟩
      · simp only [lastQuote, hlast, hlit]
      · rw [← hv]
        exact readName_initialized (hdb ▸ hl) (E.init hc hi) hi fuel

/-- Witness of C1: on the input `R|A|S`, `R|B|S`, `R|X|+|A|B`, `R|Y|-|A|B`, `Q|A|3`,
`Q|B|2` the hypotheses hold, and after `CalcIndices` the name `X` reads 5 and `Y` reads 1. -/
theorem C1_sum_and_difference_witness :
    ReadDatabase stodNat exampleInput State.empty = (.ok (), exampleLoaded) ∧
    (declaredNames (records exampleInput)).Nodup ∧
    ((Database.CalcIndices 4 exampleLoaded).bind (fun s' => readName 1 s' "X")).map Prod.fst =
      some (Dbl.num 5) ∧
    ((Database.CalcIndices 4 exampleLoaded).bind (fun s' => readName 1 s' "Y")).map Prod.fst =
      some (Dbl.num 1) := by
  have hload : ReadDatabase stodNat exampleInput State.empty = (.ok (), exampleLoaded) := by
    decide!
  have hnodup : (declaredNames (records exampleInput)).Nodup := by decide
  obtain ⟨s', hs', hform, hsrc⟩ := C1_sum_and_difference stodNat exampleInput exampleLoaded
    hload hnodup (by decide) (by decide)
  -- the two sources read 3 and 2
  obtain ⟨A, la, va, hA, hlastA, hstodA, hreadA⟩ := hsrc ["R", "A", "S"] (by decide) (by decide)
  obtain ⟨B, lb, vb, hB, hlastB, hstodB, hreadB⟩ := hsrc ["R", "B", "S"] (by decide) (by decide)
  have eA : A = "A" := by simpa using hA.symm
  have eB : B = "B" := by simpa using hB.symm
  subst eA; subst eB
  have ela : la = "3" := by
    have h : lastQuote (records exampleInput) "A" = some "3" := by decide
    rw [h] at hlastA; exact (Option.some.inj hlastA).symm
  have elb : lb = "2" := by
    have h : lastQuote (records exampleInput) "B" = some "2" := by decide
    rw [h] at hlastB; exact (Option.some.inj hlastB).symm
  subst ela; subst elb
  have eva : va = Dbl.num 3 := by
    have h : stodNat "3" = .ok (Dbl.num 3) := by decide!
    rw [h] at hstodA; exact (Except.ok.inj hstodA).symm
  have evb : vb = Dbl.num 2 := by
    have h : stodNat "2" = .ok (Dbl.num 2) := by decide!
    rw [h] at hstodB; exact (Except.ok.inj hstodB).symm
  subst eva; subst evb
  -- the sum and the difference
  obtain ⟨X, A1, B1, x, a, b, hX, hA1, hB1, hreadX, hra, hrb, hx, _⟩ :=
    hform ["R", "X", "+", "A", "B"] (by decide) (by decide)
  obtain ⟨Y, A2, B2, y, a2, b2, hY, hA2, hB2, hreadY, hra2, hrb2, hy, _⟩ :=
    hform ["R", "Y", "-", "A", "B"] (by decide) (by decide)
  have e1 : X = "X" := by simpa using hX.symm
  have e2 : A1 = "A" := by simpa using hA1.symm
  have e3 : B1 = "B" := by simpa using hB1.symm
  have e4 : Y = "Y" := by simpa using hY.symm
  have e5 : A2 = "A" := by simpa using hA2.symm
  have e6 : B2 = "B" := by simpa using hB2.symm
  subst e1; subst e2; subst e3; subst e4; subst e5; subst e6
  have ea : a = Dbl.num 3 := by
    have := (hra 0).symm.trans (hreadA 0); simpa using this
  have eb : b = Dbl.num 2 := by
    have := (hrb 0).symm.trans (hreadB 0); simpa using this
  have ea2 : a2 = Dbl.num 3 := by
    have := (hra2 0).symm.trans (hreadA 0); simpa using this
  have eb2 : b2 = Dbl.num 2 := by
    have := (hrb2 0).symm.trans (hreadB 0); simpa using this
  subst ea; subst eb; subst ea2; subst eb2
  have hsum : x = Dbl.num 5 := by
    rw [hx]; decide!
  have hdiff : y = Dbl.num 1 := by
    rw [hy]; decide!
  refine ⟨hload, hnodup, ?_, ?_⟩
  · rw [hs' 4 (by decide!)]
    simp only [Option.bind, hreadX 0, Option.map_some', hsum]
  · rw [hs' 4 (by decide!)]
    simp only [Option.bind, hreadY 0, Option.map_some', hdiff]

/-- Counterexample to C1 as stated: the stream `R|A|S`, `R|B|S`, `R|X|+|A|B`,
`Q|A|9007199254740992`, `Q|B|1` meets the hypotheses of the claim, and after `CalcIndices`
the name `A` reads 9007199254740992, `B` reads 1 and `X` reads 9007199254740992, which is
not their sum as exact numbers. -/
theorem C1_counterexample :
    (ReadDatabase stodNat roundedInput State.empty).1 = .ok () ∧
    (declaredNames (records roundedInput)).Nodup ∧
    (∀ q ∈ records roundedInput, q[0]? = some "Q" →
      ∃ r ∈ records roundedInput, isSourceRule r = true ∧ r[1]? = q[1]?) ∧
    (∀ r ∈ records roundedInput, isSourceRule r = true →
      ∃ q ∈ records roundedInput, q[0]? = some "Q" ∧ q[1]? = r[1]?) ∧
    ((Database.CalcIndices 3 (ReadDatabase stodNat roundedInput State.empty).2).bind
      (fun s' => readName 1 s' "A")).map (fun r => r.1.toRat) =
      some (some 9007199254740992) ∧
    ((Database.CalcIndices 3 (ReadDatabase stodNat roundedInput State.empty).2).bind
      (fun s' => readName 1 s' "B")).map (fun r => r.1.toRat) = some (some 1) ∧
    ((Database.CalcIndices 3 (ReadDatabase stodNat roundedInput State.empty).2).bind
      (fun s' => readName 1 s' "X")).map (fun r => r.1.toRat) =
      some (some 9007199254740992) ∧
    (9007199254740992 : ℚ) ≠ 9007199254740992 + 1 := by
  refine ⟨?_, ?_, ?_, ?_, ?_, ?_, ?_, ?_⟩ <;> decide!

/-- C3, amended: after a record stream has loaded without error, `CalcIndices` followed by
`PrintIndices` returns and writes one line for each entry of the map `indices`, in the
order of the map, which is the strictly ascending order of the names; the lines are in the
order in which the formulas were declared exactly when the formulas were declared in
strictly ascending order of their names. -/
theorem C3_report_order (stod : String → Except Exception Dbl) (input : String) (s : State)
    (hload : ReadDatabase stod input State.empty = (.ok (), s)) :
    ∃ out, (∀ fuel, s.mem.cells.length ≤ fuel →
        ((Database.CalcIndices fuel s).bind (PrintIndices fuel)).map Prod.fst = some out) ∧
      out.map OutLine.name = (s.db.indices.map Prod.fst).map some ∧
      (s.db.indices.map Prod.fst).Sorted (· < ·) ∧
      (out.map OutLine.name = (formulaNames (records input)).map some ↔
        (formulaNames (records input)).Sorted (· < ·)) := by
  obtain ⟨hinv, _⟩ := ReadDatabase_table stod input s hload
  obtain ⟨hsorted, _, hdecl⟩ := ReadLoop_indices stod (records input) s hload
  obtain ⟨out, hout, hnames⟩ := report_spec hinv
  have hnames' : out.map OutLine.name = (s.db.indices.map Prod.fst).map some := by
    rw [hnames, List.map_map]; rfl
  refine ⟨out, hout, hnames', hsorted, ?_⟩
  rw [hnames']
  constructor
  · intro h
    have := List.map_injective_iff.2 (Option.some_injective String) h
    rw [← this]; exact hsorted
  · intro h
    rw [hdecl h]

/-- Witness of C3 on the example input, where `X` is declared before `Y`: the report lists
`X`, then `Y`. -/
theorem C3_report_order_witness :
    ReadDatabase stodNat exampleInput State.empty = (.ok (), exampleLoaded) ∧
    (((Database.CalcIndices 4 exampleLoaded).bind (PrintIndices 4)).map Prod.fst).map
      (List.map OutLine.name) = some [some "X", some "Y"] := by
  have hload : ReadDatabase stodNat exampleInput State.empty = (.ok (), exampleLoaded) := by
    decide!
  obtain ⟨out, hout, _, _, hiff⟩ := C3_report_order stodNat exampleInput exampleLoaded hload
  have hs : (formulaNames (records exampleInput)).Sorted (· < ·) := by
    decide!
  have hn := hiff.2 hs
  have hf : formulaNames (records exampleInput) = ["X", "Y"] := by decide
  rw [hf] at hn
  refine ⟨hload, ?_⟩
  rw [hout 4 (by decide!)]
  simp only [Option.map_some', hn, List.map_cons, List.map_nil]

/-- Counterexample to C3 as stated: the stream `R|A|S`, `R|Z|+|A|A`, `R|B|+|A|A`, `Q|A|1`
loads without error and declares the formula `Z` before the formula `B`, but the report
lists `B` before `Z`. -/
theorem C3_counterexample :
    (ReadDatabase stodNat descendingInput State.empty).1 = .ok () ∧
    formulaNames (records descendingInput) = ["Z", "B"] ∧
    main stodNat 3 descendingInput =
      some (0, [OutLine.report "B" (Dbl.num 2), OutLine.report "Z" (Dbl.num 2)]) := by
  refine ⟨?_, ?_, ?_⟩
  · decide!
  · decide
  · decide!

/-- The two endings of `main` in the embedding, where the release of `db` at the end of
the try block is taken to complete: for every input the run returns, in one of two ways:
exit status 0 with report lines only, when every record loaded; or exit status 1 with the
text of the exception as the only output, when some record raised in the state left by the
records before it. In every state reachable by loading, `CalcIndices` and then
`PrintIndices` return. -/
theorem main_exit_status (stod : String → Except Exception Dbl) (cin : String) :
    (∃ out, (∀ fuel, (records cin).length ≤ fuel → main stod fuel cin = some out) ∧
      ((out.1 = 0 ∧ (ReadDatabase stod cin State.empty).1 = .ok () ∧
          ∀ l ∈ out.2, ∃ name value, l = OutLine.report name value) ∨
        (out.1 = 1 ∧ ∃ e, (ReadDatabase stod cin State.empty).1 = .error e ∧
          out.2 = [OutLine.error e.what])) ∧
      (out.1 = 1 ↔ ∃ qs q rest s e, records cin = qs ++ q :: rest ∧
        ReadLoop stod qs State.empty = (.ok (), s) ∧ (ParseQuote stod q s).1 = .error e)) ∧
    (∀ s, Reachable stod s → ∃ s1 out s2, ∀ fuel, s.mem.cells.length ≤ fuel →
      Database.CalcIndices fuel s = some s1 ∧ PrintIndices fuel s1 = some (out, s2)) := by
  constructor
  · cases hread : ReadDatabase stod cin State.empty with
    | mk res s =>
      cases res with
      | error e =>
        have hfail : ∃ qs q rest s e, records cin = qs ++ q :: rest ∧
            ReadLoop stod qs State.empty = (.ok (), s) ∧ (ParseQuote stod q s).1 = .error e := by
          have h1 : (ReadLoop stod (records cin) State.empty).1 = .error e := by
            have : ReadLoop stod (records cin) State.empty = (.error e, s) := hread
            rw [this]
          obtain ⟨qs, q, rest, s', h⟩ := (ReadLoop_error_iff stod e _ _).1 h1
          exact ⟨qs, q, rest, s', e, h⟩
        refine ⟨(1, [OutLine.error e.what]), fun fuel _ => ?_, Or.inr ⟨rfl, e, rfl, rfl⟩,
          fun _ => hfail, fun _ => rfl⟩
        simp only [main, hread]
      | ok u =>
        obtain ⟨hinv, _⟩ := ReadDatabase_table stod cin s hread
        have hlen := ReadLoop_length stod (records cin) s hread
        obtain ⟨out, hout, hnames⟩ := report_spec hinv
        have hnames' : out.map OutLine.name = (s.db.indices.map Prod.fst).map some := by
          rw [hnames, List.map_map]; rfl
        refine ⟨(0, out), fun fuel hf => ?_, Or.inl ⟨rfl, rfl, report_of_names hnames'⟩,
          fun h => absurd h Nat.zero_ne_one, ?_⟩
        · have h := hout fuel (Nat.le_trans hlen hf)
          cases hc : Database.CalcIndices fuel s with
          | none => rw [hc] at h; cases h
          | some s1 =>
            rw [hc] at h
            simp only [Option.bind] at h
            cases hp : PrintIndices fuel s1 with
            | none => rw [hp] at h; cases h
            | some res =>
              obtain ⟨lines, s2⟩ := res
              rw [hp] at h
              simp only [Option.map_some', Option.some.injEq] at h
              simp only [main, hread, hc, hp, h]
        · rintro ⟨qs, q, rest, s', e, hsplit, hok, hfailq⟩
          have h1 := (ReadLoop_error_iff stod e (records cin) State.empty).2
            ⟨qs, q, rest, s', hsplit, hok, hfailq⟩
          have : ReadLoop stod (records cin) State.empty = (.ok u, s) := hread
          rw [this] at h1
          cases h1
  · intro s hr
    have hinv := hr.state_inv
    obtain ⟨s1, hs1, hdb, E, _⟩ := CalcIndices_spec hinv
    have hidx : ∀ e ∈ s1.db.indices, e.2 < s1.mem.cells.length := by
      intro e he
      rw [hdb] at he
      rw [E.len]
      exact isFormula_lt (hinv.indices e he)
    obtain ⟨out, s2, hp, _⟩ := PrintIndices_returns (E.wf hinv.wf) hidx
    exact ⟨s1, out, s2, fun fuel hf => ⟨hs1 fuel hf, hp fuel (by rw [E.len]; exact hf)⟩⟩

/-- The two endings on examples: the example input ends with status 0 and two report lines;
the input `R|Z|*|A|B` ends with status 1 and the text of the exception. -/
theorem main_exit_status_example :
    main stodNat 6 exampleInput =
      some (0, [OutLine.report "X" (Dbl.num 5), OutLine.report "Y" (Dbl.num 1)]) ∧
    main stodNat 1 "R|Z|*|A|B\n" = some (1, [OutLine.error "Unknown operation"]) := by
  constructor
  · obtain ⟨out, hout, _⟩ := (main_exit_status stodNat exampleInput).1
    have h := hout 6 (by decide)
    rw [h]
    have h' : main stodNat 6 exampleInput =
        some (0, [OutLine.report "X" (Dbl.num 5), OutLine.report "Y" (Dbl.num 1)]) := by
      decide!
    rw [h] at h'
    exact h'
  · obtain ⟨out, hout, _⟩ := (main_exit_status stodNat "R|Z|*|A|B\n").1
    have h := hout 1 (by decide)
    rw [h]
    have h' : main stodNat 1 "R|Z|*|A|B\n" = some (1, [OutLine.error "Unknown operation"]) := by
      decide
    rw [h] at h'
    exact h'

/-- C11: a record with fewer fields than its tag requires raises `out_of_range` and leaves
the whole state unchanged: an `R` record with fewer than three fields, a `+` or `-` rule
with fewer than five fields, and a `Q` record with fewer than three fields. -/
theorem C11_short_record (stod : String → Except Exception Dbl) (quote : Quote) (s : State) :
    (quote[0]? = some "R" → quote.length < 3 →
      ParseQuote stod quote s = (.error (.out_of_range "vector::at"), s)) ∧
    (quote[0]? = some "R" → (quote[2]? = some "+" ∨ quote[2]? = some "-") →
      quote.length < 5 → ∃ w, ParseQuote stod quote s = (.error (.out_of_range w), s)) ∧
    (quote[0]? = some "Q" → quote.length < 3 →
      ParseQuote stod quote s = (.error (.out_of_range "vector::at"), s)) := by
  refine ⟨fun h0 hlen => ?_, fun h0 hop hlen => ?_, fun h0 hlen => ?_⟩
  · match quote, h0, hlen with
    | [front], h0, _ =>
      have e : front = "R" := by simpa using h0
      subst e
      simp [ParseQuote, ParseRule, Quote.at]
    | [front, id], h0, _ =>
      have e : front = "R" := by simpa using h0
      subst e
      simp [ParseQuote, ParseRule, Quote.at]
    | _ :: _ :: _ :: _, _, hlen =>
      simp only [List.length_cons] at hlen
      omega
  · match quote, h0, hop, hlen with
    | [front, id, op], h0, hop, _ =>
      have e : front = "R" := by simpa using h0
      subst e
      have hop' : op = "+" ∨ op = "-" := by simpa using hop
      exact ⟨"vector::at", by simp [ParseQuote, ParseRule, Quote.at, ParseRule.fn, hop']⟩
    | [front, id, op, n1], h0, hop, _ =>
      have e : front = "R" := by simpa using h0
      subst e
      have hop' : op = "+" ∨ op = "-" := by simpa using hop
      cases l1 : s.db.values.lookup n1 with
      | none =>
        exact ⟨"unordered_map::at", by
          simp [ParseQuote, ParseRule, Quote.at, ParseRule.fn, hop', Database.GetValue, l1]⟩
      | some a1 =>
        exact ⟨"vector::at", by
          simp [ParseQuote, ParseRule, Quote.at, ParseRule.fn, hop', Database.GetValue, l1]⟩
    | [], h0, _, _ => simp at h0
    | [_], _, hop, _ => simp at hop
    | [_, _], _, hop, _ => simp at hop
    | _ :: _ :: _ :: _ :: _ :: _, _, _, hlen =>
      simp only [List.length_cons] at hlen
      omega
  · match quote, h0, hlen with
    | [front], h0, _ =>
      have e : front = "Q" := by simpa using h0
      subst e
      simp [ParseQuote, Quote.at]
    | [front, id], h0, _ =>
      have e : front = "Q" := by simpa using h0
      subst e
      simp [ParseQuote, Quote.at]
    | _ :: _ :: _ :: _, _, hlen =>
      simp only [List.length_cons] at hlen
      omega

/-- Witness of C11: `R|X`, `R|X|+|A` and `Q|A` on the state where `A` and `X` are declared. -/
theorem C11_short_record_witness :
    ParseQuote stodNat ["R", "X"] exampleState =
      (.error (.out_of_range "vector::at"), exampleState) ∧
    ParseQuote stodNat ["R", "X", "+", "A"] exampleState =
      (.error (.out_of_range "vector::at"), exampleState) ∧
    ParseQuote stodNat ["Q", "A"] exampleState =
      (.error (.out_of_range "vector::at"), exampleState) := by
  refine ⟨(C11_short_record stodNat ["R", "X"] exampleState).1 (by decide) (by decide), ?_,
    (C11_short_record stodNat ["Q", "A"] exampleState).2.2 (by decide) (by decide)⟩
  obtain ⟨w, hw⟩ := (C11_short_record stodNat ["R", "X", "+", "A"] exampleState).2.1
    (by decide) (by decide) (by decide)
  have h : (ParseQuote stodNat ["R", "X", "+", "A"] exampleState).1 =
      .error (.out_of_range "vector::at") := by decide
  rw [hw] at h ⊢
  simp only [Except.error.injEq] at h
  rw [h]

theorem ReadLoop_filter (stod : String → Except Exception Dbl) :
    ∀ (qs : List Quote) (s : State),
      ReadLoop stod (qs.filter isTagged) s = ReadLoop stod qs s := by
  intro qs
  induction qs with
  | nil => intro s; rfl
  | cons q rest ih =>
    intro s
    by_cases h : isTagged q = true
    · rw [List.filter_cons_of_pos h]
      simp only [ReadLoop]
      cases hq : ParseQuote stod q s with
      | mk res s1 =>
        cases res with
        | error e => rfl
        | ok u => exact ih s1
    · rw [List.filter_cons_of_neg h]
      simp only [isTagged, decide_eq_true_eq, not_or] at h
      have hskip : ParseQuote stod q s = (.ok (), s) :=
        (ParseQuote_ok_iff stod q s s).2 (Accepts.skip q s h.1 h.2)
      simp only [ReadLoop, hskip]
      exact ih s

/-- C20: a record whose first field is neither `R` nor `Q`, and the empty record, make
`ParseQuote` return normally with the whole state unchanged, whatever the other fields
are; loading a stream gives the same result as loading it without such records, so two
inputs that differ only in such records have the same exit status and output. -/
theorem C20_untagged_records (stod : String → Except Exception Dbl) :
    (∀ (quote : Quote) (s : State), quote[0]? ≠ some "R" → quote[0]? ≠ some "Q" →
      ParseQuote stod quote s = (.ok (), s)) ∧
    (∀ s : State, ParseQuote stod [] s = (.ok (), s)) ∧
    (∀ (qs : List Quote) (s : State),
      ReadLoop stod qs s = ReadLoop stod (qs.filter isTagged) s) ∧
    (∀ (fuel : Nat) (cin cin' : String),
      (records cin').filter isTagged = (records cin).filter isTagged →
      main stod fuel cin' = main stod fuel cin) := by
  refine ⟨fun quote s hR hQ => (ParseQuote_ok_iff stod quote s s).2 (Accepts.skip quote s hR hQ),
    fun s => rfl, fun qs s => (ReadLoop_filter stod qs s).symm, fun fuel cin cin' h => ?_⟩
  have e : ReadDatabase stod cin' State.empty = ReadDatabase stod cin State.empty := by
    unfold ReadDatabase
    rw [← ReadLoop_filter stod (records cin'), ← ReadLoop_filter stod (records cin), h]
  unfold main
  rw [e]

/-- Witness of C20: the record `X|Y|Z` changes nothing, and the example input with a
comment line and a line `|` added has the same status and output. -/
theorem C20_untagged_records_witness :
    ParseQuote stodNat ["X", "Y", "Z"] exampleState = (.ok (), exampleState) ∧
    main stodNat 6 "note|R|A\nR|A|S\nR|B|S\n|\nR|X|+|A|B\nR|Y|-|A|B\nQ|A|3\nQ|B|2\n" =
      main stodNat 6 exampleInput :=
  ⟨(C20_untagged_records stodNat).1 ["X", "Y", "Z"] exampleState (by decide) (by decide),
    (C20_untagged_records stodNat).2.2.2 6 exampleInput _ (by decide)⟩

/-- A call of `ParseQuote`, returning or raising, keeps every object and its closure. -/
theorem ParseQuote_keeps_fn (stod : String → Except Exception Dbl) (quote : Quote) (s : State)
    (p : ValuePtr) (c : Value) (hc : s.mem.cells[p]? = some c) :
    ∃ c', (ParseQuote stod quote s).2.mem.cells[p]? = some c' ∧ c'.m_fn = c.m_fn := by
  cases hq : ParseQuote stod quote s with
  | mk res s' =>
    cases res with
    | error e => rw [ParseQuote_error stod quote s e s' hq]; exact ⟨c, hc, rfl⟩
    | ok u => exact ((ParseQuote_ok_iff stod quote s s').1 hq).state_grows.2 p c hc

theorem applyAll_keeps_fn (stod : String → Except Exception Dbl) :
    ∀ (later : List Quote) (s : State) (p : ValuePtr) (c : Value), s.mem.cells[p]? = some c →
      ∃ c', (applyAll stod later s).mem.cells[p]? = some c' ∧ c'.m_fn = c.m_fn := by
  intro later
  induction later with
  | nil => intro s p c hc; exact ⟨c, hc, rfl⟩
  | cons q rest ih =>
    intro s p c hc
    obtain ⟨c1, hc1, hf1⟩ := ParseQuote_keeps_fn stod q s p c hc
    obtain ⟨c2, hc2, hf2⟩ := ih _ p c1 hc1
    exact ⟨c2, hc2, hf2.trans hf1⟩

theorem applyAll_reachable (stod : String → Except Exception Dbl) :
    ∀ (later : List Quote) (s : State), Reachable stod s →
      Reachable stod (applyAll stod later s) := by
  intro later
  induction later with
  | nil => intro s h; exact h
  | cons q rest ih => intro s h; exact ih _ (Reachable.step q s h)

theorem CalcLoop_keeps_fn (fuel : Nat) : ∀ (deps : List ValuePtr) (m m' : Memory),
    CalcLoop fuel deps m = some m' → ∀ (p : ValuePtr) (c : Value), m.cells[p]? = some c →
      ∃ c', m'.cells[p]? = some c' ∧ c'.m_fn = c.m_fn := by
  intro deps
  induction deps with
  | nil => intro m m' h p c hc; cases h; exact ⟨c, hc, rfl⟩
  | cons d rest ih =>
    intro m m' h p c hc
    simp only [CalcLoop] at h
    cases h1 : Value.GetValue fuel m d with
    | none => rw [h1] at h; cases h
    | some res =>
      obtain ⟨r, m1⟩ := res
      rw [h1] at h
      obtain ⟨_, cell, _, _⟩ := GetValue_frame _ _ _ _ _ h1
      obtain ⟨c1, hc1, hf1, _⟩ := cell p c hc
      obtain ⟨c2, hc2, hf2⟩ := ih m1 m' h p c1 hc1
      exact ⟨c2, hc2, hf2.trans hf1⟩

/-- C12: when a `+`/`-` rule is accepted, the closure of the object it makes captures the
two objects that its operand names resolve to at that moment, and after every sequence of
later records (accepted or not, re-declarations included), and after `CalcIndices`, that
object still holds the same closure over the same two objects. -/
theorem C12_captured_operands (stod : String → Except Exception Dbl) (s s1 : State)
    (id operation n1 n2 : String) (rest : List String)
    (hop : operation = "+" ∨ operation = "-")
    (hdecl : ParseQuote stod ("R" :: id :: operation :: n1 :: n2 :: rest) s = (.ok (), s1)) :
    ∃ arg1 arg2, s.db.values.lookup n1 = some arg1 ∧ s.db.values.lookup n2 = some arg2 ∧
      ∀ later : List Quote,
        (∃ c, (applyAll stod later s1).mem.cells[s.mem.cells.length]? = some c ∧
          c.m_fn = some ⟨operation = "+", arg1, arg2⟩) ∧
        ∀ (fuel : Nat) (s3 : State),
          Database.CalcIndices fuel (applyAll stod later s1) = some s3 →
          ∃ c, s3.mem.cells[s.mem.cells.length]? = some c ∧
            c.m_fn = some ⟨operation = "+", arg1, arg2⟩ := by
  have hacc := (ParseQuote_ok_iff stod _ s s1).1 hdecl
  have key : ∃ arg1 arg2, s.db.values.lookup n1 = some arg1 ∧
      s.db.values.lookup n2 = some arg2 ∧
      ∃ c, s1.mem.cells[s.mem.cells.length]? = some c ∧
        c.m_fn = some ⟨operation = "+", arg1, arg2⟩ := by
    cases hacc with
    | skip hR _ => exact absurd rfl hR
    | source id' _ _ h2 =>
      simp only [List.getElem?_cons_succ, List.getElem?_cons_zero, Option.some.injEq] at h2
      rw [h2] at hop
      rcases hop with h | h <;> exact absurd h (by decide)
    | formula id' op' m1 m2 a1 a2 _ _ h2 _ h3 h4 l1 l2 =>
      simp only [List.getElem?_cons_succ, List.getElem?_cons_zero, Option.some.injEq]
        at h2 h3 h4
      subst h2; subst h3; subst h4
      exact ⟨a1, a2, l1, l2, _, by simp only [make_shared]; exact List.getElem?_concat_length _ _,
        rfl⟩
    | quote id' literal value p h0 =>
      simp only [List.getElem?_cons_zero, Option.some.injEq] at h0
      exact absurd h0 (by decide)
  obtain ⟨arg1, arg2, l1, l2, c, hc, hfn⟩ := key
  refine ⟨arg1, arg2, l1, l2, fun later => ?_⟩
  obtain ⟨c2, hc2, hf2⟩ := applyAll_keeps_fn stod later s1 _ c hc
  refine ⟨⟨c2, hc2, hf2.trans hfn⟩, fun fuel s3 hcalc => ?_⟩
  unfold Database.CalcIndices at hcalc
  cases hloop : CalcLoop fuel (applyAll stod later s1).db.indexDependencies
      (applyAll stod later s1).mem with
  | none => rw [hloop] at hcalc; cases hcalc
  | some m3 =>
    rw [hloop] at hcalc
    cases hcalc
    obtain ⟨c3, hc3, hf3⟩ := CalcLoop_keeps_fn _ _ _ _ hloop _ c2 hc2
    exact ⟨c3, hc3, hf3.trans (hf2.trans hfn)⟩

/-- Witness of C12: `X = A + B` is declared after `R|A|S`, `R|B|S`; then `A` is declared
again twice and set; the object of `X` still captures the objects 0 and 1. -/
theorem C12_captured_operands_witness :
    (applyAll stodNat [["R", "A", "S"], ["R", "A", "+", "B", "B"], ["Q", "A", "7"]]
      (applyAll stodNat [["R", "A", "S"], ["R", "B", "S"], ["R", "X", "+", "A", "B"]]
        State.empty)).mem.cells[2]?.map Value.m_fn = some (some ⟨true, 0, 1⟩) := by
  obtain ⟨a1, a2, l1, l2, h⟩ := C12_captured_operands stodNat
    (applyAll stodNat [["R", "A", "S"], ["R", "B", "S"]] State.empty)
    (applyAll stodNat [["R", "A", "S"], ["R", "B", "S"], ["R", "X", "+", "A", "B"]] State.empty)
    "X" "+" "A" "B" [] (Or.inl rfl) (by decide)
  have e1 : a1 = 0 := by
    have : (applyAll stodNat [["R", "A", "S"], ["R", "B", "S"]] State.empty).db.values.lookup "A"
        = some 0 := by decide
    rw [this] at l1; exact (Option.some.inj l1).symm
  have e2 : a2 = 1 := by
    have : (applyAll stodNat [["R", "A", "S"], ["R", "B", "S"]] State.empty).db.values.lookup "B"
        = some 1 := by decide
    rw [this] at l2; exact (Option.some.inj l2).symm
  subst e1; subst e2
  obtain ⟨⟨c, hc, hfn⟩, _⟩ := h [["R", "A", "S"], ["R", "A", "+", "B", "B"], ["Q", "A", "7"]]
  have hlen : (applyAll stodNat [["R", "A", "S"], ["R", "B", "S"]] State.empty).mem.cells.length
      = 2 := by decide
  rw [hlen] at hc
  rw [hc]
  simp only [Option.map_some', hfn]
  rfl

theorem CalcLoop_initialized (fuel : Nat) : ∀ (deps : List ValuePtr) (m : Memory),
    (∀ p ∈ deps, ∃ c, m.cells[p]? = some c ∧ c.m_initialized = true) →
    CalcLoop (fuel + 1) deps m = some m := by
  intro deps
  induction deps with
  | nil => intro m _; rfl
  | cons d rest ih =>
    intro m h
    obtain ⟨c, hc, hi⟩ := h d (List.mem_cons_self _ _)
    simp only [CalcLoop, GetValue_initialized hc hi]
    exact ih m (fun p hp => h p (List.mem_cons_of_mem _ hp))

theorem PrintLoop_initialized (fuel : Nat) : ∀ (idx : List (String × ValuePtr)) (m : Memory),
    (∀ e ∈ idx, ∃ c, m.cells[e.2]? = some c ∧ c.m_initialized = true) →
    PrintLoop (fuel + 1) idx m =
      some (idx.map (fun e => OutLine.report e.1 (m.valueAt e.2)), m) := by
  intro idx
  induction idx with
  | nil => intro m _; rfl
  | cons e rest ih =>
    intro m h
    obtain ⟨c, hc, hi⟩ := h e (List.mem_cons_self _ _)
    simp only [PrintLoop, GetValue_initialized hc hi,
      ih m (fun x hx => h x (List.mem_cons_of_mem _ hx)), List.map_cons, Memory.valueAt, hc]

/-- After `CalcIndices` on a state of the loading phase, every object of the evaluation
list and of the map `indices` is initialized. -/
theorem CalcIndices_all_initialized {s : State} (hi : s.Inv) {fuel : Nat} {s1 : State}
    (h : Database.CalcIndices fuel s = some s1) :
    (∀ p ∈ s1.db.indexDependencies, ∃ c, s1.mem.cells[p]? = some c ∧ c.m_initialized = true) ∧
    (∀ e ∈ s1.db.indices, ∃ c, s1.mem.cells[e.2]? = some c ∧ c.m_initialized = true) := by
  obtain ⟨hdb, E, hinit⟩ := CalcIndices_unique hi h
  have formula : ∀ p, s.mem.isFormula p = true →
      ∃ c, s1.mem.cells[p]? = some c ∧ c.m_initialized = true := by
    intro p hp
    obtain ⟨c, fn, hc, hfn⟩ := isFormula_iff.1 hp
    obtain ⟨c', hc', st⟩ := E.cell p c hc
    exact ⟨c', hc', hinit p c' fn hc' (st.fn_eq.trans hfn)⟩
  constructor
  · intro p hp
    rw [hdb, hi.deps] at hp
    exact formula p (isFormula_iff.2 (mem_formulaCells.1 hp))
  · intro e he
    rw [hdb] at he
    exact formula e.2 (hi.indices e he)

/-- C13: in every state reachable by loading records, once `CalcIndices` has run, every
object that `PrintIndices` reads is initialized, and `PrintIndices` returns the stored
values and leaves the whole state (every object, the trace of closure calls, the
database) unchanged. -/
theorem C13_print_read_only (stod : String → Except Exception Dbl) (s s1 : State)
    (fuel : Nat) (hr : Reachable stod s) (hcalc : Database.CalcIndices fuel s = some s1) :
    (∀ e ∈ s1.db.indices, ∃ c, s1.mem.cells[e.2]? = some c ∧ c.m_initialized = true) ∧
    ∀ fuel', PrintIndices (fuel' + 1) s1 =
      some (s1.db.indices.map (fun e => OutLine.report e.1 (s1.mem.valueAt e.2)), s1) := by
  have hall := (CalcIndices_all_initialized hr.state_inv hcalc).2
  refine ⟨hall, fun fuel' => ?_⟩
  simp only [PrintIndices, PrintLoop_initialized fuel' _ _ hall]

/-- C14: in every state reachable by loading records, a second run of `CalcIndices` leaves
exactly the state of the first run: every object, and the trace of closure calls, so that
no closure runs again. -/
theorem C14_calc_idempotent (stod : String → Except Exception Dbl) (s s1 : State)
    (fuel : Nat) (hr : Reachable stod s) (hcalc : Database.CalcIndices fuel s = some s1) :
    ∀ fuel', Database.CalcIndices (fuel' + 1) s1 = some s1 := by
  have hall := (CalcIndices_all_initialized hr.state_inv hcalc).1
  intro fuel'
  simp only [Database.CalcIndices, CalcLoop_initialized fuel' _ _ hall]

theorem exampleLoaded_reachable : Reachable stodNat exampleLoaded :=
  ReadLoop_reachable stodNat (records exampleInput) Reachable.empty

/-- Witness of C13 on the example input: after `CalcIndices` the report is `X` 5, `Y` 1
and the state is unchanged. -/
theorem C13_print_read_only_witness :
    (Database.CalcIndices 4 exampleLoaded).isSome = true ∧
    (Database.CalcIndices 4 exampleLoaded).bind (PrintIndices 1) =
      (Database.CalcIndices 4 exampleLoaded).map (fun s1 =>
        ([OutLine.report "X" (Dbl.num 5), OutLine.report "Y" (Dbl.num 1)], s1)) := by
  have hsome : (Database.CalcIndices 4 exampleLoaded).isSome = true := by decide!
  refine ⟨hsome, ?_⟩
  obtain ⟨s1, h1⟩ := Option.isSome_iff_exists.1 hsome
  have hp := (C13_print_read_only stodNat exampleLoaded s1 4 exampleLoaded_reachable h1).2 0
  have hval : (Database.CalcIndices 4 exampleLoaded).map
      (fun s => s.db.indices.map (fun e => OutLine.report e.1 (s.mem.valueAt e.2))) =
      some [OutLine.report "X" (Dbl.num 5), OutLine.report "Y" (Dbl.num 1)] := by decide!
  rw [h1] at hval ⊢
  simp only [Option.map_some', Option.some.injEq] at hval
  simp only [Option.bind, Option.map_some']
  rw [hp, hval]

/-- Witness of C14 on the example input: the second run of `CalcIndices` returns the state
of the first. -/
theorem C14_calc_idempotent_witness :
    (Database.CalcIndices 4 exampleLoaded).isSome = true ∧
    (Database.CalcIndices 4 exampleLoaded).bind (Database.CalcIndices 1) =
      Database.CalcIndices 4 exampleLoaded := by
  refine ⟨by decide!, ?_⟩
  cases h1 : Database.CalcIndices 4 exampleLoaded with
  | none => rfl
  | some s1 =>
    simp only [Option.bind]
    exact C14_calc_idempotent stodNat exampleLoaded s1 4 exampleLoaded_reachable h1 0

theorem UnsetIsNan_alloc {m : Memory} (h : m.UnsetIsNan) (fn : Option Fn) :
    Memory.UnsetIsNan (make_shared fn m).2 := by
  intro p c hc hi
  rcases getElem?_concat_some hc with ⟨_, hc⟩ | ⟨_, hc⟩
  · exact h p c hc hi
  · rw [hc]

theorem Accepts.unset_is_nan {stod : String → Except Exception Dbl} {quote : Quote}
    {s s' : State} (h : Accepts stod quote s s') (hu : s.mem.UnsetIsNan) :
    s'.mem.UnsetIsNan := by
  cases h with
  | skip => exact hu
  | source id => exact UnsetIsNan_alloc hu none
  | formula id operation n1 n2 a1 a2 => exact UnsetIsNan_alloc hu _
  | quote id literal value p =>
    intro x c hc hi
    by_cases e : p = x
    · subst e
      simp only [Value.SetValue, List.getElem?_modify_eq] at hc
      cases hx : s.mem.cells[p]? with
      | none => rw [hx] at hc; cases hc
      | some w =>
        rw [hx] at hc
        simp only [Option.map_eq_map, Option.map_some', Option.some.injEq] at hc
        rw [← hc] at hi
        cases hi
    · simp only [Value.SetValue] at hc
      rw [List.getElem?_modify_ne _ _ e] at hc
      exact hu x c hc hi

theorem Reachable.unset_nan {stod : String → Except Exception Dbl} {s : State}
    (h : Reachable stod s) : s.mem.UnsetIsNan := by
  induction h with
  | empty => intro p c hc; simp [State.empty] at hc
  | step quote s _ ih =>
    cases hq : ParseQuote stod quote s with
    | mk res s' =>
      cases res with
      | error e => rw [ParseQuote_error stod quote s e s' hq]; exact ih
      | ok u => exact ((ParseQuote_ok_iff stod quote s s').1 hq).unset_is_nan ih

/-- C19: a call of `GetValue` on an object that is not initialized and holds no closure
raises nothing: it returns the stored `m_value`, marks the object initialized, runs no
closure and touches no other object. In every state reachable by loading records the value
returned is the initial `NAN`. The stream `R|A|S`, `R|X|+|A|A`, with no `Q` record, loads,
evaluates and reports `X` as `NAN` with exit status 0. -/
theorem C19_unset_source_reads_nan (stod : String → Except Exception Dbl) :
    (∀ (m : Memory) (p : ValuePtr) (c : Value), m.cells[p]? = some c →
      c.m_initialized = false → c.m_fn = none → ∀ fuel,
      Value.GetValue (fuel + 1) m p = some (c.m_value,
        { m with cells := m.cells.modify (fun c => { c with m_initialized := true }) p })) ∧
    (∀ (s : State), Reachable stod s → ∀ (p : ValuePtr) (c : Value),
      s.mem.cells[p]? = some c → c.m_initialized = false → c.m_fn = none → ∀ fuel,
      ∃ m', Value.GetValue (fuel + 1) s.mem p = some (NAN, m') ∧
        m'.cells[p]? = some { c with m_initialized := true } ∧ m'.calls = s.mem.calls ∧
        ∀ q, q ≠ p → m'.cells[q]? = s.mem.cells[q]?) ∧
    main stod 2 unsetInput = some (0, [OutLine.report "X" NAN]) := by
  have raw : ∀ (m : Memory) (p : ValuePtr) (c : Value), m.cells[p]? = some c →
      c.m_initialized = false → c.m_fn = none → ∀ fuel,
      Value.GetValue (fuel + 1) m p = some (c.m_value,
        { m with cells := m.cells.modify (fun c => { c with m_initialized := true }) p }) := by
    intro m p c hc hi hfn fuel
    rw [Value.GetValue, hc]
    simp only [hi, Bool.false_eq_true, if_false, hfn]
  refine ⟨raw, ?_, ?_⟩
  · intro s hr p c hc hi hfn fuel
    refine ⟨(⟨s.mem.cells.modify (fun c => { c with m_initialized := true }) p,
      s.mem.calls⟩ : Memory), ?_, ?_, rfl, ?_⟩
    · rw [raw s.mem p c hc hi hfn fuel, hr.unset_nan p c hc hi]
    · simp [hc]
    · intro q hq
      simp only
      rw [List.getElem?_modify_ne _ _ (Ne.symm hq)]
  · rfl

/-- Witness of C19: in the state after `R|A|S`, `R|X|+|A|A` the source `A` (object 0) reads
`NAN`, and the run on that input ends with status 0. -/
theorem C19_unset_source_reads_nan_witness :
    (Value.GetValue 1 exampleState.mem 0).map Prod.fst = some NAN ∧
    main stodNat 2 unsetInput = some (0, [OutLine.report "X" NAN]) := by
  have hr : Reachable stodNat exampleState :=
    Reachable.step _ _ (Reachable.step _ _ Reachable.empty)
  obtain ⟨m', hm', _⟩ := (C19_unset_source_reads_nan stodNat).2.1 exampleState hr 0
    { m_fn := none } (by decide) rfl rfl 0
  exact ⟨by rw [hm']; rfl, (C19_unset_source_reads_nan stodNat).2.2⟩

theorem readAll_evolves : ∀ (reads : List (Nat × ValuePtr)) (m m' : Memory), m.WF →
    readAll reads m = some m' → Evolves m m' := by
  intro reads
  induction reads with
  | nil => intro m m' _ h; cases h; exact Evolves.refl m
  | cons rd rest ih =>
    obtain ⟨fuel, p⟩ := rd
    intro m m' hw h
    simp only [readAll] at h
    cases h1 : Value.GetValue fuel m p with
    | none => rw [h1] at h; cases h
    | some res =>
      obtain ⟨r, m1⟩ := res
      rw [h1] at h
      obtain ⟨E1, _, _⟩ := GetValue_spec _ _ _ _ _ hw h1
      exact E1.trans (ih m1 m' (E1.wf hw) h)

theorem SetValue_wf {m : Memory} (hw : m.WF) (p : ValuePtr) (value : Dbl) :
    (Value.SetValue p value m).WF := by
  intro q c fn hc hfn
  simp only [Value.SetValue, List.getElem?_modify] at hc
  cases hq : m.cells[q]? with
  | none => rw [hq] at hc; cases hc
  | some w =>
    rw [hq] at hc
    simp only [Option.map_eq_map, Option.map_some', Option.some.injEq] at hc
    refine hw q w fn hq ?_
    rw [← hfn, ← hc]
    split <;> rfl

/-- C16: on a well-formed heap, when `X` is registered for a formula object that is not
initialized, the record `Q|X|literal` is accepted; it changes neither the database nor the
trace of closure calls, and stores the literal in the object. Without the record a read of
the object that returns runs its closure; after the record and any sequence of reads that
follows, the object still holds its closure and the literal, the closure has not run, a
read of `X` returns the literal, and the value of a formula that is computed then is the
sum or difference of what a read of its left operand and a read of its right operand
return, which is the literal for an operand that is the object of `X`. -/
theorem C16_quote_on_formula (stod : String → Except Exception Dbl) (s : State)
    (X literal : String) (rest : List String) (value : Dbl) (p : ValuePtr) (c : Value) (fn : Fn)
    (hw : s.mem.WF) (hl : s.db.values.lookup X = some p) (hc : s.mem.cells[p]? = some c)
    (hfn : c.m_fn = some fn) (hi : c.m_initialized = false)
    (hlit : stod literal = .ok value) :
    ParseQuote stod ("Q" :: X :: literal :: rest) s =
      (.ok (), { s with mem := Value.SetValue p value s.mem }) ∧
    (∀ (fuel : Nat) (x : Dbl) (m1 : Memory), Value.GetValue fuel s.mem p = some (x, m1) →
      m1.calls.count p = s.mem.calls.count p + 1) ∧
    ∀ (reads : List (Nat × ValuePtr)) (m' : Memory),
      readAll reads (Value.SetValue p value s.mem) = some m' →
      m'.cells[p]? = some ⟨true, value, some fn⟩ ∧
      m'.calls.count p = s.mem.calls.count p ∧
      (∀ fuel, readName (fuel + 1) ⟨m', s.db⟩ X = some (value, ⟨m', s.db⟩)) ∧
      ∀ (q : ValuePtr) (cq : Value) (g : Fn) (fuel : Nat) (r : Dbl) (m'' : Memory),
        m'.cells[q]? = some cq → cq.m_fn = some g → cq.m_initialized = false →
        Value.GetValue fuel m' q = some (r, m'') →
        ∃ a b, (∀ fuel', Value.GetValue (fuel' + 1) m'' g.arg1 = some (a, m'')) ∧
          (∀ fuel', Value.GetValue (fuel' + 1) m'' g.arg2 = some (b, m'')) ∧
          r = (if g.plus then a + b else a - b) ∧
          (g.arg1 = p → a = value) ∧ (g.arg2 = p → b = value) := by
  refine ⟨by simp [ParseQuote, Quote.at, hlit, SetValue_ok hl], fun fuel x m1 hget => ?_,
    fun reads m' hreads => ?_⟩
  · rw [GetValue_count_self fuel s.mem p c fn hc hfn x m1 hget, hi]
    rfl
  have hw1 : (Value.SetValue p value s.mem).WF := SetValue_wf hw p value
  have E := readAll_evolves reads _ m' hw1 hreads
  have hp1 : (Value.SetValue p value s.mem).cells[p]? =
      some { c with m_value := value, m_initialized := true } := SetValue_cell hc value
  have hp' : m'.cells[p]? = some { c with m_value := value, m_initialized := true } :=
    E.init hp1 rfl
  refine ⟨by rw [hp', ← hfn], ?_, fun fuel => ?_, ?_⟩
  · obtain ⟨v', _, st⟩ := E.cell p _ hp1
    rcases st with ⟨_, cnt⟩ | ⟨e, _⟩ | ⟨e, _⟩
    · exact cnt
    · cases e
    · cases e
  · exact @readName_initialized ⟨m', s.db⟩ X p _ hl hp' rfl fuel
  · intro q cq g fuel r m'' hq hg hqi hget
    have hw' := E.wf hw1
    obtain ⟨E2, _, v', hv', _, hr⟩ := GetValue_spec _ _ _ _ _ hw' hget
    obtain ⟨w, hw2, st⟩ := E2.cell q cq hq
    rw [hv'] at hw2
    cases hw2
    have hp'' := E2.init hp' rfl
    rcases st with ⟨e, _⟩ | ⟨_, f, _⟩ | ⟨_, _, _, _, g', hg', a, b, ha, hai, hb, hbi, hx⟩
    · have : v'.m_initialized = true := by
        obtain ⟨_, _, v2, hv2, hv2i, _⟩ := GetValue_spec _ _ _ _ _ hw' hget
        rw [hv'] at hv2; cases hv2; exact hv2i
      rw [e, hqi] at this; cases this
    · rw [f] at hg; cases hg
    · rw [hg] at hg'
      cases hg'
      refine ⟨a.m_value, b.m_value, fun fuel' => GetValue_initialized ha hai fuel',
        fun fuel' => GetValue_initialized hb hbi fuel', by rw [← hr, hx], fun e1 => ?_,
        fun e2 => ?_⟩
      · rw [e1, hp''] at ha; cases ha; rfl
      · rw [e2, hp''] at hb; cases hb; rfl

/-- Witness of C16 on the state after `R|A|S`, `R|X|+|A|A`, `R|Y|-|X|A`, `Q|A|5`: the
record `Q|X|1` is accepted, a read of `X` then returns 1 and a read of `Y` returns
1 - 5 = -4, whereas without the record `Y` reads (5 + 5) - 5 = 5. -/
theorem C16_quote_on_formula_witness :
    (ParseQuote stodNat ["Q", "X", "1"] dependantState).1 = .ok () ∧
    (readName 1 (ParseQuote stodNat ["Q", "X", "1"] dependantState).2 "X").map Prod.fst =
      some (Dbl.num 1) ∧
    (readName 2 (ParseQuote stodNat ["Q", "X", "1"] dependantState).2 "Y").map Prod.fst =
      some (Dbl.num (-4)) ∧
    (readName 3 dependantState "Y").map Prod.fst = some (Dbl.num 5) := by
  have hr : Reachable stodNat dependantState :=
    applyAll_reachable stodNat _ State.empty Reachable.empty
  obtain ⟨hq, _, hreads⟩ := C16_quote_on_formula stodNat dependantState "X" "1" []
    (Dbl.num 1) 1 { m_fn := some ⟨true, 0, 0⟩ } ⟨true, 0, 0⟩ hr.state_inv.wf (by decide!)
    (by decide!) rfl rfl (by decide!)
  obtain ⟨_, _, hread, hdep⟩ := hreads [] _ rfl
  have hsome : (Value.GetValue 2 (Value.SetValue 1 (Dbl.num 1) dependantState.mem) 2).isSome =
      true := by decide!
  obtain ⟨res, hget⟩ := Option.isSome_iff_exists.1 hsome
  obtain ⟨r, m''⟩ := res
  obtain ⟨a, b, _, hb, hrab, ha1, _⟩ := hdep 2 { m_fn := some ⟨false, 1, 0⟩ } ⟨false, 1, 0⟩ 2
    r m'' (by decide!) rfl rfl hget
  have hm : ((Value.GetValue 2 (Value.SetValue 1 (Dbl.num 1) dependantState.mem) 2).bind
      (fun res => Value.GetValue 1 res.2 0)).map Prod.fst = some (Dbl.num 5) := by decide!
  rw [hget] at hm
  simp only [Option.bind, hb 0, Option.map_some', Option.some.injEq] at hm
  have hY : r = Dbl.num (-4) := by
    rw [hrab, ha1 rfl, hm]
    decide!
  have hlook : dependantState.db.values.lookup "Y" = some 2 := by decide!
  rw [hq]
  refine ⟨rfl, by rw [hread 0]; rfl, ?_, by decide!⟩
  simp only [readName, hlook, hget, Option.map_some', hY]

theorem mapEmplace_keys_old {id : String} {value : ValuePtr} {l : List (String × ValuePtr)}
    {k : String} (h : k ∈ l.map Prod.fst) : k ∈ (mapEmplace id value l).map Prod.fst := by
  induction l with
  | nil => cases h
  | cons hd tl ih =>
    obtain ⟨k0, w⟩ := hd
    simp only [mapEmplace]
    split
    · simp only [List.map_cons]
      exact List.mem_cons_of_mem _ h
    · split
      · simp only [List.map_cons] at h ⊢
        rcases List.mem_cons.1 h with e | h
        · exact e ▸ List.mem_cons_self _ _
        · exact List.mem_cons_of_mem _ (ih h)
      · exact h

theorem mapEmplace_keys_self (id : String) (value : ValuePtr) (l : List (String × ValuePtr)) :
    id ∈ (mapEmplace id value l).map Prod.fst := by
  induction l with
  | nil => simp [mapEmplace]
  | cons hd tl ih =>
    obtain ⟨k0, w⟩ := hd
    simp only [mapEmplace]
    split
    · simp only [List.map_cons]
      exact List.mem_cons_self _ _
    · rename_i h1
      split
      · simp only [List.map_cons]
        exact List.mem_cons_of_mem _ ih
      · rename_i h2
        have e : id = k0 := le_antisymm (not_lt.1 h2) (not_lt.1 h1)
        simp only [List.map_cons, e]
        exact List.mem_cons_self _ _

/-- Every name declared with `+` or `-` is a key of `indices` after loading. -/
theorem ReadLoop_indices_complete (stod : String → Except Exception Dbl) (qs : List Quote)
    (s : State) (h : ReadLoop stod qs State.empty = (.ok (), s)) :
    ∀ n ∈ formulaNames qs, n ∈ s.db.indices.map Prod.fst := by
  refine ReadLoop_induction stod State.empty (fun qs s =>
    ∀ n ∈ formulaNames qs, n ∈ s.db.indices.map Prod.fst) ?_ ?_ qs s h
  · intro n hn; cases hn
  · intro qs s q s' _ ih hacc
    have same : ∀ id : String,
        (s.db.AddValue id s.mem.cells.length).indices = s.db.indices := by
      intro id; unfold Database.AddValue; split <;> rfl
    have keep : ∀ db' : Database, db'.indices = s.db.indices → isFormulaRule q = false →
        ∀ n ∈ formulaNames (qs ++ [q]), n ∈ db'.indices.map Prod.fst := by
      intro db' hdb hf
      rw [formulaNames_append, hf, hdb]
      simp only [Bool.false_eq_true, if_false, List.append_nil]
      exact ih
    cases hacc with
    | skip hR hQ => exact keep _ rfl (by simp [isFormulaRule, hR])
    | source id h0 h1 h2 => exact keep _ (same id) (by simp [isFormulaRule, h2])
    | quote id literal value p h0 => exact keep _ rfl (by simp [isFormulaRule, h0])
    | formula id operation n1 n2 a1 a2 h0 h1 h2 hop =>
      have hf : isFormulaRule q = true := by
        rcases hop with e | e <;> simp [isFormulaRule, h0, h2, e]
      rw [formulaNames_append, hf, h1]
      simp only [if_true, Database.AddIndex, same id]
      intro n hn
      rcases List.mem_append.1 hn with hn | hn
      · exact mapEmplace_keys_old (ih n hn)
      · rw [List.mem_singleton.1 hn]
        exact mapEmplace_keys_self _ _ _

/-- C17: after a record stream has loaded without error, the names on the report lines are
in strictly ascending order (the order of `String`, which is the lexicographic order of
the characters), a name is reported exactly when a `+` or `-` rule of the stream declares
it, and each such name is on exactly one line. -/
theorem C17_report_names_sorted (stod : String → Except Exception Dbl) (input : String)
    (s : State) (hload : ReadDatabase stod input State.empty = (.ok (), s)) :
    ∃ (out : List OutLine) (names : List String), (∀ fuel, s.mem.cells.length ≤ fuel →
        ((Database.CalcIndices fuel s).bind (PrintIndices fuel)).map Prod.fst = some out) ∧
      out.map OutLine.name = names.map some ∧
      names.Sorted (· < ·) ∧
      names.Sorted (fun a b => a.toList < b.toList) ∧
      (∀ n, n ∈ names ↔ n ∈ formulaNames (records input)) ∧
      names.Nodup ∧ out.length = names.length := by
  obtain ⟨hinv, _⟩ := ReadDatabase_table stod input s hload
  obtain ⟨hsorted, hsub, _⟩ := ReadLoop_indices stod (records input) s hload
  have hsup := ReadLoop_indices_complete stod (records input) s hload
  obtain ⟨out, hout, hnames⟩ := report_spec hinv
  have hnames' : out.map OutLine.name = (s.db.indices.map Prod.fst).map some := by
    rw [hnames, List.map_map]; rfl
  refine ⟨out, s.db.indices.map Prod.fst, hout, hnames', hsorted, ?_,
    fun n => ⟨hsub n, hsup n⟩, hsorted.nodup, ?_⟩
  · exact List.Pairwise.imp (fun h => String.lt_iff_toList_lt.1 h) hsorted
  · have := congrArg List.length hnames'
    simpa using this

/-- Witness of C17 on the input that declares `Z` before `B`: the report names are `B`,
then `Z`. -/
theorem C17_report_names_sorted_witness :
    (ReadDatabase stodNat descendingInput State.empty).1 = .ok () ∧
    (main stodNat 3 descendingInput).map (fun r => r.2.map OutLine.name) =
      some [some "B", some "Z"] := by
  have hload : ReadDatabase stodNat descendingInput State.empty =
      (.ok (), (ReadDatabase stodNat descendingInput State.empty).2) := by
    decide!
  obtain ⟨out, names, hout, hnames, hsorted, _, hmem, _, _⟩ :=
    C17_report_names_sorted stodNat descendingInput _ hload
  refine ⟨by rw [hload], ?_⟩
  have hmain : (main stodNat 3 descendingInput).map (fun r => r.2) = some out := by
    have h := hout 3 (by decide!)
    cases hc : Database.CalcIndices 3 (ReadDatabase stodNat descendingInput State.empty).2 with
    | none => rw [hc] at h; cases h
    | some s1 =>
      rw [hc] at h
      simp only [Option.bind] at h
      cases hp : PrintIndices 3 s1 with
      | none => rw [hp] at h; cases h
      | some res =>
        obtain ⟨lines, s2⟩ := res
        rw [hp] at h
        simp only [Option.map_some', Option.some.injEq] at h
        unfold main
        rw [hload]
        simp only [hc, hp, Option.map_some', h]
  have hcomp : (main stodNat 3 descendingInput).map (fun r => r.2.map OutLine.name) =
      ((main stodNat 3 descendingInput).map (fun r => r.2)).map (List.map OutLine.name) := by
    rw [Option.map_map]; rfl
  rw [hcomp, hmain, Option.map_some', hnames]
  -- a strictly ascending list whose members are `B` and `Z` is the list `B`, `Z`
  have hB : "B" ∈ names := (hmem "B").2 (by decide)
  have hZ : "Z" ∈ names := (hmem "Z").2 (by decide)
  have honly : ∀ n ∈ names, n = "B" ∨ n = "Z" := by
    intro n hn
    have := (hmem n).1 hn
    have hf : formulaNames (records descendingInput) = ["Z", "B"] := by decide
    rw [hf] at this
    simp only [List.mem_cons, List.mem_singleton, List.not_mem_nil, or_false] at this
    exact this.symm
  have hlt : "B" < "Z" := by decide!
  have hnames_eq : names = ["B", "Z"] := by
    match names, hsorted, hB, hZ, honly with
    | [], _, hB, _, _ => cases hB
    | [a], _, hB, hZ, _ =>
      have e1 : "B" = a := by simpa using hB
      have e2 : "Z" = a := by simpa using hZ
      rw [← e1] at e2
      exact absurd e2 (by decide)
    | [a, b], hs, hB, hZ, honly =>
      have hab : a < b := by
        have := List.sorted_cons.1 hs
        exact this.1 b (List.mem_cons_self _ _)
      rcases honly a (List.mem_cons_self _ _) with ea | ea <;>
        rcases honly b (List.mem_cons_of_mem _ (List.mem_cons_self _ _)) with eb | eb
      · subst ea; subst eb; exact absurd hab (lt_irrefl _)
      · rw [ea, eb]
      · subst ea; subst eb; exact absurd hab (lt_asymm hlt)
      · subst ea; subst eb; exact absurd hab (lt_irrefl _)
    | a :: b :: c :: rest, hs, _, _, honly =>
      exfalso
      have h1 := List.sorted_cons.1 hs
      have h2 := List.sorted_cons.1 h1.2
      have hab : a < b := h1.1 b (List.mem_cons_self _ _)
      have hbc : b < c := h2.1 c (List.mem_cons_self _ _)
      have ha := honly a (List.mem_cons_self _ _)
      have hb := honly b (List.mem_cons_of_mem _ (List.mem_cons_self _ _))
      have hc := honly c (List.mem_cons_of_mem _ (List.mem_cons_of_mem _ (List.mem_cons_self _ _)))
      rcases ha with ea | ea <;> rcases hb with eb | eb <;> rcases hc with ec | ec <;>
        subst ea <;> subst eb <;> subst ec <;>
        first
          | exact absurd hab (lt_irrefl _)
          | exact absurd hbc (lt_irrefl _)
          | exact absurd hab (lt_asymm hlt)
          | exact absurd hbc (lt_asymm hlt)
  rw [hnames_eq]
  rfl

theorem AddValue_registered {db : Database} {id : String} {p : ValuePtr}
    (h : db.values.lookup id = some p) (value : ValuePtr) : db.AddValue id value = db := by
  unfold Database.AddValue
  rw [h]

/-- The call `emplace` changes nothing when the key is in the map. -/
theorem mapEmplace_of_mem (id : String) (value : ValuePtr) :
    ∀ l : List (String × ValuePtr), (l.map Prod.fst).Sorted (· < ·) → id ∈ l.map Prod.fst →
      mapEmplace id value l = l := by
  intro l
  induction l with
  | nil => intro _ h; cases h
  | cons hd tl ih =>
    obtain ⟨k, w⟩ := hd
    intro hs hmem
    simp only [List.map_cons] at hs hmem
    obtain ⟨hlt, htl⟩ := List.sorted_cons.1 hs
    rcases List.mem_cons.1 hmem with e | hmem
    · subst e
      simp only [mapEmplace, lt_irrefl, if_false]
    · have hk : k < id := hlt id hmem
      simp only [mapEmplace, if_neg (lt_asymm hk), if_pos hk, ih htl hmem]

theorem ParseQuote_indices_sorted (stod : String → Except Exception Dbl) (quote : Quote)
    (s : State) (h : (s.db.indices.map Prod.fst).Sorted (· < ·)) :
    ((ParseQuote stod quote s).2.db.indices.map Prod.fst).Sorted (· < ·) := by
  have same : ∀ id : String,
      (s.db.AddValue id s.mem.cells.length).indices = s.db.indices := by
    intro id; unfold Database.AddValue; split <;> rfl
  cases hq : ParseQuote stod quote s with
  | mk res s' =>
    cases res with
    | error e => rw [ParseQuote_error stod quote s e s' hq]; exact h
    | ok u =>
      cases (ParseQuote_ok_iff stod quote s s').1 hq with
      | skip => exact h
      | source id => simp only [same id]; exact h
      | formula id operation n1 n2 a1 a2 =>
        simp only [Database.AddIndex, same id]
        exact mapEmplace_sorted _ _ _ h
      | quote id literal value p => exact h

theorem Reachable.indices_sorted {stod : String → Except Exception Dbl} {s : State}
    (h : Reachable stod s) : (s.db.indices.map Prod.fst).Sorted (· < ·) := by
  induction h with
  | empty => exact List.sorted_nil
  | step quote s _ ih => exact ParseQuote_indices_sorted stod quote s ih

/-- An object that no name and no entry of `indices` points to stays so: later records
register fresh objects only. -/
theorem ParseQuote_hidden (stod : String → Except Exception Dbl) (quote : Quote) (s : State)
    (x : ValuePtr) (hx : x < s.mem.cells.length) :
    x < (ParseQuote stod quote s).2.mem.cells.length ∧
    ((∀ (n : String) (q : ValuePtr), s.db.values.lookup n = some q → q ≠ x) →
      ∀ (n : String) (q : ValuePtr),
        (ParseQuote stod quote s).2.db.values.lookup n = some q → q ≠ x) ∧
    ((∀ e ∈ s.db.indices, e.2 ≠ x) →
      ∀ e ∈ (ParseQuote stod quote s).2.db.indices, e.2 ≠ x) := by
  have same : ∀ id : String,
      (s.db.AddValue id s.mem.cells.length).indices = s.db.indices := by
    intro id; unfold Database.AddValue; split <;> rfl
  have hne : s.mem.cells.length ≠ x := Nat.ne_of_gt hx
  have hlen : ∀ fn : Option Fn, x < (make_shared fn s.mem).2.cells.length := by
    intro fn
    simp only [make_shared, List.length_append, List.length_singleton]
    exact Nat.lt_succ_of_lt hx
  have hval : ∀ id : String,
      (∀ (n : String) (q : ValuePtr), s.db.values.lookup n = some q → q ≠ x) →
      ∀ (n : String) (q : ValuePtr),
        (s.db.AddValue id s.mem.cells.length).values.lookup n = some q → q ≠ x := by
    intro id hv n q hl
    rcases lookup_AddValue hl with hl | ⟨_, hq, _⟩
    · exact hv n q hl
    · rw [hq]; exact hne
  cases hq : ParseQuote stod quote s with
  | mk res s' =>
    cases res with
    | error e =>
      rw [ParseQuote_error stod quote s e s' hq]
      exact ⟨hx, fun h => h, fun h => h⟩
    | ok u =>
      cases (ParseQuote_ok_iff stod quote s s').1 hq with
      | skip => exact ⟨hx, fun h => h, fun h => h⟩
      | source id =>
        exact ⟨hlen none, hval id, fun h e he => h e (by rw [same id] at he; exact he)⟩
      | formula id operation n1 n2 a1 a2 =>
        refine ⟨hlen _, hval id, fun h e he => ?_⟩
        simp only [Database.AddIndex, same id] at he
        rcases mem_mapEmplace he with he | he
        · exact h e he
        · rw [he]; exact hne
      | quote id literal value p =>
        refine ⟨?_, fun h => h, fun h => h⟩
        simp only [Value.SetValue, List.length_modify]
        exact hx

theorem applyAll_hidden (stod : String → Except Exception Dbl) (x : ValuePtr) :
    ∀ (later : List Quote) (s : State), x < s.mem.cells.length →
      ((∀ (n : String) (q : ValuePtr), s.db.values.lookup n = some q → q ≠ x) →
        ∀ (n : String) (q : ValuePtr),
          (applyAll stod later s).db.values.lookup n = some q → q ≠ x) ∧
      ((∀ e ∈ s.db.indices, e.2 ≠ x) →
        ∀ e ∈ (applyAll stod later s).db.indices, e.2 ≠ x) := by
  intro later
  induction later with
  | nil => intro s _; exact ⟨fun h => h, fun h => h⟩
  | cons q rest ih =>
    intro s hx
    obtain ⟨h1, h2, h3⟩ := ParseQuote_hidden stod q s x hx
    obtain ⟨i2, i3⟩ := ih _ h1
    exact ⟨fun h => i2 (h2 h), fun h => i3 (h3 h)⟩

theorem applyAll_deps_mem (stod : String → Except Exception Dbl) (x : ValuePtr) :
    ∀ (later : List Quote) (s : State), x ∈ s.db.indexDependencies →
      x ∈ (applyAll stod later s).db.indexDependencies := by
  intro later
  induction later with
  | nil => intro s h; exact h
  | cons q rest ih =>
    intro s h
    exact ih _ ((ParseQuote_frame stod s q).2.2.2.subset h)

/-- C18, amended: when `name` is registered, a later `R` record for `name` that is accepted
leaves the whole name table unchanged, so that `lookup(name)` returns the same object, and,
when `name` already is a key of `indices`, leaves `indices` unchanged. If the record is a
`+`/`-` rule, its new object is appended to the evaluation list and stays there, it is
initialized by `CalcIndices`, and no name is ever registered for it; it is never an entry
of `indices` when `name` already was a key of `indices`, and it is the entry of `indices`
under `name` when `name` was not. -/
theorem C18_redeclaration (stod : String → Except Exception Dbl) (s s1 : State) (quote : Quote)
    (name : String) (p : ValuePtr) (hr : Reachable stod s)
    (hreg : s.db.values.lookup name = some p)
    (h0 : quote[0]? = some "R") (h1 : quote[1]? = some name)
    (hok : ParseQuote stod quote s = (.ok (), s1)) :
    s1.db.values = s.db.values ∧
    s1.db.values.lookup name = some p ∧
    (name ∈ s.db.indices.map Prod.fst → s1.db.indices = s.db.indices) ∧
    (isFormulaRule quote = false →
      s1.db.indices = s.db.indices ∧ s1.db.indexDependencies = s.db.indexDependencies) ∧
    (isFormulaRule quote = true →
      s1.db.indexDependencies = s.db.indexDependencies ++ [s.mem.cells.length] ∧
      s1.mem.isFormula s.mem.cells.length = true ∧
      (name ∉ s.db.indices.map Prod.fst → (name, s.mem.cells.length) ∈ s1.db.indices) ∧
      ∀ later : List Quote,
        s.mem.cells.length ∈ (applyAll stod later s1).db.indexDependencies ∧
        (∀ n, (applyAll stod later s1).db.values.lookup n ≠ some s.mem.cells.length) ∧
        (name ∈ s.db.indices.map Prod.fst →
          ∀ e ∈ (applyAll stod later s1).db.indices, e.2 ≠ s.mem.cells.length) ∧
        ∀ (fuel : Nat) (s3 : State),
          Database.CalcIndices fuel (applyAll stod later s1) = some s3 →
          ∃ c, s3.mem.cells[s.mem.cells.length]? = some c ∧ c.m_initialized = true) := by
  have hinv := hr.state_inv
  have hsorted := hr.indices_sorted
  have hr1 : Reachable stod s1 := by
    have := Reachable.step quote s hr
    rw [hok] at this
    exact this
  -- what follows for the new object from the shape of the state after the record
  have later_part : s.mem.cells.length < s1.mem.cells.length →
      s.mem.cells.length ∈ s1.db.indexDependencies → s1.db.values = s.db.values →
      (name ∈ s.db.indices.map Prod.fst → s1.db.indices = s.db.indices) →
      ∀ later : List Quote,
        s.mem.cells.length ∈ (applyAll stod later s1).db.indexDependencies ∧
        (∀ n, (applyAll stod later s1).db.values.lookup n ≠ some s.mem.cells.length) ∧
        (name ∈ s.db.indices.map Prod.fst →
          ∀ e ∈ (applyAll stod later s1).db.indices, e.2 ≠ s.mem.cells.length) ∧
        ∀ (fuel : Nat) (s3 : State),
          Database.CalcIndices fuel (applyAll stod later s1) = some s3 →
          ∃ c, s3.mem.cells[s.mem.cells.length]? = some c ∧ c.m_initialized = true := by
    intro hlen hdep hval hidx later
    have hid := applyAll_hidden stod s.mem.cells.length later s1 hlen
    refine ⟨applyAll_deps_mem stod _ later s1 hdep, fun n hn => ?_, fun hmem e he => ?_,
      fun fuel s3 hcalc => ?_⟩
    · exact hid.1 (fun n q hl => Nat.ne_of_lt (hinv.values n q (hval ▸ hl))) n _ hn rfl
    · refine hid.2 (fun e he => ?_) e he
      rw [hidx hmem] at he
      exact Nat.ne_of_lt (isFormula_lt (hinv.indices e he))
    · have hr2 := applyAll_reachable stod later s1 hr1
      exact (CalcIndices_all_initialized hr2.state_inv hcalc).1 _
        (by rw [(CalcIndices_unique hr2.state_inv hcalc).1]
            exact applyAll_deps_mem stod _ later s1 hdep)
  have hacc := (ParseQuote_ok_iff stod quote s s1).1 hok
  cases hacc with
  | skip hR _ => exact absurd h0 hR
  | quote id literal value q hQ =>
    rw [h0] at hQ
    exact absurd hQ (by decide)
  | source id _ hid h2 =>
    rw [h1] at hid
    cases hid
    have hf : isFormulaRule quote = false := by simp [isFormulaRule, h2]
    rw [AddValue_registered hreg]
    exact ⟨rfl, hreg, fun _ => rfl, fun _ => ⟨rfl, rfl⟩, fun h => by rw [hf] at h; cases h⟩
  | formula id operation n1 n2 a1 a2 _ hid h2 hop h3 h4 l1 l2 =>
    rw [h1] at hid
    cases hid
    have hf : isFormulaRule quote = true := by
      rcases hop with e | e <;> simp [isFormulaRule, h0, h2, e]
    rw [AddValue_registered hreg] at later_part ⊢
    have hidx : name ∈ s.db.indices.map Prod.fst →
        (s.db.AddIndex name s.mem.cells.length).indices = s.db.indices := by
      intro hmem
      simp only [Database.AddIndex]
      rw [mapEmplace_of_mem _ _ _ hsorted hmem]
    have hcell : (make_shared (some (⟨operation = "+", a1, a2⟩ : Fn)) s.mem).2.isFormula
        s.mem.cells.length = true := by
      simp only [make_shared]
      rw [isFormula_append_length]
      rfl
    have hdep : s.mem.cells.length ∈
        (s.db.AddIndex name s.mem.cells.length).indexDependencies := by
      simp only [Database.AddIndex]
      exact List.mem_append_right _ (List.mem_singleton_self _)
    have hlen : s.mem.cells.length <
        (make_shared (some (⟨operation = "+", a1, a2⟩ : Fn)) s.mem).2.cells.length := by
      simp only [make_shared, List.length_append, List.length_singleton]
      exact Nat.lt_succ_self _
    refine ⟨rfl, hreg, hidx, fun h => (by rw [hf] at h; cases h), fun _ =>
      ⟨rfl, hcell, fun hnot => ?_, later_part hlen hdep rfl hidx⟩⟩
    simp only [Database.AddIndex]
    have hk := mapEmplace_keys_self name s.mem.cells.length s.db.indices
    obtain ⟨e, he, hek⟩ := List.mem_map.1 hk
    rcases mem_mapEmplace he with hold | hnew
    · exact absurd (List.mem_map.2 ⟨e, hold, hek⟩) hnot
    · rw [hnew] at he; exact he

/-- Witness of C18 on the state after `R|A|S`, `R|X|+|A|A`: the rule `R|X|-|A|A` is
accepted, `X` still resolves to object 1, the map `indices` is unchanged, and the new
object 2 is appended to the evaluation list. -/
theorem C18_redeclaration_witness :
    (ParseQuote stodNat ["R", "X", "-", "A", "A"] exampleState).1 = .ok () ∧
    (ParseQuote stodNat ["R", "X", "-", "A", "A"] exampleState).2.db.values.lookup "X" =
      some 1 ∧
    (ParseQuote stodNat ["R", "X", "-", "A", "A"] exampleState).2.db.indices =
      exampleState.db.indices ∧
    (ParseQuote stodNat ["R", "X", "-", "A", "A"] exampleState).2.db.indexDependencies =
      [1, 2] := by
  have hr : Reachable stodNat exampleState :=
    Reachable.step _ _ (Reachable.step _ _ Reachable.empty)
  have hok : ParseQuote stodNat ["R", "X", "-", "A", "A"] exampleState =
      (.ok (), (ParseQuote stodNat ["R", "X", "-", "A", "A"] exampleState).2) := by
    decide!
  obtain ⟨_, hlook, hidx, _, hform⟩ := C18_redeclaration stodNat exampleState _
    ["R", "X", "-", "A", "A"] "X" 1 hr (by decide) (by decide) (by decide) hok
  refine ⟨by rw [hok], hlook, hidx (by decide!), ?_⟩
  rw [(hform (by decide)).1]
  decide!

/-- Counterexample to C18 as stated: after `R|A|S` the name `A` is registered and nothing is
reported under it; the later rule `R|A|+|A|A` is accepted, and its new object 1 becomes the
entry of `indices` under `A` and is reported: the run on `R|A|S`, `R|A|+|A|A`, `Q|A|1`
prints `A` as 2. -/
theorem C18_counterexample :
    (ParseQuote stodNat ["R", "A", "S"] State.empty).2.db.values.lookup "A" = some 0 ∧
    (ParseQuote stodNat ["R", "A", "S"] State.empty).2.db.indices = [] ∧
    (ParseQuote stodNat ["R", "A", "+", "A", "A"]
      (ParseQuote stodNat ["R", "A", "S"] State.empty).2).1 = .ok () ∧
    (ParseQuote stodNat ["R", "A", "+", "A", "A"]
      (ParseQuote stodNat ["R", "A", "S"] State.empty).2).2.db.indices = [("A", 1)] ∧
    main stodNat 3 redeclaredInput = some (0, [OutLine.report "A" (Dbl.num 2)]) := by
  refine ⟨?_, ?_, ?_, ?_, ?_⟩ <;> decide!

theorem digitChar_isDigit (d : Nat) (h : d < 10) : (Nat.digitChar d).isDigit = true := by
  interval_cases d <;> rfl

theorem toDigitsCore_isDigit : ∀ (fuel n : Nat) (acc : List Char),
    (∀ c ∈ acc, c.isDigit = true) → ∀ c ∈ Nat.toDigitsCore 10 fuel n acc, c.isDigit = true := by
  intro fuel
  induction fuel with
  | zero => intro n acc h c hc; exact h c hc
  | succ fuel ih =>
    intro n acc h c hc
    have hcons : ∀ x ∈ Nat.digitChar (n % 10) :: acc, x.isDigit = true := by
      intro x hx
      rcases List.mem_cons.1 hx with e | hx
      · rw [e]; exact digitChar_isDigit _ (Nat.mod_lt _ (by decide))
      · exact h x hx
    simp only [Nat.toDigitsCore] at hc
    split at hc
    · exact hcons c hc
    · exact ih _ _ hcons c hc

theorem toDigitsCore_ne_nil : ∀ (fuel n : Nat) (acc : List Char), acc ≠ [] →
    Nat.toDigitsCore 10 fuel n acc ≠ [] := by
  intro fuel
  induction fuel with
  | zero => intro n acc h; exact h
  | succ fuel ih =>
    intro n acc _
    simp only [Nat.toDigitsCore]
    split
    · exact List.cons_ne_nil _ _
    · exact ih _ _ (List.cons_ne_nil _ _)

theorem toDigits_ne_nil (n : Nat) : Nat.toDigits 10 n ≠ [] := by
  unfold Nat.toDigits
  simp only [Nat.toDigitsCore]
  split
  · exact List.cons_ne_nil _ _
  · exact toDigitsCore_ne_nil _ _ _ (List.cons_ne_nil _ _)

/-- A finite number is printed as a minus sign when its sign bit is set, then the decimal
digits of the integer part of a number `n` of hundredths, a point, and the two digits of the
rest of `n`, where `n` hundredths are within half a hundredth of the magnitude. -/
theorem fixed2_fin (sign : Bool) (e : Fin 2047) (f : Fin 4503599627370496) :
    ∃ (n : Nat),
      (fixed2 (.fin sign e f)).data = (if sign then ['-'] else []) ++ Nat.toDigits 10 (n / 100) ++
        ['.', Nat.digitChar (n % 100 / 10), Nat.digitChar (n % 10)] ∧
      Nat.toDigits 10 (n / 100) ≠ [] ∧ (∀ c ∈ Nat.toDigits 10 (n / 100), c.isDigit = true) ∧
      (Nat.digitChar (n % 100 / 10)).isDigit = true ∧ (Nat.digitChar (n % 10)).isDigit = true ∧
      ∀ q, (Dbl.fin sign e f).toRat = some q → |(n : ℚ) / 100 - abs q| ≤ 1 / 200 := by
  refine ⟨roundHalfEven (Dbl.units e f * 100) (2 ^ 1074), rfl, toDigits_ne_nil _, ?_, ?_, ?_, ?_⟩
  · intro c hc
    exact toDigitsCore_isDigit _ _ [] (fun c hc => by cases hc) c hc
  · exact digitChar_isDigit _ (Nat.div_lt_of_lt_mul (Nat.mod_lt _ (by decide)))
  · exact digitChar_isDigit _ (Nat.mod_lt _ (by decide))
  · intro q hq
    obtain ⟨s', e', f', hd, habs⟩ := Dbl.abs_toRat hq
    cases hd
    rw [habs]
    have hg : 0 < 2 ^ 1074 := pow_pos (by decide) 1074
    have h := roundHalfEven_near (Dbl.units e f) 100 hg (by decide)
    have e1 : (1 : ℚ) / (2 * ((100 : Nat) : ℚ)) = 1 / 200 := by norm_num
    have e2 : ((100 : Nat) : ℚ) = 100 := Nat.cast_ofNat
    rw [e1, e2] at h
    exact h

/-- C15, amended: after a record stream has loaded without error, every line of the report
is the name, a colon and a blank, and the value as the library prints it: a finite value
in fixed-point with exactly two fraction digits, that is a minus sign when its sign bit is
set, the digits of the integer part, a point and two digits, of the hundredths nearest to
the value (5 as `5.00`, -1 as `-1.00`); an infinite value as `inf` or `-inf`, and a value
that is not a number as `nan` or `-nan`. Values that are not finite do occur with finite
literals: with `A` set to `10 ^ 308` the sum `A + A` is printed as `inf`, and the
difference of that sum and itself as `-nan`. -/
theorem C15_report_format (stod : String → Except Exception Dbl) (input : String) (s : State)
    (hload : ReadDatabase stod input State.empty = (.ok (), s)) :
    (∃ out, (∀ fuel, s.mem.cells.length ≤ fuel →
        ((Database.CalcIndices fuel s).bind (PrintIndices fuel)).map Prod.fst = some out) ∧
      ∀ l ∈ out, ∃ name value, l = OutLine.report name value ∧
        l.render = name ++ ": " ++ fixed2 value ∧
        (∀ sign e f, value = Dbl.fin sign e f →
          ∃ (n : Nat) (digits : List Char) (c1 c2 : Char),
            (fixed2 value).data = (if sign then ['-'] else []) ++ digits ++ ['.', c1, c2] ∧
            digits = Nat.toDigits 10 (n / 100) ∧ c1 = Nat.digitChar (n % 100 / 10) ∧
            c2 = Nat.digitChar (n % 10) ∧ digits ≠ [] ∧ (∀ c ∈ digits, c.isDigit = true) ∧
            c1.isDigit = true ∧ c2.isDigit = true ∧
            ∀ q, value.toRat = some q → |(n : ℚ) / 100 - abs q| ≤ 1 / 200) ∧
        (∀ sign, value = Dbl.inf sign → fixed2 value = if sign then "-inf" else "inf") ∧
        (∀ sign, value = Dbl.nan sign → fixed2 value = if sign then "-nan" else "nan")) ∧
    fixed2 (Dbl.num 5) = "5.00" ∧ fixed2 (Dbl.num (-1)) = "-1.00" ∧
    (main stodNat 3 overflowInput).map (fun r => (r.1, r.2.map OutLine.render)) =
      some (0, ["X: inf", "Y: -nan"]) := by
  refine ⟨?_, by decide!, by decide!, by decide!⟩
  obtain ⟨hinv, _⟩ := ReadDatabase_table stod input s hload
  obtain ⟨out, hout, hnames⟩ := report_spec hinv
  have hnames' : out.map OutLine.name = (s.db.indices.map Prod.fst).map some := by
    rw [hnames, List.map_map]; rfl
  refine ⟨out, hout, fun l hl => ?_⟩
  obtain ⟨name, value, e⟩ := report_of_names hnames' l hl
  subst e
  refine ⟨name, value, rfl, rfl, ?_, ?_, ?_⟩
  · intro sign e f h
    rw [h]
    obtain ⟨n, h1, h2, h3, h4, h5, h6⟩ := fixed2_fin sign e f
    exact ⟨n, _, _, _, h1, rfl, rfl, rfl, h2, h3, h4, h5, h6⟩
  · intro sign h
    rw [h]
    rfl
  · intro sign h
    rw [h]
    rfl

/-- Witness of C15: the input `R|A|S`, `R|B|S`, `R|X|+|A|B`, `Q|A|10`, `Q|B|5` produces
exactly the one line `X: 15.00`, with exit status 0. -/
theorem C15_report_format_witness :
    ReadDatabase stodNat endToEndInput State.empty =
      (.ok (), (ReadDatabase stodNat endToEndInput State.empty).2) ∧
    (main stodNat 3 endToEndInput).map (fun r => (r.1, r.2.map OutLine.render)) =
      some (0, ["X: 15.00"]) := by
  have hload : ReadDatabase stodNat endToEndInput State.empty =
      (.ok (), (ReadDatabase stodNat endToEndInput State.empty).2) := by
    decide!
  obtain ⟨⟨out, hout, hlines⟩, _, _⟩ := C15_report_format stodNat endToEndInput _ hload
  refine ⟨hload, ?_⟩
  have hmain : main stodNat 3 endToEndInput = some (0, [OutLine.report "X" (Dbl.num 15)]) := by
    decide!
  have h3 := hout 3 (by decide!)
  have hout_eq : out = [OutLine.report "X" (Dbl.num 15)] := by
    have : ((Database.CalcIndices 3 (ReadDatabase stodNat endToEndInput State.empty).2).bind
        (PrintIndices 3)).map Prod.fst = some [OutLine.report "X" (Dbl.num 15)] := by
      decide!
    rw [this] at h3
    exact (Option.some.inj h3).symm
  obtain ⟨name, value, hl, hrender, _, _⟩ := hlines (OutLine.report "X" (Dbl.num 15))
    (by rw [hout_eq]; exact List.mem_singleton_self _)
  have hname : name = "X" := (OutLine.report.inj hl).1.symm
  have hvalue : value = Dbl.num 15 := (OutLine.report.inj hl).2.symm
  subst hname
  rw [hvalue] at hrender
  rw [hmain]
  simp only [Option.map_some', List.map_cons, List.map_nil, hrender]
  decide!

/-- Counterexample to C15 as stated: the stream `R|A|S`, `R|X|+|A|A` loads without error
and its report line is `X: nan`, with no fraction digits. -/
theorem C15_counterexample :
    (ReadDatabase stodNat unsetInput State.empty).1 = .ok () ∧
    (main stodNat 2 unsetInput).map (fun r => (r.1, r.2.map OutLine.render)) =
      some (0, ["X: nan"]) := by
  constructor <;> decide!

end CustomIndices
